import Mathlib

/-!
# micro_grad_cpp: the scalar reverse-mode engine of `nn.cpp`

The `value` nodes of `nn.cpp` live on the heap behind `std::shared_ptr`.  The
embedding keeps that picture: a node is identified by its address (a natural
number), the heap is a partial map from addresses to node records, and every
builder receives the address that `std::make_shared` hands out for each node it
allocates.  `prev` is a `std::multiset<std::shared_ptr<value>>`: its keys are
the pointers, so it is ordered by `std::less` on the pointers (the member
`value::operator<`, which compares `data`, is never called) and iterates in
nondecreasing address order, which is what `backward` sees as "first" and
"second" operand.

`double` is modelled by a linearly ordered commutative ring `α` (exact
arithmetic); the `<cmath>` functions are a parameter `CMath α`.  Where the rounding
of `double` decides the outcome, `backward_rounded` makes it explicit.
-/

set_option linter.unusedSectionVars false

namespace MicroGrad

/-- The functions of `<cmath>` used by `nn.cpp` (`std::pow`, `std::tanh`,
`std::exp`, `std::log`); they are not part of the repository. -/
structure CMath (α : Type) where
  pow : α → α → α
  tanh : α → α
  exp : α → α
  log : α → α

/-- A node: `struct value`.  `prev` is kept in the iteration order of the
multiset (nondecreasing addresses). -/
structure value (α : Type) where
  data : α
  grad : α
  prev : List Nat
  op : String
  label : String
deriving DecidableEq

/-- The heap: which node lives at which address. -/
abbrev Heap (α : Type) := Nat → Option (value α)

/-- The heap with no node allocated. -/
def Heap.empty {α : Type} : Heap α := fun _ => none

/-- Store a node record at an address. -/
def Heap.write {α : Type} (h : Heap α) (p : Nat) (v : value α) : Heap α :=
  fun q => if q = p then some v else h q

/-- Read `p->grad`. -/
def getGrad {α : Type} (h : Heap α) (p : Nat) : Option α := (h p).map value.grad

/-- Read `p->data`. -/
def getData {α : Type} (h : Heap α) (p : Nat) : Option α := (h p).map value.data

/-- The statement `c->grad += d`. -/
def addGrad {α : Type} [Add α] (h : Heap α) (c : Nat) (d : α) : Option (Heap α) :=
  match h c with
  | none => none
  | some v => some (h.write c { v with grad := v.grad + d })

/-- The statement `p->grad = g` (seeding, as `o->grad = 1` in `main`). -/
def setGrad {α : Type} (h : Heap α) (p : Nat) (g : α) : Option (Heap α) :=
  match h p with
  | none => none
  | some v => some (h.write p { v with grad := g })

/-- `std::multiset::insert` under `std::less<std::shared_ptr<value>>`: the new
pointer goes after every element whose address is not greater. -/
def multiset_insert (p : Nat) : List Nat → List Nat
  | [] => [p]
  | q :: qs => if p < q then p :: q :: qs else q :: multiset_insert p qs

/-- A range-based `for (const auto& child : this->prev) body`. -/
def forEach {α : Type} (body : Heap α → Nat → Option (Heap α)) :
    List Nat → Heap α → Option (Heap α)
  | [], h => some h
  | child :: rest, h =>
    match body h child with
    | none => none
    | some h1 => forEach body rest h1

section Backward

variable {α : Type} [LinearOrderedCommRing α]

/-- `value::backward`, with a recursion budget: `none` when the budget is
exhausted, when a pointer is not allocated, or when `*` / `pow` find fewer than
two operands (dereferencing `end()`).  The diagnostic output of the `exp`
branch is not modelled. -/
def backward (M : CMath α) : Nat → Heap α → Nat → Option (Heap α)
  | 0, _, _ => none
  | fuel + 1, h, self =>
    match h self with
    | none => none
    | some v =>
      if v.op = "+" then
        forEach (fun h child => do
          let g ← getGrad h self
          let h1 ← addGrad h child g
          backward M fuel h1 child) v.prev h
      else if v.op = "*" then
        match v.prev with
        | child1 :: child2 :: _ => do
          let g ← getGrad h self
          let d2 ← getData h child2
          let h1 ← addGrad h child1 (g * d2)
          let g1 ← getGrad h1 self
          let d1 ← getData h1 child1
          let h2 ← addGrad h1 child2 (g1 * d1)
          let h3 ← backward M fuel h2 child1
          backward M fuel h3 child2
        | _ => none
      else if v.op = "tanh" then
        forEach (fun h child => do
          let g ← getGrad h self
          let d ← getData h child
          let h1 ← addGrad h child (g * (1 - M.pow (M.tanh d) 2))
          backward M fuel h1 child) v.prev h
      else if v.op = "exp" then
        forEach (fun h child => do
          let g ← getGrad h self
          let d ← getData h child
          let h1 ← addGrad h child (g * M.exp d)
          backward M fuel h1 child) v.prev h
      else if v.op = "pow" then
        match v.prev with
        | base :: exponent :: _ => do
          let base_data ← getData h base
          let exponent_data ← getData h exponent
          let g ← getGrad h self
          let h1 ← addGrad h base (g * exponent_data * M.pow base_data (exponent_data - 1))
          let h2 ← if base_data > 0 then do
                let g1 ← getGrad h1 self
                addGrad h1 exponent (g1 * M.pow base_data exponent_data * M.log base_data)
              else some h1
          let h3 ← backward M fuel h2 base
          backward M fuel h3 exponent
        | _ => none
      else some h

end Backward

section Builders

variable {α : Type} [LinearOrderedCommRing α]

/-- `std::make_shared<value>(x, lab)` returning address `p`: a leaf. -/
def make_shared (h : Heap α) (p : Nat) (x : α) (lab : String) : Heap α :=
  h.write p { data := x, grad := 0, prev := [], op := "", label := lab }

/-- `value::operator+(const std::shared_ptr<value>&)`; `r` is the address of
`result`. -/
def operator_add (h : Heap α) (r self other : Nat) : Option (Heap α) := do
  let o ← getData h other
  let t ← getData h self
  some (h.write r { data := o + t, grad := 0,
                    prev := multiset_insert other (multiset_insert self []),
                    op := "+", label := "" })

/-- `value::operator+(double)`; `temp` and `r` are the addresses of `temp` and
of `result`. -/
def operator_add_scalar (h : Heap α) (temp r self : Nat) (scalar : α) : Option (Heap α) :=
  operator_add (make_shared h temp scalar "scalar") r self temp

/-- `value::operator-(const std::shared_ptr<value>&)`:
`return *this + (-1*other->data);`. -/
def operator_sub (h : Heap α) (temp r self other : Nat) : Option (Heap α) := do
  let o ← getData h other
  operator_add_scalar h temp r self (-1 * o)

/-- `value::operator-(double)`. -/
def operator_sub_scalar (h : Heap α) (temp temp2 r self : Nat) (scalar : α) :
    Option (Heap α) :=
  operator_sub (make_shared h temp scalar "scalar") temp2 r self temp

/-- `value::operator*(const std::shared_ptr<value>&)`. -/
def operator_mul (h : Heap α) (r self other : Nat) : Option (Heap α) := do
  let o ← getData h other
  let t ← getData h self
  some (h.write r { data := o * t, grad := 0,
                    prev := multiset_insert other (multiset_insert self []),
                    op := "*", label := "" })

/-- `value::operator*(double)`. -/
def operator_mul_scalar (h : Heap α) (temp r self : Nat) (scalar : α) : Option (Heap α) :=
  operator_mul (make_shared h temp scalar "scalar") r self temp

/-- `value::pow(const std::shared_ptr<value>&)`. -/
def pow (M : CMath α) (h : Heap α) (r self other : Nat) : Option (Heap α) := do
  let t ← getData h self
  let o ← getData h other
  some (h.write r { data := M.pow t o, grad := 0,
                    prev := multiset_insert other (multiset_insert self []),
                    op := "pow", label := "" })

/-- `value::pow(double)`. -/
def pow_scalar (M : CMath α) (h : Heap α) (temp r self : Nat) (scalar : α) :
    Option (Heap α) :=
  pow M (make_shared h temp scalar "scalar") r self temp

/-- `value::operator/(const std::shared_ptr<value>&)`:
`return *this * other->pow(-1);`; `p` is the address of the power node. -/
def operator_div (M : CMath α) (h : Heap α) (temp p r self other : Nat) :
    Option (Heap α) := do
  let h1 ← pow_scalar M h temp p other (-1)
  operator_mul h1 r self p

/-- `value::operator/(double)`. -/
def operator_div_scalar (M : CMath α) (h : Heap α) (temp temp2 p r self : Nat)
    (scalar : α) : Option (Heap α) :=
  operator_div M (make_shared h temp scalar "scalar") temp2 p r self temp

/-- `value::tanh()`. -/
def tanh (M : CMath α) (h : Heap α) (r self : Nat) : Option (Heap α) := do
  let t ← getData h self
  some (h.write r { data := M.tanh t, grad := 0, prev := multiset_insert self [],
                    op := "tanh", label := "" })

/-- `value::exp()`. -/
def exp (M : CMath α) (h : Heap α) (r self : Nat) : Option (Heap α) := do
  let t ← getData h self
  some (h.write r { data := M.exp t, grad := 0, prev := multiset_insert self [],
                    op := "exp", label := "" })

/-- The free `operator+(double scalar, const std::shared_ptr<value>& other)`. -/
def scalar_add (h : Heap α) (temp r : Nat) (scalar : α) (other : Nat) : Option (Heap α) :=
  operator_add (make_shared h temp scalar "scalar") r other temp

/-- The free `operator-(double scalar, const std::shared_ptr<value>& other)`:
`auto result = *other - temp;`. -/
def scalar_sub (h : Heap α) (temp temp2 r : Nat) (scalar : α) (other : Nat) :
    Option (Heap α) :=
  operator_sub (make_shared h temp scalar "scalar") temp2 r other temp

/-- The free `operator*(double scalar, const std::shared_ptr<value>& other)`. -/
def scalar_mul (h : Heap α) (temp r : Nat) (scalar : α) (other : Nat) : Option (Heap α) :=
  operator_mul (make_shared h temp scalar "scalar") r other temp

end Builders

section Notions

variable {α : Type} [LinearOrderedCommRing α]

/-- A leaf is a node as the constructors of `value` make it: no operator tag
and no operand. -/
def value.isLeaf (v : value α) : Prop := v.op = "" ∧ v.prev = []

/-- The node at `r` holds value `x`, gradient 0, tag `tag`, and exactly the
operands `operands` (as a multiset: `prev` keeps them in address order). -/
def builtNode (h : Heap α) (r : Nat) (x : α) (tag : String) (operands : List Nat) : Prop :=
  ∃ v, h r = some v ∧ v.data = x ∧ v.grad = 0 ∧ v.op = tag ∧ v.prev.Perm operands

/-- The node at `r` carries tag `tag` and `n` operands. -/
def hasArity (h : Heap α) (r : Nat) (tag : String) (n : Nat) : Prop :=
  ∃ v, h r = some v ∧ v.op = tag ∧ v.prev.length = n

/-- Every node of `h` is still in `h1`, with all its fields unchanged. -/
def Heap.keeps (h h1 : Heap α) : Prop := ∀ q v, h q = some v → h1 q = some v

/-- One gradient update of `backward`: `tgt->grad += src->grad * coeff`. -/
structure Upd (α : Type) where
  src : Nat
  tgt : Nat
  coeff : α

/-- Perform one update (nothing happens when a pointer is not allocated). -/
def Upd.apply (u : Upd α) (h : Heap α) : Heap α :=
  match h u.src, h u.tgt with
  | some s, some t => h.write u.tgt { t with grad := t.grad + s.grad * u.coeff }
  | _, _ => h

/-- Perform a sequence of updates, first to last. -/
def applyTrace (tr : List (Upd α)) (h : Heap α) : Heap α :=
  tr.foldl (fun h u => u.apply h) h

/-- Everything of a node except its gradient. -/
def value.shape (v : value α) : α × List Nat × String × String :=
  (v.data, v.prev, v.op, v.label)

/-- Two heaps hold the same graph: they differ at most in gradients. -/
def SameShape (h1 h2 : Heap α) : Prop :=
  ∀ q, (h1 q).map value.shape = (h2 q).map value.shape

/-- `q` is a transitive operand of `p`, or `p` itself. -/
inductive Reach (h : Heap α) : Nat → Nat → Prop
  | refl (p : Nat) : Reach h p p
  | step {p c q : Nat} {v : value α} : h p = some v → c ∈ v.prev → Reach h c q → Reach h p q

/-- `q` is a transitive operand of `p` (through at least one operand link). -/
def StrictReach (h : Heap α) (p q : Nat) : Prop :=
  ∃ v c, h p = some v ∧ c ∈ v.prev ∧ Reach h c q

/-- Every update of the trace goes from a node reachable from `p` that carries
an operator tag to one of its operands, which is allocated. -/
def TraceOK (h : Heap α) (p : Nat) (tr : List (Upd α)) : Prop :=
  ∀ u ∈ tr, Reach h p u.src ∧ ∃ v w, h u.src = some v ∧ u.tgt ∈ v.prev ∧ v.op ≠ "" ∧
    h u.tgt = some w

/-- The effect of one update on the gradients alone. -/
def Upd.act (u : Upd α) (γ : Nat → α) : Nat → α :=
  fun q => if q = u.tgt then γ u.tgt + γ u.src * u.coeff else γ q

/-- The effect of a sequence of updates on the gradients alone. -/
def actTrace (tr : List (Upd α)) (γ : Nat → α) : Nat → α :=
  tr.foldl (fun γ u => u.act γ) γ

/-- Seed `seed->grad = 1` on the heap a builder returned, run `backward` from
`seed` with budget `n`, and read the gradient of `q`. -/
def gradAfterBackward (M : CMath α) (n : Nat) (G : Option (Heap α)) (seed q : Nat) :
    Option α :=
  G.bind fun G => (setGrad G seed 1).bind fun g => (backward M n g seed).bind fun g1 =>
    getGrad g1 q

/-- On every heap with the graph of `h` and with every budget of at least `n`,
the heap transformer `F` returns, and its effect is the update sequence `tr`. -/
def Tracks (h : Heap α) (F : Nat → Heap α → Option (Heap α)) (n : Nat)
    (tr : List (Upd α)) : Prop :=
  ∀ m h2, n ≤ m → SameShape h h2 → F m h2 = some (applyTrace tr h2)

/-- A run of `backward` from `p` on the graph of `h`: with every budget of at
least `n` it returns, and its effect is the update sequence `tr`. -/
def Runs (M : CMath α) (h : Heap α) (p n : Nat) (tr : List (Upd α)) : Prop :=
  TraceOK h p tr ∧ Tracks h (fun m x => backward M m x p) n tr

/-- The gradient stored at `q`, 0 when `q` is not allocated. -/
def gradOf (h : Heap α) (q : Nat) : α :=
  match h q with
  | some v => v.grad
  | none => 0

/-- The real-number reading of `<cmath>`. -/
noncomputable def realMath : CMath ℝ :=
  { pow := fun x y => x ^ y, tanh := Real.tanh, exp := Real.exp, log := Real.log }

/-- The first experiment of `main` (kept there as a comment): `x1 = 2.0`,
`y1 = 4.0`, `z1 = *y1 - x1`, `z1->grad = 1`, `z1->backward()`.  Addresses in
allocation order: `x1` 1, `y1` 2, the scalar temporary 3, `z1` 4. -/
def sub_experiment (M : CMath α) : Option (Heap α) := do
  let h1 ← operator_sub (make_shared (make_shared Heap.empty 1 2 "x1") 2 4 "y1") 3 4 2 1
  let h2 ← setGrad h1 4 1
  backward M 2 h2 4

/-- The reflected subtraction `s - n` for the literal `s = 1.0` and a leaf `n` of
value `3.0` at address 1; temporaries at 2 and 3, result at 4. -/
def scalar_sub_experiment : Option (Heap α) :=
  scalar_sub (make_shared Heap.empty 1 3 "n") 2 3 4 1 1

/-- The scenario `p = base->pow(exponent)` where the exponent leaf (value 1.0,
address 1) was allocated before the base leaf (value 5.0, address 2); `p` is at
address 3, seeded with gradient 1. -/
def pow_experiment (M : CMath α) : Option (Heap α) := do
  let h1 ← pow M (make_shared (make_shared Heap.empty 1 1 "exponent") 2 5 "base") 3 2 1
  let h2 ← setGrad h1 3 1
  backward M 2 h2 3

/-- The heap of the example `root = x*w1 + x*w2` before the root is built:
`x = 2.0`, `w1 = 3.0`, `w2 = 4.0` at the addresses 1, 2, 3, then `A = x*w1` at 4
and `B = x*w2` at 5. -/
def accumulation_heap : Heap α :=
  ((make_shared (make_shared (make_shared Heap.empty 1 2 "x") 2 3 "w1") 3 4 "w2").write 4
    ⟨3 * 2, 0, [1, 2], "*", ""⟩).write 5 ⟨4 * 2, 0, [1, 3], "*", ""⟩

/-- The heap of the example `root = (a*b) + c`, seeded: `a = 2.0`, `b = 3.0`,
`c = 5.0` at the addresses 1, 2, 3, `m = a*b` at 4, `root = m + c` at 5 with
gradient 1. -/
def reseed_heap : Heap α :=
  ((make_shared (make_shared (make_shared Heap.empty 1 2 "a") 2 3 "b") 3 5 "c").write 4
    ⟨3 * 2, 0, [1, 2], "*", ""⟩).write 5 ⟨5 + 3 * 2, 1, [3, 4], "+", ""⟩

/-- Run `backward` from `root` twice in a row, with budget `n` each time. -/
def backward_twice (M : CMath α) (n : Nat) (h : Heap α) (root : Nat) : Option (Heap α) :=
  (backward M n h root).bind fun h1 => backward M n h1 root

/-- The heap `h1` is `h` with new nodes at the addresses `new`: every node of `h`
is still in `h1` with all its fields unchanged, and no address outside `new`
changed. -/
def Heap.addsOnly (h h1 : Heap α) (new : List Nat) : Prop :=
  h.keeps h1 ∧ ∀ q, q ∉ new → h1 q = h q

/-- The heaps a program can reach by leaf constructions and builder calls, each
at a fresh address, starting from the empty heap.  The list records the
addresses in the order of creation, newest first.  (Subtraction, division and
the scalar and reflected variants are sequences of these steps.) -/
inductive Built (M : CMath α) : List Nat → Heap α → Prop
  | empty : Built M [] Heap.empty
  | by_leaf {l : List Nat} {h : Heap α} (p : Nat) (x : α) (lab : String) :
      Built M l h → h p = none → Built M (p :: l) (make_shared h p x lab)
  | by_add {l : List Nat} {h h1 : Heap α} (r a b : Nat) :
      Built M l h → h r = none → operator_add h r a b = some h1 → Built M (r :: l) h1
  | by_mul {l : List Nat} {h h1 : Heap α} (r a b : Nat) :
      Built M l h → h r = none → operator_mul h r a b = some h1 → Built M (r :: l) h1
  | by_pow {l : List Nat} {h h1 : Heap α} (r a b : Nat) :
      Built M l h → h r = none → pow M h r a b = some h1 → Built M (r :: l) h1
  | by_tanh {l : List Nat} {h h1 : Heap α} (r a : Nat) :
      Built M l h → h r = none → tanh M h r a = some h1 → Built M (r :: l) h1
  | by_exp {l : List Nat} {h h1 : Heap α} (r a : Nat) :
      Built M l h → h r = none → exp M h r a = some h1 → Built M (r :: l) h1

/-- A node as the constructors and the builders make it: a leaf, a binary node
with two operands, or a unary node with one. -/
def value.wellFormed (v : value α) : Prop :=
  v.op = "" ∨ ((v.op = "+" ∨ v.op = "*" ∨ v.op = "pow") ∧ ∃ c1 c2, v.prev = [c1, c2]) ∨
    ((v.op = "tanh" ∨ v.op = "exp") ∧ ∃ c, v.prev = [c])

/-- Along the list (newest first) every address is listed once and holds a well
formed node whose operands are all listed after it: they were created before. -/
def Ordered (h : Heap α) : List Nat → Prop
  | [] => True
  | p :: l => p ∉ l ∧ (∃ v, h p = some v ∧ v.wellFormed ∧ ∀ c ∈ v.prev, c ∈ l) ∧ Ordered h l

/-- An expression built from leaves with Add and Multiply; every node carries
the address at which it lives. -/
inductive Formula where
  | leaf (p : Nat) : Formula
  | add (p : Nat) (a b : Formula) : Formula
  | mul (p : Nat) (a b : Formula) : Formula

/-- The address of the node the expression ends in. -/
def Formula.root : Formula → Nat
  | Formula.leaf p => p
  | Formula.add p _ _ => p
  | Formula.mul p _ _ => p

/-- The addresses of the non-leaf nodes, one entry for each use. -/
def Formula.internals : Formula → List Nat
  | Formula.leaf _ => []
  | Formula.add p a b => p :: (a.internals ++ b.internals)
  | Formula.mul p a b => p :: (a.internals ++ b.internals)

/-- The addresses of the leaves, one entry for each use. -/
def Formula.leaves : Formula → List Nat
  | Formula.leaf p => [p]
  | Formula.add _ a b => a.leaves ++ b.leaves
  | Formula.mul _ a b => a.leaves ++ b.leaves

/-- The value of the expression when the leaf at address `q` holds `ρ q`, as
`operator+` and `operator*` compute it (`other->data + this->data`,
`other->data * this->data`). -/
def Formula.eval (ρ : Nat → α) : Formula → α
  | Formula.leaf p => ρ p
  | Formula.add _ a b => b.eval ρ + a.eval ρ
  | Formula.mul _ a b => b.eval ρ * a.eval ρ

/-- The partial derivative of the value with respect to the leaf at address
`x`, by the sum and product rules. -/
def Formula.deriv (ρ : Nat → α) (x : Nat) : Formula → α
  | Formula.leaf p => if p = x then 1 else 0
  | Formula.add _ a b => b.deriv ρ x + a.deriv ρ x
  | Formula.mul _ a b => b.deriv ρ x * a.eval ρ + b.eval ρ * a.deriv ρ x

/-- The value stored at `q`, 0 when `q` is not allocated. -/
def leafData (h : Heap α) (q : Nat) : α :=
  match h q with
  | some v => v.data
  | none => 0

/-- The heap holds the expression: every leaf of the expression is a node
without operator tag, and every Add or Multiply node is a node as `operator+` or
`operator*` builds it from the nodes of its two sub-expressions. -/
def Repr (h : Heap α) : Formula → Prop
  | Formula.leaf p => ∃ v, h p = some v ∧ v.op = ""
  | Formula.add p a b =>
    (∃ v, h p = some v ∧ v.op = "+" ∧
      v.prev = multiset_insert b.root (multiset_insert a.root []) ∧
      v.data = b.eval (leafData h) + a.eval (leafData h)) ∧ Repr h a ∧ Repr h b
  | Formula.mul p a b =>
    (∃ v, h p = some v ∧ v.op = "*" ∧
      v.prev = multiset_insert b.root (multiset_insert a.root []) ∧
      v.data = b.eval (leafData h) * a.eval (leafData h)) ∧ Repr h a ∧ Repr h b

/-- Run on gradients that are 0 at the nodes of `I` other than `r`, the update
sequence `t` adds `γ r * C q` to the gradient of every node `q` outside `I`. -/
def Acts (t : List (Upd α)) (r : Nat) (I : List Nat) (C : Nat → α) : Prop :=
  ∀ γ : Nat → α, (∀ i ∈ I, i ≠ r → γ i = 0) → ∀ q, q ∉ I → actTrace t γ q = γ q + γ r * C q

/-- The heap of the example `r = a*b + a`: `a = 2.0`, `b = 3.0` at the addresses
1 and 2, `m = a*b` at 3 and `r = m + a` at 4, all gradients 0. -/
def unshared_heap : Heap α :=
  ((make_shared (make_shared Heap.empty 1 2 "a") 2 3 "b").write 3
    ⟨3 * 2, 0, [1, 2], "*", ""⟩).write 4 ⟨2 + 3 * 2, 0, [1, 3], "+", ""⟩

/-- The expression `a*b + a` at the addresses of `unshared_heap`. -/
def unshared_formula : Formula :=
  Formula.add 4 (Formula.mul 3 (Formula.leaf 1) (Formula.leaf 2)) (Formula.leaf 1)

/-- The heap of the example `c = m*m` with `m = a*b`: `a = 2.0`, `b = 3.0` at the
addresses 1 and 2, `m` at 3, `c` at 4 with gradient 1. -/
def square_heap : Heap α :=
  ((make_shared (make_shared Heap.empty 1 2 "a") 2 3 "b").write 3
    ⟨3 * 2, 0, [1, 2], "*", ""⟩).write 4 ⟨3 * 2 * (3 * 2), 1, [3, 3], "*", ""⟩

/-- The statement `c->grad += d` when the sum is rounded by `rnd`. -/
def addGradRounded (rnd : α → α) (h : Heap α) (c : Nat) (d : α) : Option (Heap α) :=
  match h c with
  | none => none
  | some v => some (h.write c { v with grad := rnd (v.grad + d) })

/-- `value::backward` with the rounding of `double` made explicit: the result of
every `+`, `-` and `*` of the source is passed through `rnd` (the `<cmath>`
functions return doubles already).  With `rnd = id` this is `backward`. -/
def backward_rounded (rnd : α → α) (M : CMath α) : Nat → Heap α → Nat → Option (Heap α)
  | 0, _, _ => none
  | fuel + 1, h, self =>
    match h self with
    | none => none
    | some v =>
      if v.op = "+" then
        forEach (fun h child => do
          let g ← getGrad h self
          let h1 ← addGradRounded rnd h child g
          backward_rounded rnd M fuel h1 child) v.prev h
      else if v.op = "*" then
        match v.prev with
        | child1 :: child2 :: _ => do
          let g ← getGrad h self
          let d2 ← getData h child2
          let h1 ← addGradRounded rnd h child1 (rnd (g * d2))
          let g1 ← getGrad h1 self
          let d1 ← getData h1 child1
          let h2 ← addGradRounded rnd h1 child2 (rnd (g1 * d1))
          let h3 ← backward_rounded rnd M fuel h2 child1
          backward_rounded rnd M fuel h3 child2
        | _ => none
      else if v.op = "tanh" then
        forEach (fun h child => do
          let g ← getGrad h self
          let d ← getData h child
          let h1 ← addGradRounded rnd h child (rnd (g * rnd (1 - M.pow (M.tanh d) 2)))
          backward_rounded rnd M fuel h1 child) v.prev h
      else if v.op = "exp" then
        forEach (fun h child => do
          let g ← getGrad h self
          let d ← getData h child
          let h1 ← addGradRounded rnd h child (rnd (g * M.exp d))
          backward_rounded rnd M fuel h1 child) v.prev h
      else if v.op = "pow" then
        match v.prev with
        | base :: exponent :: _ => do
          let base_data ← getData h base
          let exponent_data ← getData h exponent
          let g ← getGrad h self
          let h1 ← addGradRounded rnd h base
            (rnd (rnd (g * exponent_data) * M.pow base_data (rnd (exponent_data - 1))))
          let h2 ← if base_data > 0 then do
                let g1 ← getGrad h1 self
                addGradRounded rnd h1 exponent
                  (rnd (rnd (g1 * M.pow base_data exponent_data) * M.log base_data))
              else some h1
          let h3 ← backward_rounded rnd M fuel h2 base
          backward_rounded rnd M fuel h3 exponent
        | _ => none
      else some h

/-- How many low bits of `m` do not fit in the 53-bit significand of a double. -/
def excessBits : Nat → Nat → Nat
  | 0, _ => 0
  | fuel + 1, m => if m < 2 ^ 53 then 0 else excessBits fuel (m / 2) + 1

/-- The double nearest to the natural number `m`, ties to the even significand
(IEEE-754 binary64, round to nearest even); `m` is below `2^1024`. -/
def roundNat (m : Nat) : Nat :=
  let e := excessBits 971 m
  let q := m / 2 ^ e
  let r := m % 2 ^ e
  if 2 * r < 2 ^ e then q * 2 ^ e
  else if 2 ^ e < 2 * r then (q + 1) * 2 ^ e
  else if q % 2 = 0 then q * 2 ^ e
  else (q + 1) * 2 ^ e

/-- The double nearest to the integer `n`: the arithmetic of `double` on
integer values is exact arithmetic followed by this rounding. -/
def roundDouble (n : ℤ) : ℤ :=
  if 0 ≤ n then (roundNat n.natAbs : ℤ) else -(roundNat n.natAbs : ℤ)

/-- Stands for `<cmath>` in an example over the integers that has `+` and `*`
nodes only, so that none of its functions is called. -/
def integerMath : CMath ℤ := ⟨fun x _ => x, fun x => x, fun x => x, fun x => x⟩

/-- The graph `root = A + B` with `A = x*w` and `B = x*u + x*v`, for `x = 1`,
`w = 2^53`, `u = v = 1`, all gradients 0, as the builders return it.  Addresses
in allocation order: the leaves `x`, `w`, `u`, `v` at 1 to 4, `A` at 5, `x*u` at
6, `x*v` at 7, `B` at 8, the root at 9.  Every value is an integer that is a
double, so the builders compute them without rounding. -/
def rounding_heap : Heap ℤ :=
  (((((make_shared (make_shared (make_shared (make_shared Heap.empty 1 1 "x") 2
    9007199254740992 "w") 3 1 "u") 4 1 "v").write 5
    ⟨9007199254740992 * 1, 0, [1, 2], "*", ""⟩).write 6 ⟨1 * 1, 0, [1, 3], "*", ""⟩).write 7
    ⟨1 * 1, 0, [1, 4], "*", ""⟩).write 8 ⟨1 * 1 + 1 * 1, 0, [6, 7], "+", ""⟩).write 9
    ⟨1 * 1 + 1 * 1 + 9007199254740992 * 1, 0, [5, 8], "+", ""⟩

/-- Seed `seed->grad = 1` on `G`, run `backward` in double arithmetic from
`seed` with budget `n`, and read the gradient of `q`. -/
def gradAfterRounded (n : Nat) (G : Heap ℤ) (seed q : Nat) : Option ℤ :=
  (setGrad G seed 1).bind fun g => (backward_rounded roundDouble integerMath n g seed).bind
    fun g1 => getGrad g1 q

/-- The heap of the example `c = m1 * m2` with `m1 = a*b` and `m2 = a + b`:
`a = 2.0`, `b = 3.0` at the addresses 1 and 2, `m1` at 3, `m2` at 4, `c` at 5 with
gradient 1.  The two operands of `c` are distinct non-leaf nodes that share the
leaves only. -/
def product_heap : Heap α :=
  (((make_shared (make_shared Heap.empty 1 2 "a") 2 3 "b").write 3
    ⟨3 * 2, 0, [1, 2], "*", ""⟩).write 4 ⟨3 + 2, 0, [1, 2], "+", ""⟩).write 5
    ⟨(3 + 2) * (3 * 2), 1, [3, 4], "*", ""⟩

end Notions

section MainScenario

variable {α : Type} [LinearOrderedField α]

/-- The graph that `main` builds, with the addresses in allocation order: the
leaves `x1`, `x2`, `w1`, `w2`, `b` at 1 to 5, `x1w1` 6, `x2w2` 7, `x1w1x2w2` 8,
`n` 9, `2*n` at 11 (its scalar at 10), `e` 12, `e - 1` at 15 (scalars 13, 14),
`e + 1` at 17 (scalar 16), `o` at 20 (scalar 18, power node 19), the operands
of `/` being evaluated left to right; then `o->grad = 1`. -/
def main_heap (M : CMath α) : Option (Heap α) := do
  let h := make_shared Heap.empty 1 2 "x1"
  let h := make_shared h 2 0 "x2"
  let h := make_shared h 3 (-3) "w1"
  let h := make_shared h 4 1 "w2"
  let h := make_shared h 5 (68814 / 10000) "b"
  let h ← operator_mul h 6 1 3
  let h ← operator_mul h 7 2 4
  let h ← operator_add h 8 6 7
  let h ← operator_add h 9 8 5
  let h ← scalar_mul h 10 11 2 9
  let h ← exp M h 12 11
  let h ← operator_sub_scalar h 13 14 15 12 1
  let h ← operator_add_scalar h 16 17 12 1
  let h ← operator_div M h 18 19 20 15 17
  setGrad h 20 1

/-- The body of `main` up to `o->backward()`. -/
def main (M : CMath α) (fuel : Nat) : Option (Heap α) :=
  (main_heap M).bind fun h => backward M fuel h 20

/-- The value of `n` in `main`. -/
def main_n : α := 68814 / 10000 + (1 * 0 + -3 * 2)

/-- The value of `e = exp(2*n)` in `main`. -/
def main_e (M : CMath α) : α := M.exp (2 * main_n)

/-- The heap `main_heap` returns, node by node. -/
def main_graph (M : CMath α) : Heap α := fun q =>
  match q with
  | 1 => some ⟨2, 0, [], "", "x1"⟩
  | 2 => some ⟨0, 0, [], "", "x2"⟩
  | 3 => some ⟨-3, 0, [], "", "w1"⟩
  | 4 => some ⟨1, 0, [], "", "w2"⟩
  | 5 => some ⟨68814 / 10000, 0, [], "", "b"⟩
  | 6 => some ⟨-3 * 2, 0, [1, 3], "*", ""⟩
  | 7 => some ⟨1 * 0, 0, [2, 4], "*", ""⟩
  | 8 => some ⟨1 * 0 + -3 * 2, 0, [6, 7], "+", ""⟩
  | 9 => some ⟨main_n, 0, [5, 8], "+", ""⟩
  | 10 => some ⟨2, 0, [], "", "scalar"⟩
  | 11 => some ⟨2 * main_n, 0, [9, 10], "*", ""⟩
  | 12 => some ⟨main_e M, 0, [11], "exp", ""⟩
  | 13 => some ⟨1, 0, [], "", "scalar"⟩
  | 14 => some ⟨-1 * 1, 0, [], "", "scalar"⟩
  | 15 => some ⟨-1 * 1 + main_e M, 0, [12, 14], "+", ""⟩
  | 16 => some ⟨1, 0, [], "", "scalar"⟩
  | 17 => some ⟨1 + main_e M, 0, [12, 16], "+", ""⟩
  | 18 => some ⟨-1, 0, [], "", "scalar"⟩
  | 19 => some ⟨M.pow (1 + main_e M) (-1), 0, [17, 18], "pow", ""⟩
  | 20 => some ⟨M.pow (1 + main_e M) (-1) * (-1 * 1 + main_e M), 1, [15, 19], "*", ""⟩
  | _ => none

end MainScenario

/-! ## Basic facts about the heap and one step of `backward` -/

section Basic

variable {α : Type} [LinearOrderedCommRing α]

omit [LinearOrderedCommRing α] in
theorem Heap.write_apply (h : Heap α) (p q : Nat) (v : value α) :
    (h.write p v) q = if q = p then some v else h q := rfl

omit [LinearOrderedCommRing α] in
@[simp] theorem Heap.write_same (h : Heap α) (p : Nat) (v : value α) :
    (h.write p v) p = some v := by
  simp [Heap.write]

omit [LinearOrderedCommRing α] in
theorem Heap.write_other (h : Heap α) {p q : Nat} (v : value α) (hq : q ≠ p) :
    (h.write p v) q = h q := by
  simp [Heap.write, hq]

theorem backward_leaf (M : CMath α) (n : Nat) {h : Heap α} {p : Nat} (v : value α)
    (hp : h p = some v) (hv : v.op = "") : backward M (n + 1) h p = some h := by
  simp [backward, hp, hv]

theorem backward_mul (M : CMath α) (n : Nat) {h : Heap α} {p : Nat} {v : value α}
    (c1 c2 : Nat) (l : List Nat) (hp : h p = some v) (hv : v.op = "*") (hl : v.prev = c1 :: c2 :: l) :
    backward M (n + 1) h p =
      (getGrad h p).bind fun g => (getData h c2).bind fun d2 =>
      (addGrad h c1 (g * d2)).bind fun h1 => (getGrad h1 p).bind fun g1 =>
      (getData h1 c1).bind fun d1 => (addGrad h1 c2 (g1 * d1)).bind fun h2 =>
      (backward M n h2 c1).bind fun h3 => backward M n h3 c2 := by
  simp [backward, hp, hv, hl]

theorem operator_mul_some {h : Heap α} {self other : Nat} {vs vo : value α} (r : Nat)
    (hs : h self = some vs) (ho : h other = some vo) :
    operator_mul h r self other = some (h.write r ⟨vo.data * vs.data, 0,
      multiset_insert other (multiset_insert self []), "*", ""⟩) := by
  simp only [operator_mul, getData, hs, ho, Option.map_some', Option.bind_eq_bind,
    Option.some_bind]

theorem multiset_insert_perm (p : Nat) (l : List Nat) :
    (multiset_insert p l).Perm (p :: l) := by
  induction l with
  | nil => simp [multiset_insert]
  | cons q qs ih =>
    simp only [multiset_insert]
    split_ifs
    · exact List.Perm.refl _
    · exact (List.Perm.cons q ih).trans (List.Perm.swap p q qs)

theorem insert_pair_perm (a b : Nat) :
    (multiset_insert b (multiset_insert a [])).Perm [a, b] :=
  (multiset_insert_perm b _).trans (List.Perm.swap a b [])

theorem insert_pair_length (a b : Nat) :
    (multiset_insert b (multiset_insert a [])).length = 2 := (insert_pair_perm a b).length_eq

theorem operator_add_some {h : Heap α} {self other : Nat} {vs vo : value α} (r : Nat)
    (hs : h self = some vs) (ho : h other = some vo) :
    operator_add h r self other = some (h.write r ⟨vo.data + vs.data, 0,
      multiset_insert other (multiset_insert self []), "+", ""⟩) := by
  simp only [operator_add, getData, hs, ho, Option.map_some', Option.bind_eq_bind,
    Option.some_bind]

theorem pow_some (M : CMath α) {h : Heap α} {self other : Nat} {vs vo : value α} (r : Nat)
    (hs : h self = some vs) (ho : h other = some vo) :
    pow M h r self other = some (h.write r ⟨M.pow vs.data vo.data, 0,
      multiset_insert other (multiset_insert self []), "pow", ""⟩) := by
  simp only [pow, getData, hs, ho, Option.map_some', Option.bind_eq_bind, Option.some_bind]

theorem tanh_some (M : CMath α) {h : Heap α} {self : Nat} {vs : value α} (r : Nat)
    (hs : h self = some vs) :
    tanh M h r self = some (h.write r ⟨M.tanh vs.data, 0, [self], "tanh", ""⟩) := by
  simp only [tanh, getData, hs, Option.map_some', Option.bind_eq_bind, Option.some_bind,
    multiset_insert]

theorem exp_some (M : CMath α) {h : Heap α} {self : Nat} {vs : value α} (r : Nat)
    (hs : h self = some vs) :
    exp M h r self = some (h.write r ⟨M.exp vs.data, 0, [self], "exp", ""⟩) := by
  simp only [exp, getData, hs, Option.map_some', Option.bind_eq_bind, Option.some_bind,
    multiset_insert]

theorem make_shared_same (h : Heap α) (p : Nat) (x : α) (lab : String) :
    make_shared h p x lab p = some ⟨x, 0, [], "", lab⟩ := by
  simp [make_shared]

theorem make_shared_other (h : Heap α) {p q : Nat} (x : α) (lab : String) (hq : q ≠ p) :
    make_shared h p x lab q = h q := by
  simp [make_shared, Heap.write_apply, hq]

omit [LinearOrderedCommRing α] in
theorem Heap.keeps_write {h : Heap α} {r : Nat} (v : value α) (hr : h r = none) :
    h.keeps (h.write r v) := by
  intro q w hq
  have : q ≠ r := by rintro rfl; simp [hr] at hq
  rw [Heap.write_other _ _ this, hq]

theorem Heap.keeps_make_shared {h : Heap α} {r : Nat} (x : α) (lab : String)
    (hr : h r = none) : h.keeps (make_shared h r x lab) := Heap.keeps_write _ hr

omit [LinearOrderedCommRing α] in
theorem Heap.keeps_trans {h1 h2 h3 : Heap α} (h12 : h1.keeps h2) (h23 : h2.keeps h3) :
    h1.keeps h3 := fun q v hq => h23 q v (h12 q v hq)

end Basic

/-! ## Evaluating `backward` on an explicit heap -/

section Eval

variable {α : Type} [LinearOrderedCommRing α]

omit [LinearOrderedCommRing α] in
theorem Heap.write_write_same (h : Heap α) (p : Nat) (v w : value α) :
    (h.write p v).write p w = h.write p w := by
  funext q; by_cases hq : q = p <;> simp [Heap.write, hq]

omit [LinearOrderedCommRing α] in
theorem Heap.write_write_comm (h : Heap α) {p q : Nat} (v w : value α) (hpq : q < p) :
    (h.write p v).write q w = (h.write q w).write p v := by
  have hne : q ≠ p := Nat.ne_of_lt hpq
  funext r
  by_cases h1 : r = p
  · subst h1; simp [Heap.write, hne.symm]
  · by_cases h2 : r = q
    · subst h2; simp [Heap.write, hne]
    · simp [Heap.write, h1, h2]

theorem backward_eval_leaf (M : CMath α) (n : Nat) (h : Heap α) (p : Nat)
    (hop : (h p).map value.op = some "") : backward M (n + 1) h p = some h := by
  cases hp : h p with
  | none => simp [hp] at hop
  | some v =>
    simp [hp] at hop
    simp [backward, hp, hop]

theorem backward_eval_add (M : CMath α) (n : Nat) (h : Heap α) (p : Nat)
    (hop : (h p).map value.op = some "+") :
    backward M (n + 1) h p =
      forEach (fun h child => (getGrad h p).bind fun g => (addGrad h child g).bind fun h1 =>
        backward M n h1 child) (((h p).map value.prev).getD []) h := by
  cases hp : h p with
  | none => simp [hp] at hop
  | some v =>
    simp [hp] at hop
    simp [backward, hp, hop]

theorem backward_eval_mul (M : CMath α) (n : Nat) (h : Heap α) (p : Nat)
    (hop : (h p).map value.op = some "*") :
    backward M (n + 1) h p =
      match ((h p).map value.prev).getD [] with
      | c1 :: c2 :: _ =>
        (getGrad h p).bind fun g => (getData h c2).bind fun d2 =>
        (addGrad h c1 (g * d2)).bind fun h1 => (getGrad h1 p).bind fun g1 =>
        (getData h1 c1).bind fun d1 => (addGrad h1 c2 (g1 * d1)).bind fun h2 =>
        (backward M n h2 c1).bind fun h3 => backward M n h3 c2
      | _ => none := by
  cases hp : h p with
  | none => simp [hp] at hop
  | some v =>
    simp [hp] at hop
    simp [backward, hp, hop]

theorem backward_eval_tanh (M : CMath α) (n : Nat) (h : Heap α) (p : Nat)
    (hop : (h p).map value.op = some "tanh") :
    backward M (n + 1) h p =
      forEach (fun h child => (getGrad h p).bind fun g => (getData h child).bind fun d =>
        (addGrad h child (g * (1 - M.pow (M.tanh d) 2))).bind fun h1 =>
        backward M n h1 child) (((h p).map value.prev).getD []) h := by
  cases hp : h p with
  | none => simp [hp] at hop
  | some v =>
    simp [hp] at hop
    simp [backward, hp, hop]

theorem backward_eval_exp (M : CMath α) (n : Nat) (h : Heap α) (p : Nat)
    (hop : (h p).map value.op = some "exp") :
    backward M (n + 1) h p =
      forEach (fun h child => (getGrad h p).bind fun g => (getData h child).bind fun d =>
        (addGrad h child (g * M.exp d)).bind fun h1 =>
        backward M n h1 child) (((h p).map value.prev).getD []) h := by
  cases hp : h p with
  | none => simp [hp] at hop
  | some v =>
    simp [hp] at hop
    simp [backward, hp, hop]

theorem backward_eval_pow (M : CMath α) (n : Nat) (h : Heap α) (p : Nat)
    (hop : (h p).map value.op = some "pow") :
    backward M (n + 1) h p =
      match ((h p).map value.prev).getD [] with
      | base :: exponent :: _ =>
        (getData h base).bind fun base_data => (getData h exponent).bind fun exponent_data =>
        (getGrad h p).bind fun g =>
        (addGrad h base (g * exponent_data * M.pow base_data (exponent_data - 1))).bind fun h1 =>
        (if base_data > 0 then (getGrad h1 p).bind fun g1 =>
            addGrad h1 exponent (g1 * M.pow base_data exponent_data * M.log base_data)
          else some h1).bind fun h2 =>
        (backward M n h2 base).bind fun h3 => backward M n h3 exponent
      | _ => none := by
  cases hp : h p with
  | none => simp [hp] at hop
  | some v =>
    simp [hp] at hop
    rw [backward]
    simp only [hp, hop, Option.map_some', Option.getD_some]
    simp only [if_true]
    rcases v.prev with _ | ⟨b, _ | ⟨e, l⟩⟩
    · rfl
    · rfl
    · simp only [Option.bind_eq_bind]
      rw [if_neg (by decide), if_neg (by decide), if_neg (by decide), if_neg (by decide)]
      congr 1; funext base_data
      congr 1; funext exponent_data
      congr 1; funext g
      congr 1; funext h1
      split_ifs
      · cases getGrad h1 p <;> rfl
      · rfl

end Eval

/-! ## Graph shape, reachability and update traces -/

section Shape
variable {α : Type} [LinearOrderedCommRing α]

theorem SameShape.refl (h : Heap α) : SameShape h h := fun _ => rfl

theorem SameShape.symm {h1 h2 : Heap α} (s : SameShape h1 h2) : SameShape h2 h1 :=
  fun q => (s q).symm

theorem SameShape.trans {h1 h2 h3 : Heap α} (s : SameShape h1 h2) (t : SameShape h2 h3) :
    SameShape h1 h3 := fun q => (s q).trans (t q)

theorem SameShape.lookup {h1 h2 : Heap α} (s : SameShape h1 h2) {q : Nat} {v : value α}
    (hq : h1 q = some v) :
    ∃ w, h2 q = some w ∧ w.data = v.data ∧ w.prev = v.prev ∧ w.op = v.op ∧ w.label = v.label := by
  have := s q
  rw [hq] at this
  cases h2q : h2 q with
  | none => simp [h2q] at this
  | some w =>
    simp [h2q, value.shape] at this
    exact ⟨w, rfl, this.1.symm, this.2.1.symm, this.2.2.1.symm, this.2.2.2.symm⟩

theorem SameShape.write_grad {h : Heap α} {q : Nat} {v : value α} (hq : h q = some v) (g : α) :
    SameShape h (h.write q { v with grad := g }) := by
  intro r
  by_cases hr : r = q
  · subst hr; simp [hq, value.shape]
  · simp [Heap.write_apply, hr]

theorem Upd.apply_shape (u : Upd α) (h : Heap α) : SameShape h (u.apply h) := by
  unfold Upd.apply
  split
  · next s t hs ht => exact SameShape.write_grad ht _
  · exact SameShape.refl h

theorem applyTrace_shape (tr : List (Upd α)) (h : Heap α) : SameShape h (applyTrace tr h) := by
  induction tr generalizing h with
  | nil => exact SameShape.refl h
  | cons u tr ih => exact (Upd.apply_shape u h).trans (ih (u.apply h))

theorem applyTrace_append (t1 t2 : List (Upd α)) (h : Heap α) :
    applyTrace (t1 ++ t2) h = applyTrace t2 (applyTrace t1 h) := by
  simp [applyTrace, List.foldl_append]

theorem applyTrace_cons (u : Upd α) (tr : List (Upd α)) (h : Heap α) :
    applyTrace (u :: tr) h = applyTrace tr (u.apply h) := rfl

theorem SameShape.applyTrace {h x : Heap α} (s : SameShape h x) (tr : List (Upd α)) :
    SameShape h (applyTrace tr x) := s.trans (applyTrace_shape tr x)

theorem Reach.of_shape {h1 h2 : Heap α} (s : SameShape h1 h2) {p q : Nat} (r : Reach h1 p q) :
    Reach h2 p q := by
  induction r with
  | refl p => exact Reach.refl p
  | step hp hc _ ih =>
    obtain ⟨w, hw, -, hprev, -, -⟩ := s.lookup hp
    exact Reach.step hw (hprev ▸ hc) ih

theorem Reach.trans_reach {h : Heap α} {p q r : Nat} (a : Reach h p q) (b : Reach h q r) :
    Reach h p r := by
  induction a with
  | refl p => exact b
  | step hp hc _ ih => exact Reach.step hp hc (ih b)

theorem TraceOK.of_child {h h1 : Heap α} {p c : Nat} {v : value α} {tr : List (Upd α)}
    (s : SameShape h h1) (hp : h p = some v) (hc : c ∈ v.prev) (ok : TraceOK h1 c tr) :
    TraceOK h p tr := by
  intro u hu
  obtain ⟨r, w, wt, hw, ht, hop, hwt⟩ := ok u hu
  obtain ⟨w2, hw2, -, hprev, hop2, -⟩ := s.symm.lookup hw
  obtain ⟨wt2, hwt2, -⟩ := s.symm.lookup hwt
  exact ⟨Reach.step hp hc (r.of_shape s.symm), w2, wt2, hw2, hprev ▸ ht, hop2 ▸ hop, hwt2⟩

theorem TraceOK.append {h : Heap α} {p : Nat} {t1 t2 : List (Upd α)}
    (a : TraceOK h p t1) (b : TraceOK h p t2) : TraceOK h p (t1 ++ t2) := by
  intro u hu
  rcases List.mem_append.mp hu with h1 | h2
  · exact a u h1
  · exact b u h2

end Shape

section Tracking
variable {α : Type} [LinearOrderedCommRing α]

theorem addGrad_some {h : Heap α} {c : Nat} {d : α} {h1 : Heap α} (H : addGrad h c d = some h1) :
    ∃ w, h c = some w ∧ h1 = h.write c { w with grad := w.grad + d } := by
  unfold addGrad at H
  cases hc : h c with
  | none => simp [hc] at H
  | some w => simp [hc] at H; exact ⟨w, rfl, H.symm⟩

theorem getGrad_some {h : Heap α} {p : Nat} {g : α} (H : getGrad h p = some g) :
    ∃ w, h p = some w ∧ w.grad = g := by
  unfold getGrad at H
  cases hp : h p with
  | none => simp [hp] at H
  | some w => simp [hp] at H; exact ⟨w, rfl, H⟩

theorem getData_some {h : Heap α} {p : Nat} {d : α} (H : getData h p = some d) :
    ∃ w, h p = some w ∧ w.data = d := by
  unfold getData at H
  cases hp : h p with
  | none => simp [hp] at H
  | some w => simp [hp] at H; exact ⟨w, rfl, H⟩

theorem SameShape.getData {h x : Heap α} (s : SameShape h x) {q : Nat} {w : value α}
    (hq : h q = some w) : getData x q = some w.data := by
  obtain ⟨w2, hw2, hd, -⟩ := s.lookup hq
  simp [MicroGrad.getData, hw2, hd]

/-- An update followed by the rest of the computation. -/
theorem upd_bind {h x : Heap α} (s : SameShape h x) {p c : Nat} {vp vc : value α}
    (hp : h p = some vp) (hc : h c = some vc) (k : α) (F : Heap α → Option (Heap α)) :
    ((getGrad x p).bind fun g => (addGrad x c (g * k)).bind F) = F (Upd.apply ⟨p, c, k⟩ x) := by
  obtain ⟨wp, hwp, -⟩ := s.lookup hp
  obtain ⟨wc, hwc, -⟩ := s.lookup hc
  simp [getGrad, addGrad, Upd.apply, hwp, hwc]

theorem upd_bind_add {h x : Heap α} (s : SameShape h x) {p c : Nat} {vp vc : value α}
    (hp : h p = some vp) (hc : h c = some vc) (F : Heap α → Option (Heap α)) :
    ((getGrad x p).bind fun g => (addGrad x c g).bind F) = F (Upd.apply ⟨p, c, 1⟩ x) := by
  obtain ⟨wp, hwp, -⟩ := s.lookup hp
  obtain ⟨wc, hwc, -⟩ := s.lookup hc
  simp [getGrad, addGrad, Upd.apply, hwp, hwc]

theorem forEach_tracks {h : Heap α} {p : Nat} (body : Nat → Heap α → Nat → Option (Heap α))
    (n : Nat) : ∀ (l : List Nat),
    (∀ c ∈ l, ∀ h1 h2, SameShape h h1 → body n h1 c = some h2 →
      ∃ tr, TraceOK h p tr ∧ Tracks h (fun m x => body m x c) n tr) →
    ∀ h1 h2, SameShape h h1 → forEach (body n) l h1 = some h2 →
      ∃ tr, TraceOK h p tr ∧ Tracks h (fun m x => forEach (body m) l x) n tr := by
  intro l
  induction l with
  | nil =>
    intro _ h1 h2 _ _
    exact ⟨[], fun u hu => by simp at hu, fun m x _ _ => rfl⟩
  | cons c l ih =>
    intro hbody h1 h2 s H
    simp only [forEach] at H
    cases hb : body n h1 c with
    | none => simp [hb] at H
    | some h1a =>
      simp only [hb] at H
      obtain ⟨tc, okc, tkc⟩ := hbody c (List.mem_cons_self _ _) h1 h1a s hb
      have e1 : h1a = applyTrace tc h1 := by
        have := tkc n h1 le_rfl s
        simp only [hb, Option.some.injEq] at this
        exact this
      have s1 : SameShape h h1a := e1 ▸ s.applyTrace tc
      obtain ⟨tl, okl, tkl⟩ := ih (fun c' hc' => hbody c' (List.mem_cons_of_mem _ hc')) h1a h2 s1 H
      refine ⟨tc ++ tl, okc.append okl, ?_⟩
      intro m x hm sx
      simp only [forEach, tkc m x hm sx, applyTrace_append]
      exact tkl m _ hm (sx.applyTrace tc)

end Tracking

section Tracking2
variable {α : Type} [LinearOrderedCommRing α]

theorem upd_call_tracks (M : CMath α) (n : Nat)
    (ih : ∀ (h : Heap α) (p : Nat) (h' : Heap α), backward M n h p = some h' →
      ∃ tr, TraceOK h p tr ∧ Tracks h (fun m x => backward M m x p) n tr)
    {h : Heap α} {p c : Nat} {v vc : value α} (hp : h p = some v) (hcc : h c = some vc)
    (hc : c ∈ v.prev) (hop : v.op ≠ "") (k : α) (F : Nat → Heap α → Option (Heap α))
    (hF : ∀ m x, SameShape h x → F m x =
      (getGrad x p).bind fun g => (addGrad x c (g * k)).bind fun x1 => backward M m x1 c)
    (h1 h2 : Heap α) (s : SameShape h h1) (H : F n h1 = some h2) :
    ∃ tr, TraceOK h p tr ∧ Tracks h F n tr := by
  rw [hF n h1 s, upd_bind s hp hcc] at H
  have s1 : SameShape h (Upd.apply ⟨p, c, k⟩ h1) := s.trans (Upd.apply_shape _ _)
  obtain ⟨tc, okc, tkc⟩ := ih _ _ _ H
  refine ⟨⟨p, c, k⟩ :: tc, ?_, ?_⟩
  · intro u hu
    rcases List.mem_cons.mp hu with rfl | hu
    · exact ⟨Reach.refl p, v, vc, hp, hc, hop, hcc⟩
    · exact TraceOK.of_child s1 hp hc okc u hu
  · intro m x hm sx
    rw [hF m x sx, upd_bind sx hp hcc, applyTrace_cons]
    exact tkc m _ hm (s1.symm.trans (sx.trans (Upd.apply_shape _ _)))

/-- The `*` branch on a heap with the graph of `h`: two updates, two calls. -/
theorem backward_mul_canon (M : CMath α) (m : Nat) {h x : Heap α} (s : SameShape h x)
    {p c1 c2 : Nat} {l : List Nat} {v w1 w2 : value α} (hp : h p = some v) (hop : v.op = "*")
    (hl : v.prev = c1 :: c2 :: l) (h1 : h c1 = some w1) (h2 : h c2 = some w2) :
    backward M (m + 1) x p =
      (backward M m (Upd.apply ⟨p, c2, w1.data⟩ (Upd.apply ⟨p, c1, w2.data⟩ x)) c1).bind
        fun h3 => backward M m h3 c2 := by
  obtain ⟨w, hw, -, hprev, hwop, -⟩ := s.lookup hp
  rw [backward_eval_mul M m x p (by simp [hw, hwop, hop])]
  simp only [hw, hprev, hl, Option.map_some', Option.getD_some]
  have s1 : SameShape h (Upd.apply ⟨p, c1, w2.data⟩ x) := s.trans (Upd.apply_shape _ _)
  simp only [s.getData h2, Option.some_bind]
  rw [upd_bind s hp h1]
  simp only [s1.getData h1, Option.some_bind]
  rw [upd_bind s1 hp h2]

/-- The `pow` branch on a heap with the graph of `h`, positive base. -/
theorem backward_pow_canon_pos (M : CMath α) (m : Nat) {h x : Heap α} (s : SameShape h x)
    {p c1 c2 : Nat} {l : List Nat} {v w1 w2 : value α} (hp : h p = some v)
    (hop : v.op = "pow") (hl : v.prev = c1 :: c2 :: l) (h1 : h c1 = some w1)
    (h2 : h c2 = some w2) (hpos : w1.data > 0) :
    backward M (m + 1) x p =
      (backward M m (Upd.apply ⟨p, c2, M.pow w1.data w2.data * M.log w1.data⟩
        (Upd.apply ⟨p, c1, w2.data * M.pow w1.data (w2.data - 1)⟩ x)) c1).bind
        fun h3 => backward M m h3 c2 := by
  obtain ⟨w, hw, -, hprev, hwop, -⟩ := s.lookup hp
  rw [backward_eval_pow M m x p (by simp [hw, hwop, hop])]
  simp only [hw, hprev, hl, Option.map_some', Option.getD_some]
  have s1 : SameShape h (Upd.apply ⟨p, c1, w2.data * M.pow w1.data (w2.data - 1)⟩ x) :=
    s.trans (Upd.apply_shape _ _)
  simp only [s.getData h1, s.getData h2, Option.some_bind, mul_assoc, if_pos hpos]
  rw [upd_bind s hp h1]
  have := upd_bind s1 hp h2 (M.pow w1.data w2.data * M.log w1.data) (fun y => some y)
  simp only [Option.bind_some] at this
  rw [this]
  rfl

/-- The `pow` branch on a heap with the graph of `h`, base not positive. -/
theorem backward_pow_canon_neg (M : CMath α) (m : Nat) {h x : Heap α} (s : SameShape h x)
    {p c1 c2 : Nat} {l : List Nat} {v w1 w2 : value α} (hp : h p = some v)
    (hop : v.op = "pow") (hl : v.prev = c1 :: c2 :: l) (h1 : h c1 = some w1)
    (h2 : h c2 = some w2) (hneg : ¬ w1.data > 0) :
    backward M (m + 1) x p =
      (backward M m (Upd.apply ⟨p, c1, w2.data * M.pow w1.data (w2.data - 1)⟩ x) c1).bind
        fun h3 => backward M m h3 c2 := by
  obtain ⟨w, hw, -, hprev, hwop, -⟩ := s.lookup hp
  rw [backward_eval_pow M m x p (by simp [hw, hwop, hop])]
  simp only [hw, hprev, hl, Option.map_some', Option.getD_some]
  simp only [s.getData h1, s.getData h2, Option.some_bind, mul_assoc, if_neg hneg]
  rw [upd_bind s hp h1]


theorem two_calls_tracks (M : CMath α) (n : Nat)
    (ih : ∀ (h : Heap α) (p : Nat) (h' : Heap α), backward M n h p = some h' →
      ∃ tr, TraceOK h p tr ∧ Tracks h (fun m x => backward M m x p) n tr)
    {h : Heap α} {p c1 c2 : Nat} {v : value α} (hp : h p = some v) (hc1 : c1 ∈ v.prev)
    (hc2 : c2 ∈ v.prev) (us : List (Upd α)) (okus : TraceOK h p us)
    (canon : ∀ m x, SameShape h x → backward M (m + 1) x p =
      (backward M m (applyTrace us x) c1).bind fun h3 => backward M m h3 c2)
    (h' : Heap α) (H : backward M (n + 1) h p = some h') :
    ∃ tr, TraceOK h p tr ∧ Tracks h (fun m x => backward M m x p) (n + 1) tr := by
  rw [canon n h (SameShape.refl h)] at H
  simp only [Option.bind_eq_some] at H
  obtain ⟨h3, hh3, hh4⟩ := H
  have s2 : SameShape h (applyTrace us h) := applyTrace_shape us h
  obtain ⟨t3, ok3, tk3⟩ := ih _ _ _ hh3
  have e3 : h3 = applyTrace t3 (applyTrace us h) := by
    have := tk3 n _ le_rfl (SameShape.refl _)
    simp only [hh3, Option.some.injEq] at this
    exact this
  have s3 : SameShape h h3 := e3 ▸ s2.applyTrace t3
  obtain ⟨t4, ok4, tk4⟩ := ih _ _ _ hh4
  refine ⟨us ++ (t3 ++ t4), okus.append ((TraceOK.of_child s2 hp hc1 ok3).append
    (TraceOK.of_child s3 hp hc2 ok4)), ?_⟩
  intro m x hm sx
  obtain ⟨m', rfl⟩ : ∃ m', m = m' + 1 := ⟨m - 1, by omega⟩
  show backward M (m' + 1) x p = _
  have e3x : backward M m' (applyTrace us x) c1 = some (applyTrace t3 (applyTrace us x)) :=
    tk3 m' _ (by omega) (s2.symm.trans (sx.applyTrace us))
  rw [canon m' x sx, e3x]
  simp only [Option.some_bind, applyTrace_append]
  exact tk4 m' _ (by omega) (s3.symm.trans ((sx.applyTrace us).applyTrace t3))

/-- Every successful run of `backward` is a fixed sequence of gradient updates:
the same sequence is performed, and the run returns, on every heap holding the
same graph and with every larger budget. -/
theorem backward_tracks (M : CMath α) : ∀ (n : Nat) (h : Heap α) (p : Nat) (h' : Heap α),
    backward M n h p = some h' →
    ∃ tr, TraceOK h p tr ∧ Tracks h (fun m x => backward M m x p) n tr := by
  intro n
  induction n with
  | zero => intro h p h' H; simp [backward] at H
  | succ n ih =>
    intro h p h' H
    cases hp : h p with
    | none => simp [backward, hp] at H
    | some v =>
      have lift : ∀ (tr : List (Upd α)) (G : Nat → Heap α → Option (Heap α)),
          (∀ m x, SameShape h x → backward M (m + 1) x p = G m x) →
          Tracks h G n tr → Tracks h (fun m x => backward M m x p) (n + 1) tr := by
        intro tr G hG tk m x hm sx
        obtain ⟨m', rfl⟩ : ∃ m', m = m' + 1 := ⟨m - 1, by omega⟩
        show backward M (m' + 1) x p = _
        rw [hG m' x sx]
        exact tk m' x (by omega) sx
      by_cases o1 : v.op = "+"
      · rw [backward_eval_add M n h p (by simp [hp, o1])] at H
        simp only [hp, Option.map_some', Option.getD_some] at H
        have hb := forEach_tracks (h := h) (p := p) (fun m hx child => (getGrad hx p).bind fun g =>
          (addGrad hx child g).bind fun h1 => backward M m h1 child) n v.prev ?_ h h'
          (SameShape.refl h) H
        · obtain ⟨tr, ok, tk⟩ := hb
          refine ⟨tr, ok, lift tr _ ?_ tk⟩
          intro m x sx
          obtain ⟨w, hw, -, hprev, hop, -⟩ := sx.lookup hp
          rw [backward_eval_add M m x p (by simp [hw, hop, o1])]
          simp only [hw, hprev, Option.map_some', Option.getD_some]
        · intro c hc h1 h2 s Hc
          have Hc' := Hc
          simp only [Option.bind_eq_some] at Hc'
          obtain ⟨g, -, x1, hx1, -⟩ := Hc'
          obtain ⟨wc, hwc, -⟩ := addGrad_some hx1
          obtain ⟨vc, hvc, -⟩ := s.symm.lookup hwc
          refine upd_call_tracks M n ih hp hvc hc (by simp [o1]) 1 _ ?_ h1 h2 s Hc
          intro m x _
          simp only [mul_one]
      by_cases o2 : v.op = "*"
      · have H1 := H
        rw [backward_eval_mul M n h p (by simp [hp, o2])] at H1
        simp only [hp, Option.map_some', Option.getD_some] at H1
        rcases hl : v.prev with _ | ⟨c1, _ | ⟨c2, l⟩⟩
        · simp [hl] at H1
        · simp [hl] at H1
        · simp only [hl, Option.bind_eq_some] at H1
          obtain ⟨g, -, d2, hd2, x1, hx1, -⟩ := H1
          obtain ⟨w2, hw2, -⟩ := getData_some hd2
          obtain ⟨w1, hw1, -⟩ := addGrad_some hx1
          have m1 : c1 ∈ v.prev := by simp [hl]
          have m2 : c2 ∈ v.prev := by simp [hl]
          refine two_calls_tracks M n ih hp m1 m2 [⟨p, c1, w2.data⟩, ⟨p, c2, w1.data⟩] ?_
            (fun m x sx => backward_mul_canon M m sx hp o2 hl hw1 hw2) h' H
          intro u hu
          simp only [List.mem_cons, List.mem_singleton, List.not_mem_nil, or_false] at hu
          rcases hu with rfl | rfl
          · exact ⟨Reach.refl p, v, w1, hp, m1, by simp [o2], hw1⟩
          · exact ⟨Reach.refl p, v, w2, hp, m2, by simp [o2], hw2⟩
      by_cases o3 : v.op = "tanh"
      · rw [backward_eval_tanh M n h p (by simp [hp, o3])] at H
        simp only [hp, Option.map_some', Option.getD_some] at H
        have hb := forEach_tracks (h := h) (p := p) (fun m hx child => (getGrad hx p).bind fun g =>
          (getData hx child).bind fun d =>
          (addGrad hx child (g * (1 - M.pow (M.tanh d) 2))).bind fun h1 =>
          backward M m h1 child) n v.prev ?_ h h' (SameShape.refl h) H
        · obtain ⟨tr, ok, tk⟩ := hb
          refine ⟨tr, ok, lift tr _ ?_ tk⟩
          intro m x sx
          obtain ⟨w, hw, -, hprev, hop, -⟩ := sx.lookup hp
          rw [backward_eval_tanh M m x p (by simp [hw, hop, o3])]
          simp only [hw, hprev, Option.map_some', Option.getD_some]
        · intro c hc h1 h2 s Hc
          have Hc' := Hc
          simp only [Option.bind_eq_some] at Hc'
          obtain ⟨g, -, d, hd, -⟩ := Hc'
          obtain ⟨wc, hwc, -⟩ := getData_some hd
          obtain ⟨vc, hvc, -⟩ := s.symm.lookup hwc
          refine upd_call_tracks M n ih hp hvc hc (by simp [o3])
            (1 - M.pow (M.tanh vc.data) 2) _ ?_ h1 h2 s Hc
          intro m x sx
          simp only [sx.getData hvc, Option.some_bind]
      by_cases o4 : v.op = "exp"
      · rw [backward_eval_exp M n h p (by simp [hp, o4])] at H
        simp only [hp, Option.map_some', Option.getD_some] at H
        have hb := forEach_tracks (h := h) (p := p) (fun m hx child => (getGrad hx p).bind fun g =>
          (getData hx child).bind fun d =>
          (addGrad hx child (g * M.exp d)).bind fun h1 =>
          backward M m h1 child) n v.prev ?_ h h' (SameShape.refl h) H
        · obtain ⟨tr, ok, tk⟩ := hb
          refine ⟨tr, ok, lift tr _ ?_ tk⟩
          intro m x sx
          obtain ⟨w, hw, -, hprev, hop, -⟩ := sx.lookup hp
          rw [backward_eval_exp M m x p (by simp [hw, hop, o4])]
          simp only [hw, hprev, Option.map_some', Option.getD_some]
        · intro c hc h1 h2 s Hc
          have Hc' := Hc
          simp only [Option.bind_eq_some] at Hc'
          obtain ⟨g, -, d, hd, -⟩ := Hc'
          obtain ⟨wc, hwc, -⟩ := getData_some hd
          obtain ⟨vc, hvc, -⟩ := s.symm.lookup hwc
          refine upd_call_tracks M n ih hp hvc hc (by simp [o4]) (M.exp vc.data) _ ?_ h1 h2 s Hc
          intro m x sx
          simp only [sx.getData hvc, Option.some_bind]
      by_cases o5 : v.op = "pow"
      · have H1 := H
        rw [backward_eval_pow M n h p (by simp [hp, o5])] at H1
        simp only [hp, Option.map_some', Option.getD_some] at H1
        rcases hl : v.prev with _ | ⟨c1, _ | ⟨c2, l⟩⟩
        · simp [hl] at H1
        · simp [hl] at H1
        · simp only [hl, Option.bind_eq_some] at H1
          obtain ⟨d1, hd1, d2, hd2, -⟩ := H1
          obtain ⟨w1, hw1, -⟩ := getData_some hd1
          obtain ⟨w2, hw2, -⟩ := getData_some hd2
          have m1 : c1 ∈ v.prev := by simp [hl]
          have m2 : c2 ∈ v.prev := by simp [hl]
          by_cases hpos : w1.data > 0
          · refine two_calls_tracks M n ih hp m1 m2
              [⟨p, c1, w2.data * M.pow w1.data (w2.data - 1)⟩,
               ⟨p, c2, M.pow w1.data w2.data * M.log w1.data⟩] ?_
              (fun m x sx => backward_pow_canon_pos M m sx hp o5 hl hw1 hw2 hpos) h' H
            intro u hu
            simp only [List.mem_cons, List.mem_singleton, List.not_mem_nil, or_false] at hu
            rcases hu with rfl | rfl
            · exact ⟨Reach.refl p, v, w1, hp, m1, by simp [o5], hw1⟩
            · exact ⟨Reach.refl p, v, w2, hp, m2, by simp [o5], hw2⟩
          · refine two_calls_tracks M n ih hp m1 m2
              [⟨p, c1, w2.data * M.pow w1.data (w2.data - 1)⟩] ?_
              (fun m x sx => backward_pow_canon_neg M m sx hp o5 hl hw1 hw2 hpos) h' H
            intro u hu
            simp only [List.mem_cons, List.mem_singleton, List.not_mem_nil, or_false] at hu
            subst hu
            exact ⟨Reach.refl p, v, w1, hp, m1, by simp [o5], hw1⟩
      · refine ⟨[], fun u hu => by simp at hu, ?_⟩
        intro m x hm sx
        obtain ⟨m', rfl⟩ : ∃ m', m = m' + 1 := ⟨m - 1, by omega⟩
        obtain ⟨w, hw, -, -, hop, -⟩ := sx.lookup hp
        show backward M (m' + 1) x p = some x
        simp [backward, hw, hop, o1, o2, o3, o4, o5]

end Tracking2

section Gradients
variable {α : Type} [LinearOrderedCommRing α]

theorem gradOf_apply {h : Heap α} {u : Upd α} {s t : value α} (hs : h u.src = some s)
    (ht : h u.tgt = some t) : gradOf (u.apply h) = u.act (gradOf h) := by
  funext q
  by_cases hq : q = u.tgt
  · subst hq
    simp [Upd.apply, Upd.act, gradOf, hs, ht]
  · simp [Upd.apply, Upd.act, gradOf, hs, ht, Heap.write_apply, hq]

theorem gradOf_applyTrace {h0 : Heap α} {p : Nat} {tr : List (Upd α)} (ok : TraceOK h0 p tr) :
    ∀ h, SameShape h0 h → gradOf (applyTrace tr h) = actTrace tr (gradOf h) := by
  induction tr with
  | nil => intro h _; rfl
  | cons u tr ih =>
    intro h s
    obtain ⟨-, v, w, hv, -, -, hw⟩ := ok u (List.mem_cons_self _ _)
    obtain ⟨v2, hv2, -⟩ := s.lookup hv
    obtain ⟨w2, hw2, -⟩ := s.lookup hw
    have ih' := ih (fun u' hu' => ok u' (List.mem_cons_of_mem _ hu')) (u.apply h)
      (s.trans (Upd.apply_shape u h))
    rw [applyTrace_cons, ih', gradOf_apply hv2 hw2]
    rfl

theorem actTrace_cons (u : Upd α) (tr : List (Upd α)) (γ : Nat → α) :
    actTrace (u :: tr) γ = actTrace tr (u.act γ) := rfl

theorem Upd.act_add (u : Upd α) (γ δ : Nat → α) : u.act (γ + δ) = u.act γ + u.act δ := by
  funext q
  simp only [Upd.act, Pi.add_apply]
  split_ifs <;> ring

theorem Upd.act_smul (u : Upd α) (k : α) (γ : Nat → α) : u.act (k • γ) = k • u.act γ := by
  funext q
  simp only [Upd.act, Pi.smul_apply, smul_eq_mul]
  split_ifs <;> ring

theorem actTrace_add (tr : List (Upd α)) (γ δ : Nat → α) :
    actTrace tr (γ + δ) = actTrace tr γ + actTrace tr δ := by
  induction tr generalizing γ δ with
  | nil => rfl
  | cons u tr ih => simp only [actTrace_cons, Upd.act_add, ih]

theorem actTrace_smul (tr : List (Upd α)) (k : α) (γ : Nat → α) :
    actTrace tr (k • γ) = k • actTrace tr γ := by
  induction tr generalizing γ with
  | nil => rfl
  | cons u tr ih => simp only [actTrace_cons, Upd.act_smul, ih]

/-- Updates whose sources all hold gradient 0 change nothing. -/
theorem actTrace_inert (tr : List (Upd α)) (γ : Nat → α) (hz : ∀ u ∈ tr, γ u.src = 0) :
    actTrace tr γ = γ := by
  induction tr with
  | nil => rfl
  | cons u tr ih =>
    have e : u.act γ = γ := by
      funext q
      simp only [Upd.act, hz u (List.mem_cons_self _ _), zero_mul, add_zero]
      split_ifs with hq
      · rw [hq]
      · rfl
    rw [actTrace_cons, e]
    exact ih (fun u' hu' => hz u' (List.mem_cons_of_mem _ hu'))

/-- A node that is the target of no update keeps its gradient. -/
theorem actTrace_frame (tr : List (Upd α)) (γ : Nat → α) (q : Nat)
    (hq : ∀ u ∈ tr, u.tgt ≠ q) : actTrace tr γ q = γ q := by
  induction tr generalizing γ with
  | nil => rfl
  | cons u tr ih =>
    rw [actTrace_cons, ih _ (fun u' hu' => hq u' (List.mem_cons_of_mem _ hu'))]
    simp [Upd.act, (hq u (List.mem_cons_self _ _)).symm]

theorem Reach.cases_head {h : Heap α} {p q : Nat} (r : Reach h p q) :
    q = p ∨ StrictReach h p q := by
  cases r with
  | refl => exact Or.inl rfl
  | step hp hc r => exact Or.inr ⟨_, _, hp, hc, r⟩

theorem StrictReach.of_edge {h : Heap α} {p s t : Nat} {v : value α} (r : Reach h p s)
    (hs : h s = some v) (ht : t ∈ v.prev) : StrictReach h p t := by
  induction r with
  | refl p => exact ⟨v, t, hs, ht, Reach.refl t⟩
  | step hp hc r _ => exact ⟨_, _, hp, hc, r.trans_reach (Reach.step hs ht (Reach.refl t))⟩

theorem StrictReach.reach {h : Heap α} {p q : Nat} (r : StrictReach h p q) : Reach h p q := by
  obtain ⟨v, c, hp, hc, r⟩ := r
  exact Reach.step hp hc r

theorem TraceOK.tgt_reach {h : Heap α} {p : Nat} {tr : List (Upd α)} (ok : TraceOK h p tr)
    {u : Upd α} (hu : u ∈ tr) : StrictReach h p u.tgt := by
  obtain ⟨r, v, w, hv, ht, -, -⟩ := ok u hu
  exact StrictReach.of_edge r hv ht

/-- The outcome of a successful run, as an update sequence. -/
theorem backward_eq_applyTrace (M : CMath α) {n : Nat} {h h' : Heap α} {p : Nat}
    (H : backward M n h p = some h') :
    ∃ tr, TraceOK h p tr ∧ h' = applyTrace tr h ∧
      Tracks h (fun m x => backward M m x p) n tr := by
  obtain ⟨tr, ok, tk⟩ := backward_tracks M n h p h' H
  refine ⟨tr, ok, ?_, tk⟩
  have := tk n h le_rfl (SameShape.refl h)
  simp only [H, Option.some.injEq] at this
  exact this

/-- A larger budget gives the same result. -/
theorem backward_mono (M : CMath α) {n m : Nat} {h h' : Heap α} {p : Nat}
    (H : backward M n h p = some h') (hm : n ≤ m) : backward M m h p = some h' := by
  obtain ⟨tr, -, e, tk⟩ := backward_eq_applyTrace M H
  rw [e]
  exact tk m h hm (SameShape.refl h)

/-- `backward` changes gradients only. -/
theorem backward_shape (M : CMath α) {n : Nat} {h h' : Heap α} {p : Nat}
    (H : backward M n h p = some h') : SameShape h h' := by
  obtain ⟨tr, -, e, -⟩ := backward_eq_applyTrace M H
  exact e ▸ applyTrace_shape tr h

/-- `backward` changes the gradient of transitive operands only. -/
theorem backward_frame (M : CMath α) {n : Nat} {h h' : Heap α} {p : Nat}
    (H : backward M n h p = some h') (q : Nat) (hq : ¬ StrictReach h p q) :
    gradOf h' q = gradOf h q := by
  obtain ⟨tr, ok, e, -⟩ := backward_eq_applyTrace M H
  rw [e, gradOf_applyTrace ok h (SameShape.refl h)]
  exact actTrace_frame tr _ q (fun u hu hq' => hq (hq' ▸ ok.tgt_reach hu))

end Gradients

/-! ## Building a run from the runs of the operands -/

section Forward
variable {α : Type} [LinearOrderedCommRing α]

theorem TraceOK.head {h : Heap α} {p c : Nat} {v w : value α} (hp : h p = some v)
    (hc : c ∈ v.prev) (hop : v.op ≠ "") (hw : h c = some w) (k : α) {tr : List (Upd α)}
    (ok : TraceOK h p tr) : TraceOK h p (⟨p, c, k⟩ :: tr) := by
  intro u hu
  rcases List.mem_cons.mp hu with rfl | hu
  · exact ⟨Reach.refl p, v, w, hp, hc, hop, hw⟩
  · exact ok u hu

theorem TraceOK.nil (h : Heap α) (p : Nat) : TraceOK h p [] := fun u hu => by simp at hu

theorem Runs.leaf (M : CMath α) {h : Heap α} {p : Nat} {v : value α} (hp : h p = some v)
    (hop : v.op = "") : Runs M h p 1 [] := by
  refine ⟨TraceOK.nil h p, fun m x hm sx => ?_⟩
  obtain ⟨m', rfl⟩ : ∃ m', m = m' + 1 := ⟨m - 1, by omega⟩
  obtain ⟨w, hw, -, -, hwop, -⟩ := sx.lookup hp
  exact backward_eval_leaf M m' x p (by simp [hw, hwop, hop])

theorem Runs.mono (M : CMath α) {h : Heap α} {p n m : Nat} {tr : List (Upd α)}
    (r : Runs M h p n tr) (hm : n ≤ m) : Runs M h p m tr :=
  ⟨r.1, fun k x hk sx => r.2 k x (le_trans hm hk) sx⟩

theorem Runs.add (M : CMath α) {h : Heap α} {p c1 c2 n : Nat} {v w1 w2 : value α}
    {t1 t2 : List (Upd α)} (hp : h p = some v) (hop : v.op = "+") (hl : v.prev = [c1, c2])
    (h1 : h c1 = some w1) (h2 : h c2 = some w2) (r1 : Runs M h c1 n t1)
    (r2 : Runs M h c2 n t2) :
    Runs M h p (n + 1) (⟨p, c1, 1⟩ :: t1 ++ ⟨p, c2, 1⟩ :: t2) := by
  have m1 : c1 ∈ v.prev := by simp [hl]
  have m2 : c2 ∈ v.prev := by simp [hl]
  have ne : v.op ≠ "" := by simp [hop]
  refine ⟨?_, fun m x hm sx => ?_⟩
  · exact TraceOK.append (TraceOK.head hp m1 ne h1 1 (TraceOK.of_child (SameShape.refl h) hp m1 r1.1))
      (TraceOK.head hp m2 ne h2 1 (TraceOK.of_child (SameShape.refl h) hp m2 r2.1))
  · obtain ⟨m', rfl⟩ : ∃ m', m = m' + 1 := ⟨m - 1, by omega⟩
    obtain ⟨w, hw, -, hprev, hwop, -⟩ := sx.lookup hp
    have e1 := r1.2 m' _ (by omega) (sx.trans (Upd.apply_shape ⟨p, c1, 1⟩ x))
    have e2 := r2.2 m' _ (by omega) (((sx.trans (Upd.apply_shape ⟨p, c1, 1⟩ x)).applyTrace t1).trans
      (Upd.apply_shape ⟨p, c2, 1⟩ _))
    simp only at e1 e2
    show backward M (m' + 1) x p = _
    rw [backward_eval_add M m' x p (by simp [hw, hwop, hop])]
    simp only [hw, hprev, hl, Option.map_some', Option.getD_some, forEach]
    rw [upd_bind_add sx hp h1, e1]
    simp only []
    rw [upd_bind_add ((sx.trans (Upd.apply_shape ⟨p, c1, 1⟩ x)).applyTrace t1) hp h2, e2]
    simp only [applyTrace_cons, applyTrace_append, List.cons_append]

theorem Runs.two_calls (M : CMath α) {h : Heap α} {p c1 c2 n : Nat} {v : value α}
    {t1 t2 : List (Upd α)} (hp : h p = some v) (m1 : c1 ∈ v.prev) (m2 : c2 ∈ v.prev)
    (us : List (Upd α)) (okus : TraceOK h p us)
    (canon : ∀ m x, SameShape h x → backward M (m + 1) x p =
      (backward M m (applyTrace us x) c1).bind fun h3 => backward M m h3 c2)
    (r1 : Runs M h c1 n t1) (r2 : Runs M h c2 n t2) :
    Runs M h p (n + 1) (us ++ (t1 ++ t2)) := by
  refine ⟨?_, fun m x hm sx => ?_⟩
  · exact okus.append ((TraceOK.of_child (SameShape.refl h) hp m1 r1.1).append
      (TraceOK.of_child (SameShape.refl h) hp m2 r2.1))
  · obtain ⟨m', rfl⟩ : ∃ m', m = m' + 1 := ⟨m - 1, by omega⟩
    have e1 := r1.2 m' _ (by omega) (sx.applyTrace us)
    have e2 := r2.2 m' _ (by omega) ((sx.applyTrace us).applyTrace t1)
    simp only at e1 e2
    show backward M (m' + 1) x p = _
    rw [canon m' x sx, e1, Option.some_bind, e2]
    simp only [applyTrace_append]

theorem Runs.mul (M : CMath α) {h : Heap α} {p c1 c2 n : Nat} {l : List Nat}
    {v w1 w2 : value α} {t1 t2 : List (Upd α)} (hp : h p = some v) (hop : v.op = "*")
    (hl : v.prev = c1 :: c2 :: l) (h1 : h c1 = some w1) (h2 : h c2 = some w2)
    (r1 : Runs M h c1 n t1) (r2 : Runs M h c2 n t2) :
    Runs M h p (n + 1) ([⟨p, c1, w2.data⟩, ⟨p, c2, w1.data⟩] ++ (t1 ++ t2)) := by
  have m1 : c1 ∈ v.prev := by simp [hl]
  have m2 : c2 ∈ v.prev := by simp [hl]
  have ne : v.op ≠ "" := by simp [hop]
  exact Runs.two_calls M hp m1 m2 _
    (TraceOK.head hp m1 ne h1 _ (TraceOK.head hp m2 ne h2 _ (TraceOK.nil h p)))
    (fun m x sx => backward_mul_canon M m sx hp hop hl h1 h2) r1 r2

theorem Runs.pow_pos (M : CMath α) {h : Heap α} {p c1 c2 n : Nat} {l : List Nat}
    {v w1 w2 : value α} {t1 t2 : List (Upd α)} (hp : h p = some v) (hop : v.op = "pow")
    (hl : v.prev = c1 :: c2 :: l) (h1 : h c1 = some w1) (h2 : h c2 = some w2)
    (hpos : w1.data > 0) (r1 : Runs M h c1 n t1) (r2 : Runs M h c2 n t2) :
    Runs M h p (n + 1) ([⟨p, c1, w2.data * M.pow w1.data (w2.data - 1)⟩,
      ⟨p, c2, M.pow w1.data w2.data * M.log w1.data⟩] ++ (t1 ++ t2)) := by
  have m1 : c1 ∈ v.prev := by simp [hl]
  have m2 : c2 ∈ v.prev := by simp [hl]
  have ne : v.op ≠ "" := by simp [hop]
  exact Runs.two_calls M hp m1 m2 _
    (TraceOK.head hp m1 ne h1 _ (TraceOK.head hp m2 ne h2 _ (TraceOK.nil h p)))
    (fun m x sx => backward_pow_canon_pos M m sx hp hop hl h1 h2 hpos) r1 r2

theorem Runs.pow_neg (M : CMath α) {h : Heap α} {p c1 c2 n : Nat} {l : List Nat}
    {v w1 w2 : value α} {t1 t2 : List (Upd α)} (hp : h p = some v) (hop : v.op = "pow")
    (hl : v.prev = c1 :: c2 :: l) (h1 : h c1 = some w1) (h2 : h c2 = some w2)
    (hneg : ¬ w1.data > 0) (r1 : Runs M h c1 n t1) (r2 : Runs M h c2 n t2) :
    Runs M h p (n + 1) ([⟨p, c1, w2.data * M.pow w1.data (w2.data - 1)⟩] ++ (t1 ++ t2)) := by
  have m1 : c1 ∈ v.prev := by simp [hl]
  have m2 : c2 ∈ v.prev := by simp [hl]
  have ne : v.op ≠ "" := by simp [hop]
  exact Runs.two_calls M hp m1 m2 _ (TraceOK.head hp m1 ne h1 _ (TraceOK.nil h p))
    (fun m x sx => backward_pow_canon_neg M m sx hp hop hl h1 h2 hneg) r1 r2

theorem Runs.exp (M : CMath α) {h : Heap α} {p c n : Nat} {v w : value α}
    {t : List (Upd α)} (hp : h p = some v) (hop : v.op = "exp") (hl : v.prev = [c])
    (hc : h c = some w) (r : Runs M h c n t) :
    Runs M h p (n + 1) (⟨p, c, M.exp w.data⟩ :: t) := by
  have m1 : c ∈ v.prev := by simp [hl]
  have ne : v.op ≠ "" := by simp [hop]
  refine ⟨TraceOK.head hp m1 ne hc _ (TraceOK.of_child (SameShape.refl h) hp m1 r.1),
    fun m x hm sx => ?_⟩
  obtain ⟨m', rfl⟩ : ∃ m', m = m' + 1 := ⟨m - 1, by omega⟩
  obtain ⟨w', hw, -, hprev, hwop, -⟩ := sx.lookup hp
  have e1 := r.2 m' _ (by omega) (sx.trans (Upd.apply_shape ⟨p, c, M.exp w.data⟩ x))
  simp only at e1
  show backward M (m' + 1) x p = _
  rw [backward_eval_exp M m' x p (by simp [hw, hwop, hop])]
  simp only [hw, hprev, hl, Option.map_some', Option.getD_some, forEach, sx.getData hc,
    Option.some_bind]
  rw [upd_bind sx hp hc, e1]
  simp only [applyTrace_cons]

theorem Runs.tanh (M : CMath α) {h : Heap α} {p c n : Nat} {v w : value α}
    {t : List (Upd α)} (hp : h p = some v) (hop : v.op = "tanh") (hl : v.prev = [c])
    (hc : h c = some w) (r : Runs M h c n t) :
    Runs M h p (n + 1) (⟨p, c, 1 - M.pow (M.tanh w.data) 2⟩ :: t) := by
  have m1 : c ∈ v.prev := by simp [hl]
  have ne : v.op ≠ "" := by simp [hop]
  refine ⟨TraceOK.head hp m1 ne hc _ (TraceOK.of_child (SameShape.refl h) hp m1 r.1),
    fun m x hm sx => ?_⟩
  obtain ⟨m', rfl⟩ : ∃ m', m = m' + 1 := ⟨m - 1, by omega⟩
  obtain ⟨w', hw, -, hprev, hwop, -⟩ := sx.lookup hp
  have e1 := r.2 m' _ (by omega)
    (sx.trans (Upd.apply_shape ⟨p, c, 1 - M.pow (M.tanh w.data) 2⟩ x))
  simp only at e1
  show backward M (m' + 1) x p = _
  rw [backward_eval_tanh M m' x p (by simp [hw, hwop, hop])]
  simp only [hw, hprev, hl, Option.map_some', Option.getD_some, forEach, sx.getData hc,
    Option.some_bind]
  rw [upd_bind sx hp hc, e1]
  simp only [applyTrace_cons]

/-- What a run leaves in the heap, read off its update sequence. -/
theorem Runs.result (M : CMath α) {h : Heap α} {p n : Nat} {tr : List (Upd α)}
    (r : Runs M h p n tr) :
    backward M n h p = some (applyTrace tr h) ∧
      gradOf (applyTrace tr h) = actTrace tr (gradOf h) :=
  ⟨r.2 n h le_rfl (SameShape.refl h), gradOf_applyTrace r.1 h (SameShape.refl h)⟩

end Forward

/-! ## C1: multiply gradient swap -/

section C1

variable {α : Type} [LinearOrderedCommRing α]

/-- C1. For two distinct leaves `a` and `b` with gradient 0 and `c = a * b` at a
fresh address, seeding `c.grad = 1` and running `backward` from `c` (any budget
of at least 2) returns, and leaves `a.grad = b.data` and `b.grad = a.data`. -/
theorem mul_gradient_swap (M : CMath α) (h : Heap α) (a b c fuel : Nat) (va vb : value α)
    (hab : a ≠ b) (ha : h a = some va) (hb : h b = some vb) (hc : h c = none)
    (la : va.isLeaf) (lb : vb.isLeaf) (ga : va.grad = 0) (gb : vb.grad = 0) :
    ∃ h3, ((operator_mul h c a b).bind fun h1 => (setGrad h1 c 1).bind fun h2 =>
        backward M (fuel + 2) h2 c) = some h3 ∧
      getGrad h3 a = some vb.data ∧ getGrad h3 b = some va.data := by
  have hca : c ≠ a := by rintro rfl; simp [hc] at ha
  have hcb : c ≠ b := by rintro rfl; simp [hc] at hb
  obtain ⟨oa, -⟩ := la
  obtain ⟨ob, -⟩ := lb
  rw [operator_mul_some c ha hb]
  simp only [Option.some_bind, setGrad, Heap.write_same]
  rcases lt_or_gt_of_ne hab with hlt | hgt
  · have hnb : ¬ b < a := not_lt.mpr hlt.le
    rw [backward_mul M (fuel + 1) a b [] (Heap.write_same _ _ _) rfl
      (by simp [multiset_insert, hnb])]
    simp only [getGrad, getData, addGrad, Heap.write_same, Heap.write_other _ _ hca.symm,
      Heap.write_other _ _ hcb.symm, Heap.write_other _ _ hca, Heap.write_other _ _ hcb,
      Heap.write_other _ _ hab, Heap.write_other _ _ hab.symm, ha, hb, Option.map_some',
      Option.some_bind]
    rw [backward_leaf M fuel { va with grad := va.grad + 1 * vb.data }
      (by simp [Heap.write, hab]) oa]
    simp only [Option.some_bind]
    rw [backward_leaf M fuel { vb with grad := vb.grad + 1 * va.data }
      (by simp [Heap.write, hab]) ob]
    refine ⟨_, rfl, ?_, ?_⟩
    · simp [Heap.write, hab, ga]
    · simp [Heap.write, hab, gb]
  · have hnb : b < a := hgt
    rw [backward_mul M (fuel + 1) b a [] (Heap.write_same _ _ _) rfl
      (by simp [multiset_insert, hnb])]
    simp only [getGrad, getData, addGrad, Heap.write_same, Heap.write_other _ _ hca.symm,
      Heap.write_other _ _ hcb.symm, Heap.write_other _ _ hca, Heap.write_other _ _ hcb,
      Heap.write_other _ _ hab, Heap.write_other _ _ hab.symm, ha, hb, Option.map_some',
      Option.some_bind]
    rw [backward_leaf M fuel { vb with grad := vb.grad + 1 * va.data }
      (by simp [Heap.write, hab.symm]) ob]
    simp only [Option.some_bind]
    rw [backward_leaf M fuel { va with grad := va.grad + 1 * vb.data }
      (by simp [Heap.write, hab.symm]) oa]
    refine ⟨_, rfl, ?_, ?_⟩
    · simp [Heap.write, hab.symm, ga]
    · simp [Heap.write, hab.symm, gb]

/-- C1 at `a = 2.0` (address 1), `b = 3.0` (address 2), `c = a * b` (address 3). -/
theorem mul_gradient_swap_witness :
    ∃ h3, ((operator_mul (make_shared (make_shared Heap.empty 1 (2 : ℝ) "a") 2 3 "b") 3 1 2).bind
        fun h1 => (setGrad h1 3 1).bind fun h2 => backward realMath 2 h2 3) = some h3 ∧
      getGrad h3 1 = some 3 ∧ getGrad h3 2 = some 2 :=
  mul_gradient_swap realMath (make_shared (make_shared Heap.empty 1 (2 : ℝ) "a") 2 3 "b")
    1 2 3 0 ⟨2, 0, [], "", "a"⟩ ⟨3, 0, [], "", "b"⟩ (by decide) rfl rfl rfl
    ⟨rfl, rfl⟩ ⟨rfl, rfl⟩ rfl rfl

end C1

/-! ## C4: subtraction -/

section C4

variable {α : Type} [LinearOrderedCommRing α]

/-- C4 (what the code does). In the experiment `z1 = *y1 - x1` of `main`
(`y1 = 4.0`, `x1 = 2.0`), the result is an Add node whose operands are `y1` and a
fresh leaf labeled "scalar" of value `-2`; `x1` is not an operand of anything, and
after seeding `z1.grad = 1` and running `backward`, `y1.grad = 1` while
`x1.grad` is still 0 (not `-1`). -/
theorem sub_experiment_result (M : CMath α) :
    ((sub_experiment M).bind fun h3 => h3 4) = some ⟨2, 1, [2, 3], "+", ""⟩ ∧
    ((sub_experiment M).bind fun h3 => h3 3) = some ⟨-2, 1, [], "", "scalar"⟩ ∧
    ((sub_experiment M).bind fun h3 => getGrad h3 2) = some 1 ∧
    ((sub_experiment M).bind fun h3 => getGrad h3 1) = some 0 := by
  simp [sub_experiment, operator_sub, operator_add_scalar, operator_add, make_shared, getData,
      getGrad, addGrad, setGrad, Heap.write_apply, multiset_insert, forEach, Heap.empty,
      backward_eval_leaf, backward_eval_add]
  norm_num

end C4

/-! ## C5: reflected subtraction -/

section C5

variable {α : Type} [LinearOrderedCommRing α]

/-- C5 (what the code does). For the literal `s = 1.0` and a leaf `n` of value
`3.0`, the free `operator-(s, n)` returns a node of value `2 = n.data - s`,
whereas `s - n.data = -2`. -/
theorem scalar_sub_experiment_result :
    ((scalar_sub_experiment : Option (Heap α)).bind fun h => getData h 4) = some 2 ∧
    (1 : α) - 3 = -2 := by
  simp [scalar_sub_experiment, scalar_sub, operator_sub, operator_add_scalar, operator_add,
    make_shared, getData, Heap.write_apply, multiset_insert, Heap.empty]
  norm_num

end C5

/-! ## C6: division -/

section C6

variable {α : Type} [LinearOrderedCommRing α]

/-- C6. `a / b` is `a * b.pow(-1)`: with fresh, distinct addresses `t`, `p`, `r`
the call returns; the heap keeps every old node; `t` is a fresh leaf of value
`-1` labeled "scalar"; `p` is a Power node of value `pow(b.data, -1)` whose
operands are `b` and `t`; and the result `r` is a Multiply node of value
`a.data * pow(b.data, -1)` whose operands are `a` and `p`. -/
theorem div_structure (M : CMath α) (h : Heap α) (a b t p r : Nat) (va vb : value α)
    (ha : h a = some va) (hb : h b = some vb) (ht : h t = none) (hp : h p = none)
    (hr : h r = none) (htp : t ≠ p) (htr : t ≠ r) (hpr : p ≠ r) :
    operator_div M h t p r a b =
      ((pow M (make_shared h t (-1) "scalar") p b t).bind fun h1 => operator_mul h1 r a p) ∧
    ∃ h2, operator_div M h t p r a b = some h2 ∧ h.keeps h2 ∧
      h2 t = some ⟨-1, 0, [], "", "scalar"⟩ ∧
      builtNode h2 p (M.pow vb.data (-1)) "pow" [b, t] ∧
      builtNode h2 r (va.data * M.pow vb.data (-1)) "*" [a, p] := by
  refine ⟨rfl, ?_⟩
  have hat : a ≠ t := by rintro rfl; simp [ht] at ha
  have hbt : b ≠ t := by rintro rfl; simp [ht] at hb
  have hap : a ≠ p := by rintro rfl; simp [hp] at ha
  have hb1 : make_shared h t (-1) "scalar" b = some vb := by
    rw [make_shared_other _ _ _ hbt, hb]
  have ht1 := make_shared_same h t (-1) "scalar"
  have hp1 : make_shared h t (-1) "scalar" p = none := by
    rw [make_shared_other _ _ _ htp.symm, hp]
  have e1 := pow_some M p hb1 ht1
  have ha2 : ((make_shared h t (-1) "scalar").write p ⟨M.pow vb.data (-1), 0,
      multiset_insert t (multiset_insert b []), "pow", ""⟩) a = some va := by
    rw [Heap.write_other _ _ hap, make_shared_other _ _ _ hat, ha]
  have e2 := operator_mul_some r ha2 (Heap.write_same _ _ _)
  have hr2 : ((make_shared h t (-1) "scalar").write p ⟨M.pow vb.data (-1), 0,
      multiset_insert t (multiset_insert b []), "pow", ""⟩) r = none := by
    rw [Heap.write_other _ _ hpr.symm, make_shared_other _ _ _ htr.symm, hr]
  have e3 : operator_div M h t p r a b = operator_mul ((make_shared h t (-1) "scalar").write p
      ⟨M.pow vb.data (-1), 0, multiset_insert t (multiset_insert b []), "pow", ""⟩) r a p := by
    simp only [operator_div, pow_scalar, e1, Option.bind_eq_bind, Option.some_bind]
  refine ⟨_, e3.trans e2, ?_, ?_, ?_, ?_⟩
  · exact Heap.keeps_trans (Heap.keeps_trans (Heap.keeps_make_shared _ _ ht)
      (Heap.keeps_write _ hp1)) (Heap.keeps_write _ hr2)
  · rw [Heap.write_other _ _ htr, Heap.write_other _ _ htp, ht1]
  · exact ⟨_, by rw [Heap.write_other _ _ hpr, Heap.write_same], rfl, rfl, rfl,
      insert_pair_perm b t⟩
  · exact ⟨_, Heap.write_same _ _ _, mul_comm _ _, rfl, rfl, insert_pair_perm a p⟩

/-- C6 at `a = 6.0` (address 1), `b = 3.0` (address 2); the temporaries and the
result get the addresses 3, 4, 5. -/
theorem div_structure_witness :
    operator_div realMath (make_shared (make_shared Heap.empty 1 (6 : ℝ) "a") 2 3 "b") 3 4 5 1 2 =
      ((pow realMath (make_shared (make_shared (make_shared Heap.empty 1 (6 : ℝ) "a") 2 3 "b")
        3 (-1) "scalar") 4 2 3).bind fun h1 => operator_mul h1 5 1 4) ∧
    ∃ h2, operator_div realMath (make_shared (make_shared Heap.empty 1 (6 : ℝ) "a") 2 3 "b")
        3 4 5 1 2 = some h2 ∧
      (make_shared (make_shared Heap.empty 1 (6 : ℝ) "a") 2 3 "b").keeps h2 ∧
      h2 3 = some ⟨-1, 0, [], "", "scalar"⟩ ∧
      builtNode h2 4 (realMath.pow 3 (-1)) "pow" [2, 3] ∧
      builtNode h2 5 (6 * realMath.pow 3 (-1)) "*" [1, 4] :=
  div_structure realMath (make_shared (make_shared Heap.empty 1 (6 : ℝ) "a") 2 3 "b")
    1 2 3 4 5 ⟨6, 0, [], "", "a"⟩ ⟨3, 0, [], "", "b"⟩ rfl rfl rfl rfl rfl
    (by decide) (by decide) (by decide)

end C6

/-! ## C7: the backward rule of `pow` -/

section C7

/-- C7 (what the code does). With the exponent leaf (value 1) allocated below
the base leaf (value 5), `p = base->pow(exponent)` has value 5, and after seeding
`p.grad = 1` and running `backward`, the base has gradient 0 and the exponent has
gradient 5: `backward` took the lower address as the base.  The rule of the claim
gives the base `1 * 1 * 5^(1-1) = 1` and the exponent `1 * 5 * ln 5`, which is
not 5. -/
theorem pow_experiment_result :
    ((pow_experiment realMath).bind fun h3 => getData h3 3) = some 5 ∧
    ((pow_experiment realMath).bind fun h3 => getGrad h3 2) = some 0 ∧
    ((pow_experiment realMath).bind fun h3 => getGrad h3 1) = some 5 ∧
    (1 : ℝ) * 1 * realMath.pow 5 (1 - 1) = 1 ∧ (1 : ℝ) * 5 * realMath.log 5 ≠ 5 := by
  have hlog : Real.log 5 ≠ 1 := by
    intro h
    have h5 : Real.exp (Real.log 5) = 5 := Real.exp_log (by norm_num)
    rw [h] at h5
    have := Real.exp_one_lt_d9
    linarith
  simp [pow_experiment, pow, make_shared, getData,
      getGrad, addGrad, setGrad, Heap.write_apply, multiset_insert, forEach, Heap.empty,
      backward_eval_leaf, backward_eval_pow, realMath, hlog]

end C7


/-! ## C9: the forward builders -/

section C9

variable {α : Type} [LinearOrderedCommRing α]

/-- C9. For allocated nodes `a`, `b` and fresh addresses `r ≠ t`, every builder
returns, keeps all old nodes, and stores at `r` a node of gradient 0 with the
forward value, the tag and exactly the operands of its operator; a literal scalar
`s` is first stored at `t` as a leaf labeled "scalar". -/
theorem forward_builders (M : CMath α) (h : Heap α) (a b r t : Nat) (s : α) (va vb : value α)
    (ha : h a = some va) (hb : h b = some vb) (hr : h r = none) (ht : h t = none)
    (hrt : r ≠ t) :
    (∃ h1, operator_add h r a b = some h1 ∧ h.keeps h1 ∧
      builtNode h1 r (va.data + vb.data) "+" [a, b]) ∧
    (∃ h1, operator_mul h r a b = some h1 ∧ h.keeps h1 ∧
      builtNode h1 r (va.data * vb.data) "*" [a, b]) ∧
    (∃ h1, pow M h r a b = some h1 ∧ h.keeps h1 ∧
      builtNode h1 r (M.pow va.data vb.data) "pow" [a, b]) ∧
    (∃ h1, tanh M h r a = some h1 ∧ h.keeps h1 ∧
      builtNode h1 r (M.tanh va.data) "tanh" [a]) ∧
    (∃ h1, exp M h r a = some h1 ∧ h.keeps h1 ∧
      builtNode h1 r (M.exp va.data) "exp" [a]) ∧
    (∃ h1, operator_add_scalar h t r a s = some h1 ∧ h.keeps h1 ∧
      h1 t = some ⟨s, 0, [], "", "scalar"⟩ ∧ builtNode h1 r (va.data + s) "+" [a, t]) ∧
    (∃ h1, operator_mul_scalar h t r a s = some h1 ∧ h.keeps h1 ∧
      h1 t = some ⟨s, 0, [], "", "scalar"⟩ ∧ builtNode h1 r (va.data * s) "*" [a, t]) ∧
    (∃ h1, pow_scalar M h t r a s = some h1 ∧ h.keeps h1 ∧
      h1 t = some ⟨s, 0, [], "", "scalar"⟩ ∧ builtNode h1 r (M.pow va.data s) "pow" [a, t]) ∧
    (∃ h1, scalar_add h t r s a = some h1 ∧ h.keeps h1 ∧
      h1 t = some ⟨s, 0, [], "", "scalar"⟩ ∧ builtNode h1 r (s + va.data) "+" [a, t]) ∧
    (∃ h1, scalar_mul h t r s a = some h1 ∧ h.keeps h1 ∧
      h1 t = some ⟨s, 0, [], "", "scalar"⟩ ∧ builtNode h1 r (s * va.data) "*" [a, t]) := by
  have hat : a ≠ t := by rintro rfl; simp [ht] at ha
  have hp := insert_pair_perm a b
  have hpt := insert_pair_perm a t
  have ha1 : make_shared h t s "scalar" a = some va := by rw [make_shared_other _ _ _ hat, ha]
  have ht1 := make_shared_same h t s "scalar"
  have hr1 : make_shared h t s "scalar" r = none := by rw [make_shared_other _ _ _ hrt, hr]
  have ht2 : ∀ v, ((make_shared h t s "scalar").write r v) t = some ⟨s, 0, [], "", "scalar"⟩ := by
    intro v; rw [Heap.write_other _ _ hrt.symm, ht1]
  have k1 : ∀ v, h.keeps (h.write r v) := fun v => Heap.keeps_write v hr
  have k2 : ∀ v, h.keeps ((make_shared h t s "scalar").write r v) := fun v =>
    Heap.keeps_trans (Heap.keeps_make_shared _ _ ht) (Heap.keeps_write v hr1)
  refine ⟨?_, ?_, ?_, ?_, ?_, ?_, ?_, ?_, ?_, ?_⟩
  · exact ⟨_, operator_add_some r ha hb, k1 _, _, Heap.write_same _ _ _, add_comm _ _, rfl, rfl,
      hp⟩
  · exact ⟨_, operator_mul_some r ha hb, k1 _, _, Heap.write_same _ _ _, mul_comm _ _, rfl, rfl,
      hp⟩
  · exact ⟨_, pow_some M r ha hb, k1 _, _, Heap.write_same _ _ _, rfl, rfl, rfl, hp⟩
  · exact ⟨_, tanh_some M r ha, k1 _, _, Heap.write_same _ _ _, rfl, rfl, rfl, List.Perm.refl _⟩
  · exact ⟨_, exp_some M r ha, k1 _, _, Heap.write_same _ _ _, rfl, rfl, rfl, List.Perm.refl _⟩
  · exact ⟨_, operator_add_some r ha1 ht1, k2 _, ht2 _, _, Heap.write_same _ _ _, add_comm _ _,
      rfl, rfl, hpt⟩
  · exact ⟨_, operator_mul_some r ha1 ht1, k2 _, ht2 _, _, Heap.write_same _ _ _, mul_comm _ _,
      rfl, rfl, hpt⟩
  · exact ⟨_, pow_some M r ha1 ht1, k2 _, ht2 _, _, Heap.write_same _ _ _, rfl, rfl, rfl, hpt⟩
  · exact ⟨_, operator_add_some r ha1 ht1, k2 _, ht2 _, _, Heap.write_same _ _ _, rfl, rfl, rfl,
      hpt⟩
  · exact ⟨_, operator_mul_some r ha1 ht1, k2 _, ht2 _, _, Heap.write_same _ _ _, rfl, rfl, rfl,
      hpt⟩

/-- C9 at `a = 2.0` (address 1), `b = 3.0` (address 2), result at 3, scalar
temporary at 4: here for `a + b`. -/
theorem forward_builders_witness :
    ∃ h1, operator_add (make_shared (make_shared Heap.empty 1 (2 : ℝ) "a") 2 3 "b") 3 1 2
        = some h1 ∧
      (make_shared (make_shared Heap.empty 1 (2 : ℝ) "a") 2 3 "b").keeps h1 ∧
      builtNode h1 3 (2 + 3) "+" [1, 2] :=
  (forward_builders realMath (make_shared (make_shared Heap.empty 1 (2 : ℝ) "a") 2 3 "b")
    1 2 3 4 7 ⟨2, 0, [], "", "a"⟩ ⟨3, 0, [], "", "b"⟩ rfl rfl rfl rfl (by decide)).1

end C9

/-! ## C10: arity -/

section C10

variable {α : Type} [LinearOrderedCommRing α]

theorem operator_add_arity {h : Heap α} {a b : Nat} {va vb : value α} (r : Nat)
    (ha : h a = some va) (hb : h b = some vb) :
    ∃ h1, operator_add h r a b = some h1 ∧ hasArity h1 r "+" 2 :=
  ⟨_, operator_add_some r ha hb, _, Heap.write_same _ _ _, rfl, insert_pair_length a b⟩

theorem operator_mul_arity {h : Heap α} {a b : Nat} {va vb : value α} (r : Nat)
    (ha : h a = some va) (hb : h b = some vb) :
    ∃ h1, operator_mul h r a b = some h1 ∧ hasArity h1 r "*" 2 :=
  ⟨_, operator_mul_some r ha hb, _, Heap.write_same _ _ _, rfl, insert_pair_length a b⟩

theorem pow_arity (M : CMath α) {h : Heap α} {a b : Nat} {va vb : value α} (r : Nat)
    (ha : h a = some va) (hb : h b = some vb) :
    ∃ h1, pow M h r a b = some h1 ∧ hasArity h1 r "pow" 2 :=
  ⟨_, pow_some M r ha hb, _, Heap.write_same _ _ _, rfl, insert_pair_length a b⟩

theorem operator_sub_arity {h : Heap α} {a b : Nat} {va vb : value α} (t r : Nat)
    (ha : h a = some va) (hb : h b = some vb) (hat : a ≠ t) :
    ∃ h1, operator_sub h t r a b = some h1 ∧ hasArity h1 r "+" 2 := by
  have e : operator_sub h t r a b =
      operator_add (make_shared h t (-1 * vb.data) "scalar") r a t := by
    simp only [operator_sub, operator_add_scalar, getData, hb, Option.map_some',
      Option.bind_eq_bind, Option.some_bind]
  rw [e]
  exact operator_add_arity r ((make_shared_other _ _ _ hat).trans ha) (make_shared_same _ _ _ _)

theorem operator_div_arity (M : CMath α) {h : Heap α} {a b : Nat} {va vb : value α}
    (t p r : Nat) (ha : h a = some va) (hb : h b = some vb) (hat : a ≠ t) (hap : a ≠ p)
    (hbt : b ≠ t) :
    ∃ h1, operator_div M h t p r a b = some h1 ∧ hasArity h1 r "*" 2 := by
  have e1 := pow_some M p ((make_shared_other h (-1) "scalar" hbt).trans hb)
    (make_shared_same h t (-1) "scalar")
  simp only [operator_div, pow_scalar, e1, Option.bind_eq_bind, Option.some_bind]
  exact operator_mul_arity r
    ((Heap.write_other _ _ hap).trans ((make_shared_other _ _ _ hat).trans ha))
    (Heap.write_same _ _ _)

/-- C10. Every builder returns a node whose operand count matches its tag: 2 for
`+`, `*`, `pow` (also for subtraction and division, which return `+` and `*`
nodes, for the scalar and the reflected variants, and when both operands are the
same node or have equal values), 1 for `tanh` and `exp`; a leaf made by
`make_shared` has no operand and the empty tag. -/
theorem builder_arity (M : CMath α) (h : Heap α) (a b r t u p : Nat) (s : α) (lab : String)
    (va vb : value α) (ha : h a = some va) (hb : h b = some vb)
    (ht : h t = none) (hu : h u = none) (hp : h p = none) (htu : t ≠ u) :
    (∃ h1, operator_add h r a b = some h1 ∧ hasArity h1 r "+" 2) ∧
    (∃ h1, operator_add_scalar h t r a s = some h1 ∧ hasArity h1 r "+" 2) ∧
    (∃ h1, operator_sub h t r a b = some h1 ∧ hasArity h1 r "+" 2) ∧
    (∃ h1, operator_sub_scalar h t u r a s = some h1 ∧ hasArity h1 r "+" 2) ∧
    (∃ h1, operator_mul h r a b = some h1 ∧ hasArity h1 r "*" 2) ∧
    (∃ h1, operator_mul_scalar h t r a s = some h1 ∧ hasArity h1 r "*" 2) ∧
    (∃ h1, operator_div M h t p r a b = some h1 ∧ hasArity h1 r "*" 2) ∧
    (∃ h1, operator_div_scalar M h t u p r a s = some h1 ∧ hasArity h1 r "*" 2) ∧
    (∃ h1, pow M h r a b = some h1 ∧ hasArity h1 r "pow" 2) ∧
    (∃ h1, pow_scalar M h t r a s = some h1 ∧ hasArity h1 r "pow" 2) ∧
    (∃ h1, tanh M h r a = some h1 ∧ hasArity h1 r "tanh" 1) ∧
    (∃ h1, exp M h r a = some h1 ∧ hasArity h1 r "exp" 1) ∧
    (∃ h1, scalar_add h t r s a = some h1 ∧ hasArity h1 r "+" 2) ∧
    (∃ h1, scalar_sub h t u r s a = some h1 ∧ hasArity h1 r "+" 2) ∧
    (∃ h1, scalar_mul h t r s a = some h1 ∧ hasArity h1 r "*" 2) ∧
    hasArity (make_shared h r s lab) r "" 0 := by
  have hat : a ≠ t := by rintro rfl; simp [ht] at ha
  have hau : a ≠ u := by rintro rfl; simp [hu] at ha
  have hap : a ≠ p := by rintro rfl; simp [hp] at ha
  have hbt : b ≠ t := by rintro rfl; simp [ht] at hb
  have ha1 : make_shared h t s "scalar" a = some va := (make_shared_other _ _ _ hat).trans ha
  have ht1 := make_shared_same h t s "scalar"
  refine ⟨?_, ?_, ?_, ?_, ?_, ?_, ?_, ?_, ?_, ?_, ?_, ?_, ?_, ?_, ?_, ?_⟩
  · exact operator_add_arity r ha hb
  · exact operator_add_arity r ha1 ht1
  · exact operator_sub_arity t r ha hb hat
  · exact operator_sub_arity u r ha1 ht1 hau
  · exact operator_mul_arity r ha hb
  · exact operator_mul_arity r ha1 ht1
  · exact operator_div_arity M t p r ha hb hat hap hbt
  · exact operator_div_arity M u p r ha1 ht1 hau hap htu
  · exact pow_arity M r ha hb
  · exact pow_arity M r ha1 ht1
  · exact ⟨_, tanh_some M r ha, _, Heap.write_same _ _ _, rfl, rfl⟩
  · exact ⟨_, exp_some M r ha, _, Heap.write_same _ _ _, rfl, rfl⟩
  · exact operator_add_arity r ha1 ht1
  · exact operator_sub_arity u r ha1 ht1 hau
  · exact operator_mul_arity r ha1 ht1
  · exact ⟨_, make_shared_same _ _ _ _, rfl, rfl⟩

/-- C10 with the same node `a = 2.0` (address 1) as both operands: here for
`a.pow(a)`, result at address 5. -/
theorem builder_arity_witness :
    ∃ h1, pow realMath (make_shared Heap.empty 1 (2 : ℝ) "a") 5 1 1 = some h1 ∧
      hasArity h1 5 "pow" 2 :=
  (builder_arity realMath (make_shared Heap.empty 1 (2 : ℝ) "a") 1 1 5 2 3 4 7 "x"
    ⟨2, 0, [], "", "a"⟩ ⟨2, 0, [], "", "a"⟩ rfl rfl rfl rfl rfl (by decide)).2.2.2.2.2.2.2.2.1

end C10

/-! ## C2: accumulation over two independent expressions -/

section C2
variable {α : Type} [LinearOrderedCommRing α]

theorem gradOf_write_grad {h : Heap α} {c : Nat} {w : value α} (hz : ∀ q, gradOf h q = 0)
    (g : α) : gradOf (h.write c { w with grad := g }) = Pi.single c g := by
  funext q
  by_cases hq : q = c
  · subst hq; simp [gradOf]
  · have := hz q
    simp only [gradOf] at this
    simp [gradOf, Heap.write_apply, hq, this]

theorem Upd.act_seed {r c : Nat} (hcr : c ≠ r) (γ : Nat → α) (hr : γ r = 1) :
    Upd.act ⟨r, c, 1⟩ γ = γ + Pi.single c 1 := by
  funext q
  by_cases hq : q = c
  · subst hq; simp [Upd.act, hr]
  · simp [Upd.act, hq]

theorem accumulation_core (M : CMath α) (G : Heap α) (r c1 c2 x n : Nat)
    (vr w1 w2 vx : value α) (h1 h2 : Heap α)
    (hGr : G r = some vr) (hop : vr.op = "+") (hprev : vr.prev = [c1, c2])
    (hz : ∀ q, gradOf G q = 0) (hc1 : G c1 = some w1) (hc2 : G c2 = some w2)
    (nr1 : ¬ Reach G c1 r) (nr2 : ¬ Reach G c2 r) (hx : G x = some vx) (lx : vx.op = "")
    (share : ∀ q, Reach G c1 q → Reach G c2 q → q = x)
    (run1 : backward M n (G.write c1 { w1 with grad := 1 }) c1 = some h1)
    (run2 : backward M n (G.write c2 { w2 with grad := 1 }) c2 = some h2) :
    ∃ hR, backward M (n + 1) (G.write r { vr with grad := 1 }) r = some hR ∧
      (∃ v, hR x = some v) ∧ gradOf hR x = gradOf h1 x + gradOf h2 x := by
  have c1r : c1 ≠ r := fun e => nr1 (e ▸ Reach.refl c1)
  have c2r : c2 ≠ r := fun e => nr2 (e ▸ Reach.refl c2)
  have xr : x ≠ r := by
    rintro rfl
    rw [hGr] at hx
    simp only [Option.some.injEq] at hx
    rw [hx, lx] at hop
    exact absurd hop (by decide)
  -- the three seeded heaps hold the graph of `G`
  have s1 : SameShape G (G.write c1 { w1 with grad := 1 }) := SameShape.write_grad hc1 1
  have s2 : SameShape G (G.write c2 { w2 with grad := 1 }) := SameShape.write_grad hc2 1
  have sr : SameShape G (G.write r { vr with grad := 1 }) := SameShape.write_grad hGr 1
  obtain ⟨t1, ok1, e1, tk1⟩ := backward_eq_applyTrace M run1
  obtain ⟨t2, ok2, e2, tk2⟩ := backward_eq_applyTrace M run2
  -- gradients after the two separate runs
  have g1 : gradOf h1 = actTrace t1 (Pi.single c1 1) := by
    rw [e1, gradOf_applyTrace ok1 _ (SameShape.refl _), gradOf_write_grad hz]
  have g2 : gradOf h2 = actTrace t2 (Pi.single c2 1) := by
    rw [e2, gradOf_applyTrace ok2 _ (SameShape.refl _), gradOf_write_grad hz]
  -- sources and targets of the first trace avoid the root
  have src1 : ∀ u ∈ t1, u.src ≠ r := fun u hu e =>
    nr1 (e ▸ ((ok1 u hu).1.of_shape s1.symm))
  have tgt1 : ∀ u ∈ t1, u.tgt ≠ r := fun u hu e =>
    nr1 (e ▸ ((ok1.tgt_reach hu).reach.of_shape s1.symm))
  have src2 : ∀ u ∈ t2, u.src ≠ r := fun u hu e =>
    nr2 (e ▸ ((ok2 u hu).1.of_shape s2.symm))
  -- the run from the root
  set GR := G.write r { vr with grad := 1 } with hGR
  have hGRr : GR r = some { vr with grad := 1 } := Heap.write_same _ _ _
  set y1 := Upd.apply ⟨r, c1, 1⟩ GR with hy1
  have sy1 : SameShape G y1 := sr.trans (Upd.apply_shape _ _)
  set z1 := applyTrace t1 y1 with hz1
  have sz1 : SameShape G z1 := sy1.applyTrace t1
  set y2 := Upd.apply ⟨r, c2, 1⟩ z1 with hy2
  have sy2 : SameShape G y2 := sz1.trans (Upd.apply_shape _ _)
  have b1 : backward M n y1 c1 = some z1 := tk1 n y1 le_rfl (s1.symm.trans sy1)
  have b2 : backward M n y2 c2 = some (applyTrace t2 y2) := tk2 n y2 le_rfl (s2.symm.trans sy2)
  have run : backward M (n + 1) GR r = some (applyTrace t2 y2) := by
    rw [backward_eval_add M n GR r (by simp [hGRr, hop])]
    simp only [hGRr, hprev, Option.map_some', Option.getD_some, forEach]
    rw [upd_bind_add sr hGr hc1, b1]
    simp only []
    rw [upd_bind_add sz1 hGr hc2, b2]
  refine ⟨_, run, ?_, ?_⟩
  · obtain ⟨v, hv, -⟩ := (sy2.applyTrace t2).lookup hx
    exact ⟨v, hv⟩
  -- gradients
  have γR : gradOf GR = Pi.single r 1 := gradOf_write_grad hz 1
  obtain ⟨vr1, hvr1, -⟩ := sr.lookup hGr
  obtain ⟨wc1, hwc1, -⟩ := sr.lookup hc1
  have γy1 : gradOf y1 = Pi.single r 1 + Pi.single c1 1 := by
    rw [hy1, gradOf_apply (u := ⟨r, c1, 1⟩) hvr1 hwc1, γR]
    exact Upd.act_seed c1r _ (by simp)
  have γz1 : gradOf z1 = Pi.single r 1 + gradOf h1 := by
    rw [hz1, gradOf_applyTrace ok1 _ (s1.symm.trans sy1), γy1, actTrace_add, ← g1,
      actTrace_inert t1 _ (fun u hu => by simp [src1 u hu])]
  have h1r : gradOf h1 r = 0 := by
    rw [g1, actTrace_frame t1 _ r tgt1]
    simp [c1r.symm]
  obtain ⟨vr2, hvr2, -⟩ := sz1.lookup hGr
  obtain ⟨wc2, hwc2, -⟩ := sz1.lookup hc2
  have γy2 : gradOf y2 = Pi.single r 1 + gradOf h1 + Pi.single c2 1 := by
    rw [hy2, gradOf_apply (u := ⟨r, c2, 1⟩) hvr2 hwc2, γz1]
    exact Upd.act_seed c2r _ (by simp [h1r])
  -- the first run left gradient 0 at every source of the second trace
  have inert : ∀ u ∈ t2, gradOf h1 u.src = 0 := by
    intro u hu
    by_contra hne
    obtain ⟨ru, v, w, hv, -, hvop, -⟩ := ok2 u hu
    have r2 : Reach G c2 u.src := ru.of_shape s2.symm
    have r1 : Reach G c1 u.src := by
      by_contra hnr
      apply hne
      rw [g1, actTrace_frame t1 _ u.src (fun u' hu' e =>
        hnr (e ▸ ((ok1.tgt_reach hu').reach.of_shape s1.symm)))]
      have : u.src ≠ c1 := fun e => hnr (by rw [e]; exact Reach.refl c1)
      simp [this]
    have := share _ r1 r2
    obtain ⟨vx2, hvx2, -, -, hop2, -⟩ := s2.lookup hx
    rw [this, hvx2] at hv
    simp only [Option.some.injEq] at hv
    rw [← hv, hop2] at hvop
    exact hvop lx
  have γf : gradOf (applyTrace t2 y2) = Pi.single r 1 + gradOf h1 + gradOf h2 := by
    rw [gradOf_applyTrace ok2 _ (s2.symm.trans sy2), γy2, actTrace_add, actTrace_add, ← g2,
      actTrace_inert t2 _ (fun u hu => by simp [src2 u hu]), actTrace_inert t2 _ inert]
  rw [γf]
  simp [xr]


theorem gradOf_of_getGrad {h : Heap α} {q : Nat} {g : α} (H : getGrad h q = some g) :
    gradOf h q = g := by
  obtain ⟨w, hw, hg⟩ := getGrad_some H
  simp [gradOf, hw, hg]

theorem getGrad_of_alloc {h : Heap α} {q : Nat} {w : value α} (H : h q = some w) :
    getGrad h q = some (gradOf h q) := by
  simp [getGrad, gradOf, H]

/-- In a heap whose operand pointers are all allocated, a node built at a fresh
address is not reachable from any older node, and reachability among the older
nodes is unchanged. -/
theorem Reach.of_fresh {h : Heap α} {r : Nat} {v : value α}
    (closed : ∀ q w c, h q = some w → c ∈ w.prev → ∃ w1, h c = some w1) (hr : h r = none)
    {p q : Nat} (rch : Reach (h.write r v) p q) :
    (∃ w, h p = some w) → Reach h p q ∧ ∃ w, h q = some w := by
  induction rch with
  | refl p => exact fun hp => ⟨Reach.refl p, hp⟩
  | @step p c q w hp hc _ ih =>
    intro hpa
    obtain ⟨wp, hwp⟩ := hpa
    have hpr : p ≠ r := by rintro rfl; simp [hr] at hwp
    rw [Heap.write_other _ _ hpr, hwp] at hp
    simp only [Option.some.injEq] at hp
    subst hp
    obtain ⟨rc, hq⟩ := ih (closed p wp c hwp hc)
    exact ⟨Reach.step hwp hc rc, hq⟩

/-- C2. Let `x` be a leaf and `a`, `b` two nodes of a heap with all gradients 0
that share no transitive operand other than `x`, and let `root = a + b` be built
at a fresh address.  If seeding `a` alone with 1 and running `backward` from `a`
leaves `x.grad = gA`, and the same from `b` leaves `x.grad = gB`, then seeding
the root with 1 and running `backward` from it returns and leaves
`x.grad = gA + gB`. -/
theorem accumulation (M : CMath α) (h : Heap α) (a b x r n : Nat) (gA gB : α)
    (closed : ∀ q v c, h q = some v → c ∈ v.prev → ∃ w, h c = some w)
    (zero : ∀ q v, h q = some v → v.grad = 0) (hr : h r = none)
    (leafx : ∃ vx, h x = some vx ∧ vx.isLeaf)
    (share : ∀ q, Reach h a q → Reach h b q → q = x)
    (runA : gradAfterBackward M n (operator_add h r a b) a x = some gA)
    (runB : gradAfterBackward M n (operator_add h r a b) b x = some gB) :
    gradAfterBackward M (n + 1) (operator_add h r a b) r x = some (gA + gB) := by
  obtain ⟨vx, hx, lx, -⟩ := leafx
  -- the operands are allocated, so the builder returns
  have hab : ∃ va vb, h a = some va ∧ h b = some vb := by
    cases ha : h a with
    | none => simp [gradAfterBackward, operator_add, getData, ha] at runA
    | some va =>
      cases hb : h b with
      | none => simp [gradAfterBackward, operator_add, getData, hb] at runA
      | some vb => exact ⟨va, vb, rfl, rfl⟩
  obtain ⟨va, vb, ha, hb⟩ := hab
  have har : a ≠ r := by rintro rfl; simp [hr] at ha
  have hbr : b ≠ r := by rintro rfl; simp [hr] at hb
  have hxr : x ≠ r := by rintro rfl; simp [hr] at hx
  have eG := operator_add_some r ha hb
  rw [eG] at runA runB ⊢
  set node : value α := ⟨vb.data + va.data, 0, multiset_insert b (multiset_insert a []), "+", ""⟩
    with hnode
  set G := h.write r node with hG
  have Ga : G a = some va := (Heap.write_other _ _ har).trans ha
  have Gb : G b = some vb := (Heap.write_other _ _ hbr).trans hb
  have Gx : G x = some vx := (Heap.write_other _ _ hxr).trans hx
  have Gr : G r = some node := Heap.write_same _ _ _
  have hz : ∀ q, gradOf G q = 0 := by
    intro q
    by_cases hq : q = r
    · subst hq; simp [gradOf, Gr, hnode]
    · cases hq' : h q with
      | none => simp [gradOf, hG, Heap.write_apply, hq, hq']
      | some w => simp [gradOf, hG, Heap.write_apply, hq, hq', zero q w hq']
  have nra : ¬ Reach G a r := fun rch => by
    obtain ⟨-, w, hw⟩ := rch.of_fresh closed hr ⟨va, ha⟩
    simp [hr] at hw
  have nrb : ¬ Reach G b r := fun rch => by
    obtain ⟨-, w, hw⟩ := rch.of_fresh closed hr ⟨vb, hb⟩
    simp [hr] at hw
  have shareG : ∀ q, Reach G a q → Reach G b q → q = x := fun q ra rb =>
    share q (ra.of_fresh closed hr ⟨va, ha⟩).1 (rb.of_fresh closed hr ⟨vb, hb⟩).1
  -- the two separate runs
  simp only [gradAfterBackward, Option.some_bind, setGrad, Ga, Gb, Option.bind_eq_some] at runA runB
  obtain ⟨hA, runA, xA⟩ := runA
  obtain ⟨hB, runB, xB⟩ := runB
  have eA := gradOf_of_getGrad xA
  have eB := gradOf_of_getGrad xB
  simp only [gradAfterBackward, Option.some_bind, setGrad, Gr]
  by_cases hlt : b < a
  · have hprev : node.prev = [b, a] := by simp [hnode, multiset_insert, hlt]
    obtain ⟨hR, run, ⟨v, hv⟩, e⟩ := accumulation_core M G r b a x n node vb va vx hB hA Gr rfl
      hprev hz Gb Ga nrb nra Gx lx (fun q rb ra => shareG q ra rb) runB runA
    rw [run, Option.some_bind, getGrad_of_alloc hv, e, eA, eB, add_comm]
  · have hprev : node.prev = [a, b] := by simp [hnode, multiset_insert, hlt]
    obtain ⟨hR, run, ⟨v, hv⟩, e⟩ := accumulation_core M G r a b x n node va vb vx hA hB Gr rfl
      hprev hz Ga Gb nra nrb Gx lx shareG runA runB
    rw [run, Option.some_bind, getGrad_of_alloc hv, e, eA, eB]

end C2

/-! ## C3: running `backward` twice -/

section C3
variable {α : Type} [LinearOrderedCommRing α]

theorem accumulation_heap_built :
    ((operator_mul (make_shared (make_shared (make_shared Heap.empty 1 (2 : α) "x") 2 3 "w1")
      3 4 "w2") 4 1 2).bind fun h => operator_mul h 5 1 3) = some accumulation_heap := by
  simp [operator_mul, make_shared, getData, Heap.write_apply, multiset_insert,
    accumulation_heap]

theorem reseed_heap_built :
    ((operator_mul (make_shared (make_shared (make_shared Heap.empty 1 (2 : α) "a") 2 3 "b")
      3 5 "c") 4 1 2).bind fun h => (operator_add h 5 4 3).bind fun h1 => setGrad h1 5 1)
      = some reseed_heap := by
  simp [operator_mul, operator_add, setGrad, make_shared, getData, Heap.write_apply,
    multiset_insert, reseed_heap, Heap.write_write_same]

/-- When every update into `q` comes from `r` and `r` itself is never updated,
the gradient of `q` grows by a fixed multiple of the gradient of `r`. -/
theorem actTrace_single_source (tr : List (Upd α)) (r q : Nat)
    (hr : ∀ u ∈ tr, u.tgt ≠ r) (hq : ∀ u ∈ tr, u.tgt = q → u.src = r) :
    ∃ S : α, ∀ γ : Nat → α, actTrace tr γ q = γ q + γ r * S := by
  induction tr with
  | nil => exact ⟨0, fun γ => by simp [actTrace]⟩
  | cons u tr ih =>
    obtain ⟨S, hS⟩ := ih (fun u' hu' => hr u' (List.mem_cons_of_mem _ hu'))
      (fun u' hu' => hq u' (List.mem_cons_of_mem _ hu'))
    have hur : r ≠ u.tgt := (hr u (List.mem_cons_self _ _)).symm
    by_cases hut : q = u.tgt
    · have hs : u.src = r := hq u (List.mem_cons_self _ _) hut.symm
      refine ⟨u.coeff + S, fun γ => ?_⟩
      rw [actTrace_cons, hS]
      simp only [Upd.act, hur, hut, hs, if_true, if_false]
      ring
    · refine ⟨S, fun γ => ?_⟩
      rw [actTrace_cons, hS]
      simp only [Upd.act, hur, hut, if_false]


/-- C3 (amended). Running `backward` from a root twice in a row returns whenever
the first run does, and doubles the gradient of every node `c` that started at 0
and is not a transitive operand of one of the root's operands, so that the root's
own links are the only way to reach it (the root not being its own transitive
operand): in particular every operand of the root that lies on no longer path. -/
theorem reseed_doubles_direct_operands (M : CMath α) (h : Heap α) (r c n : Nat)
    (vr : value α) (g1 : α) (hr : h r = some vr)
    (hc0 : gradOf h c = 0)
    (acyc : ∀ d ∈ vr.prev, ¬ Reach h d r)
    (direct : ∀ d ∈ vr.prev, ¬ StrictReach h d c)
    (run1 : ((backward M n h r).bind fun h1 => getGrad h1 c) = some g1) :
    ((backward_twice M n h r).bind fun h2 => getGrad h2 c) = some (2 * g1) := by
  simp only [Option.bind_eq_some] at run1
  obtain ⟨h1, run1, hg1⟩ := run1
  obtain ⟨tr, ok, e, tk⟩ := backward_eq_applyTrace M run1
  have s1 : SameShape h h1 := e ▸ applyTrace_shape tr h
  have run2 : backward M n h1 r = some (applyTrace tr h1) := tk n h1 le_rfl s1
  -- below the root, every node is reachable from one of the operands
  have below : ∀ q, StrictReach h r q → ∃ d ∈ vr.prev, Reach h d q := by
    rintro q ⟨v, d, hv, hd, rd⟩
    rw [hr] at hv
    simp only [Option.some.injEq] at hv
    subst hv
    exact ⟨d, hd, rd⟩
  have tgt_r : ∀ u ∈ tr, u.tgt ≠ r := by
    intro u hu e
    obtain ⟨d, hd, rd⟩ := below _ (ok.tgt_reach hu)
    exact acyc d hd (e ▸ rd)
  have src_c : ∀ u ∈ tr, u.tgt = c → u.src = r := by
    intro u hu e
    obtain ⟨ru, v, w, hv, ht, -, -⟩ := ok u hu
    rcases ru.cases_head with hsr | hsr
    · exact hsr
    · obtain ⟨d, hd, rd⟩ := below _ hsr
      exact absurd (e ▸ StrictReach.of_edge rd hv ht) (direct d hd)
  obtain ⟨S, hS⟩ := actTrace_single_source tr r c tgt_r src_c
  have γ1 : gradOf h1 = actTrace tr (gradOf h) := by
    rw [e, gradOf_applyTrace ok h (SameShape.refl h)]
  have γ2 : gradOf (applyTrace tr h1) = actTrace tr (gradOf h1) :=
    gradOf_applyTrace ok h1 s1
  have r1 : gradOf h1 r = gradOf h r := by rw [γ1, actTrace_frame tr _ r tgt_r]
  have c1 : gradOf h1 c = gradOf h r * S := by rw [γ1, hS, hc0, zero_add]
  have c2 : gradOf (applyTrace tr h1) c = 2 * gradOf h1 c := by
    rw [γ2, hS, r1, c1]; ring
  obtain ⟨w, hw, -⟩ := getGrad_some hg1
  obtain ⟨w2, hw2, -⟩ := (applyTrace_shape tr h1).lookup hw
  simp only [backward_twice, run1, run2, Option.some_bind]
  rw [getGrad_of_alloc hw2, c2, gradOf_of_getGrad hg1]


theorem Reach.of_leaf {h : Heap α} {p q : Nat} {v : value α} (hp : h p = some v)
    (hv : v.prev = []) (r : Reach h p q) : q = p := by
  rcases r.cases_head with e | ⟨w, c, hw, hc, -⟩
  · exact e
  · rw [hp] at hw
    simp only [Option.some.injEq] at hw
    rw [← hw, hv] at hc
    simp at hc

theorem Reach.of_pair {h : Heap α} {p q c1 c2 : Nat} {v : value α} (hp : h p = some v)
    (hv : v.prev = [c1, c2]) (r : Reach h p q) : q = p ∨ Reach h c1 q ∨ Reach h c2 q := by
  rcases r.cases_head with e | ⟨w, c, hw, hc, rc⟩
  · exact Or.inl e
  · rw [hp] at hw
    simp only [Option.some.injEq] at hw
    rw [← hw, hv] at hc
    simp only [List.mem_cons, List.mem_singleton, List.not_mem_nil, or_false] at hc
    rcases hc with rfl | rfl
    · exact Or.inr (Or.inl rc)
    · exact Or.inr (Or.inr rc)

theorem StrictReach.of_pair_node {h : Heap α} {p q c1 c2 : Nat} {v : value α} (hp : h p = some v)
    (hv : v.prev = [c1, c2]) (r : StrictReach h p q) : Reach h c1 q ∨ Reach h c2 q := by
  obtain ⟨w, c, hw, hc, rc⟩ := r
  rw [hp] at hw
  simp only [Option.some.injEq] at hw
  rw [← hw, hv] at hc
  simp only [List.mem_cons, List.mem_singleton, List.not_mem_nil, or_false] at hc
  rcases hc with rfl | rfl
  · exact Or.inl rc
  · exact Or.inr rc

theorem StrictReach.not_of_leaf {h : Heap α} {p q : Nat} {v : value α} (hp : h p = some v)
    (hv : v.prev = []) : ¬ StrictReach h p q := by
  rintro ⟨w, c, hw, hc, -⟩
  rw [hp] at hw
  simp only [Option.some.injEq] at hw
  rw [← hw, hv] at hc
  simp at hc

/-- C3 as stated fails: for `root = (a*b) + c` with `a = 2`, `b = 3`, the first
run leaves `a.grad = 3` and the second run leaves `a.grad = 9`, not `6`. -/
theorem reseed_triples :
    ((backward realMath 3 reseed_heap 5).bind fun h1 => getGrad h1 1) = some 3 ∧
    ((backward_twice realMath 3 reseed_heap 5).bind fun h2 => getGrad h2 1) = some 9 ∧
    (9 : ℝ) ≠ 2 * 3 := by
  simp [backward_twice, reseed_heap, make_shared, getData, getGrad, addGrad, Heap.write_apply,
    forEach, Heap.empty, backward_eval_leaf, backward_eval_add, backward_eval_mul]
  norm_num

/-- C3 (amended) on `root = (a*b) + c`: the operand `m = a*b` (address 4) has
gradient 1 after the first run and 2 after the second. -/
theorem reseed_doubles_direct_operands_witness :
    ((backward_twice realMath 3 reseed_heap 5).bind fun h2 => getGrad h2 4)
      = some (2 * (1 : ℝ)) := by
  have h1 : (reseed_heap : Heap ℝ) 1 = some ⟨2, 0, [], "", "a"⟩ := rfl
  have h2 : (reseed_heap : Heap ℝ) 2 = some ⟨3, 0, [], "", "b"⟩ := rfl
  have h3 : (reseed_heap : Heap ℝ) 3 = some ⟨5, 0, [], "", "c"⟩ := rfl
  have h4 : (reseed_heap : Heap ℝ) 4 = some ⟨3 * 2, 0, [1, 2], "*", ""⟩ := rfl
  refine reseed_doubles_direct_operands realMath reseed_heap 5 4 3
    ⟨5 + 3 * 2, 1, [3, 4], "+", ""⟩ 1 rfl ?_ ?_ ?_ ?_
  · simp [gradOf, h4]
  · intro d hd
    simp only [List.mem_cons, List.mem_singleton, List.not_mem_nil, or_false] at hd
    rcases hd with rfl | rfl
    · intro r; exact absurd (r.of_leaf h3 rfl) (by decide)
    · intro r
      rcases r.of_pair h4 rfl with e | r | r
      · exact absurd e (by decide)
      · exact absurd (r.of_leaf h1 rfl) (by decide)
      · exact absurd (r.of_leaf h2 rfl) (by decide)
  · intro d hd
    simp only [List.mem_cons, List.mem_singleton, List.not_mem_nil, or_false] at hd
    rcases hd with rfl | rfl
    · exact StrictReach.not_of_leaf h3 rfl
    · intro r
      rcases r.of_pair_node h4 rfl with r | r
      · exact absurd (r.of_leaf h1 rfl) (by decide)
      · exact absurd (r.of_leaf h2 rfl) (by decide)
  · simp [reseed_heap, make_shared, getData, getGrad, addGrad, Heap.write_apply,
      forEach, Heap.empty, backward_eval_leaf, backward_eval_add, backward_eval_mul]

end C3

section C2w

/-- C2 on the example of the claim, `root = x*w1 + x*w2` with `x = 2`, `w1 = 3`,
`w2 = 4`: `x.grad = w1.data + w2.data`. -/
theorem accumulation_witness :
    gradAfterBackward realMath 3 (operator_add (accumulation_heap : Heap ℝ) 6 4 5) 6 1
      = some (3 + 4) := by
  have h1 : (accumulation_heap : Heap ℝ) 1 = some ⟨2, 0, [], "", "x"⟩ := rfl
  have h2 : (accumulation_heap : Heap ℝ) 2 = some ⟨3, 0, [], "", "w1"⟩ := rfl
  have h3 : (accumulation_heap : Heap ℝ) 3 = some ⟨4, 0, [], "", "w2"⟩ := rfl
  have h4 : (accumulation_heap : Heap ℝ) 4 = some ⟨3 * 2, 0, [1, 2], "*", ""⟩ := rfl
  have h5 : (accumulation_heap : Heap ℝ) 5 = some ⟨4 * 2, 0, [1, 3], "*", ""⟩ := rfl
  have hn : ∀ q, 5 < q → (accumulation_heap : Heap ℝ) q = none := by
    intro q hq
    simp only [accumulation_heap, make_shared, Heap.write_apply, Heap.empty]
    rw [if_neg (by omega), if_neg (by omega), if_neg (by omega), if_neg (by omega),
      if_neg (by omega)]
  have h0 : (accumulation_heap : Heap ℝ) 0 = none := rfl
  have all : ∀ (P : Nat → value ℝ → Prop),
      P 1 ⟨2, 0, [], "", "x"⟩ → P 2 ⟨3, 0, [], "", "w1"⟩ → P 3 ⟨4, 0, [], "", "w2"⟩ →
      P 4 ⟨3 * 2, 0, [1, 2], "*", ""⟩ → P 5 ⟨4 * 2, 0, [1, 3], "*", ""⟩ →
      ∀ q v, (accumulation_heap : Heap ℝ) q = some v → P q v := by
    intro P p1 p2 p3 p4 p5 q v hq
    rcases Nat.lt_or_ge 5 q with hlt | hge
    · rw [hn q hlt] at hq; exact absurd hq (by simp)
    · interval_cases q
      · rw [h0] at hq; exact absurd hq (by simp)
      · rw [h1] at hq; exact Option.some.inj hq ▸ p1
      · rw [h2] at hq; exact Option.some.inj hq ▸ p2
      · rw [h3] at hq; exact Option.some.inj hq ▸ p3
      · rw [h4] at hq; exact Option.some.inj hq ▸ p4
      · rw [h5] at hq; exact Option.some.inj hq ▸ p5
  refine accumulation realMath accumulation_heap 4 5 1 6 2 3 4 ?_ ?_ (hn 6 (by decide))
    ⟨_, h1, rfl, rfl⟩ ?_ ?_ ?_
  · intro q v c hq
    refine all (fun _ v => ∀ c, c ∈ v.prev → ∃ w, (accumulation_heap : Heap ℝ) c = some w)
      ?_ ?_ ?_ ?_ ?_ q v hq c <;> intro c hc <;> simp at hc
    · rcases hc with rfl | rfl
      · exact ⟨_, h1⟩
      · exact ⟨_, h2⟩
    · rcases hc with rfl | rfl
      · exact ⟨_, h1⟩
      · exact ⟨_, h3⟩
  · exact all (fun _ v => v.grad = 0) rfl rfl rfl rfl rfl
  · intro q ra rb
    rcases ra.of_pair h4 rfl with e | r | r
    · subst e
      rcases rb.of_pair h5 rfl with e | r | r
      · exact absurd e (by decide)
      · exact absurd (r.of_leaf h1 rfl) (by decide)
      · exact absurd (r.of_leaf h3 rfl) (by decide)
    · exact r.of_leaf h1 rfl
    · have e := r.of_leaf h2 rfl
      subst e
      rcases rb.of_pair h5 rfl with e | r | r
      · exact absurd e (by decide)
      · exact absurd (r.of_leaf h1 rfl) (by decide)
      · exact absurd (r.of_leaf h3 rfl) (by decide)
  · simp [gradAfterBackward, operator_add, setGrad, accumulation_heap, make_shared, getData,
      getGrad, addGrad, Heap.write_apply, multiset_insert, forEach, Heap.empty,
      backward_eval_leaf, backward_eval_add, backward_eval_mul]
  · simp [gradAfterBackward, operator_add, setGrad, accumulation_heap, make_shared, getData,
      getGrad, addGrad, Heap.write_apply, multiset_insert, forEach, Heap.empty,
      backward_eval_leaf, backward_eval_add, backward_eval_mul]

end C2w

/-! ## C2 in the arithmetic of `double` -/

section C2r
variable {α : Type} [LinearOrderedCommRing α]

theorem addGradRounded_id (h : Heap α) (c : Nat) (d : α) :
    addGradRounded id h c d = addGrad h c d := rfl

/-- Without rounding, `backward_rounded` is `backward`. -/
theorem backward_rounded_id (M : CMath α) : ∀ (n : Nat) (h : Heap α) (p : Nat),
    backward_rounded id M n h p = backward M n h p := by
  intro n
  induction n with
  | zero => intro h p; rfl
  | succ n ih =>
    intro h p
    have e : backward_rounded id M n = backward M n := by
      funext h p
      exact ih h p
    simp only [backward_rounded, backward, e, id, addGradRounded_id]

theorem rounding_heap_built :
    ((operator_mul (make_shared (make_shared (make_shared (make_shared Heap.empty 1 (1 : ℤ) "x")
      2 9007199254740992 "w") 3 1 "u") 4 1 "v") 5 1 2).bind fun h =>
      (operator_mul h 6 1 3).bind fun h => (operator_mul h 7 1 4).bind fun h =>
      (operator_add h 8 6 7).bind fun h => operator_add h 9 5 8) = some rounding_heap := by
  simp [operator_mul, operator_add, make_shared, getData, Heap.write_apply, multiset_insert,
    rounding_heap]

/-- C2 as stated fails in the arithmetic of `double`: for `x = 1`, `A = x*w` with
`w = 2^53` and `B = x*u + x*v` with `u = v = 1` (all values are doubles, `A` at
the lower address), the run from `A` alone leaves `x.grad = 2^53`, the run from
`B` alone leaves `x.grad = 2`, whose sum `2^53 + 2` is a double, but the run from
`root = A + B` leaves `x.grad = 2^53`: the two contributions of `B` are added to
`2^53` one at a time, and `2^53 + 1` rounds to `2^53`. -/
theorem accumulation_rounds :
    gradAfterRounded 3 rounding_heap 5 1 = some 9007199254740992 ∧
    gradAfterRounded 3 rounding_heap 8 1 = some 2 ∧
    roundDouble (9007199254740992 + 2) = 9007199254740994 ∧
    gradAfterRounded 4 rounding_heap 9 1 = some 9007199254740992 ∧
    roundDouble (9007199254740992 + 1) = 9007199254740992 ∧
    (9007199254740992 : ℤ) ≠ 9007199254740994 := by
  decide

end C2r

/-! ## C8: the end-to-end scenario of `main` -/

section C8
variable {α : Type} [LinearOrderedField α]

theorem main_heap_eq (M : CMath α) : main_heap M = some (main_graph M) := by
  simp only [main_heap, operator_sub_scalar, operator_sub, operator_add_scalar, operator_add,
    operator_mul, operator_div, pow_scalar, pow, exp, scalar_mul, setGrad, make_shared, getData,
    Heap.write_apply, multiset_insert, Heap.empty, Option.bind_eq_bind, Option.some_bind,
    Option.map_some', Nat.reduceEqDiff, if_true, if_false, Nat.reduceLT, Option.pure_def,
    ite_true, ite_false, Option.some.injEq]
  funext q
  rcases Nat.lt_or_ge q 21 with hq | hq
  · interval_cases q <;> rfl
  · obtain ⟨k, rfl⟩ : ∃ k, q = k + 21 := ⟨q - 21, by omega⟩
    simp [Heap.write_apply, main_graph, Heap.empty]

theorem main_graph_gradOf (M : CMath α) : gradOf (main_graph M) = Pi.single 20 1 := by
  funext q
  rcases Nat.lt_or_ge q 21 with hq | hq
  · interval_cases q <;> simp [gradOf, main_graph]
  · obtain ⟨k, rfl⟩ : ∃ k, q = k + 21 := ⟨q - 21, by omega⟩
    simp [gradOf, main_graph]

/-- The run of `backward` from `o` in `main`, when `e + 1` is positive, and the
gradient it leaves at `x1`. -/
theorem main_runs (M : CMath α) (hpos : 1 + main_e M > 0) :
    ∃ tr, Runs M (main_graph M) 20 9 tr ∧
      actTrace tr (Pi.single 20 1) 1 =
        6 * ((main_e M - 1) * M.pow (1 + main_e M) (-1 - 1) * main_e M)
          - 36 * (M.pow (1 + main_e M) (-1) * main_e M) := by
  have L1 : Runs M (main_graph M) 1 1 [] := Runs.leaf M (p := 1) rfl rfl
  have L2 : Runs M (main_graph M) 2 1 [] := Runs.leaf M (p := 2) rfl rfl
  have L3 : Runs M (main_graph M) 3 1 [] := Runs.leaf M (p := 3) rfl rfl
  have L4 : Runs M (main_graph M) 4 1 [] := Runs.leaf M (p := 4) rfl rfl
  have L5 : Runs M (main_graph M) 5 1 [] := Runs.leaf M (p := 5) rfl rfl
  have L10 : Runs M (main_graph M) 10 1 [] := Runs.leaf M (p := 10) rfl rfl
  have L14 : Runs M (main_graph M) 14 1 [] := Runs.leaf M (p := 14) rfl rfl
  have L16 : Runs M (main_graph M) 16 1 [] := Runs.leaf M (p := 16) rfl rfl
  have L18 : Runs M (main_graph M) 18 1 [] := Runs.leaf M (p := 18) rfl rfl
  have R6 := Runs.mul M (h := main_graph M) (p := 6) rfl rfl rfl rfl rfl L1 L3
  have R7 := Runs.mul M (h := main_graph M) (p := 7) rfl rfl rfl rfl rfl L2 L4
  have R8 := Runs.add M (h := main_graph M) (p := 8) rfl rfl rfl rfl rfl R6 R7
  have R9 := Runs.add M (h := main_graph M) (p := 9) rfl rfl rfl rfl rfl
    (L5.mono M (by decide)) R8
  have R11 := Runs.mul M (h := main_graph M) (p := 11) rfl rfl rfl rfl rfl R9
    (L10.mono M (by decide))
  have R12 := Runs.exp M (h := main_graph M) (p := 12) rfl rfl rfl rfl R11
  have R15 := Runs.add M (h := main_graph M) (p := 15) rfl rfl rfl rfl rfl R12
    (L14.mono M (by decide))
  have R17 := Runs.add M (h := main_graph M) (p := 17) rfl rfl rfl rfl rfl R12
    (L16.mono M (by decide))
  have R19 := Runs.pow_pos M (h := main_graph M) (p := 19) rfl rfl rfl rfl rfl hpos R17
    (L18.mono M (by decide))
  have R20 := Runs.mul M (h := main_graph M) (p := 20) rfl rfl rfl rfl rfl
    (R15.mono M (by decide)) R19
  refine ⟨_, R20, ?_⟩
  simp [actTrace, Upd.act]
  simp only [main_e]
  ring

/-- C8 (what the code does). Running `main` on exact reals, with any budget of at
least 9, leaves `x1.grad = 6*(e-1)*e/(1+e)^2 - 36*e/(1+e)` with `e = exp(2n)`,
which is at most `-3`: it is not within `1e-3` of the expected `-1.5`. -/
theorem main_x1_gradient (fuel : Nat) :
    ((main realMath (fuel + 9)).bind fun h => getGrad h 1) =
      some (6 * ((Real.exp (2 * main_n) - 1) * Real.exp (2 * main_n)
          / (1 + Real.exp (2 * main_n)) ^ 2)
        - 36 * (Real.exp (2 * main_n) / (1 + Real.exp (2 * main_n)))) ∧
    6 * ((Real.exp (2 * main_n) - 1) * Real.exp (2 * main_n) / (1 + Real.exp (2 * main_n)) ^ 2)
        - 36 * (Real.exp (2 * main_n) / (1 + Real.exp (2 * main_n))) ≤ -3 ∧
    ¬ |6 * ((Real.exp (2 * main_n) - 1) * Real.exp (2 * main_n)
          / (1 + Real.exp (2 * main_n)) ^ 2)
        - 36 * (Real.exp (2 * main_n) / (1 + Real.exp (2 * main_n))) - (-1.5)| ≤ 1 / 1000 := by
  have hn : (0 : ℝ) ≤ 2 * main_n := by norm_num [main_n]
  have hE : 1 ≤ Real.exp (2 * main_n) := Real.one_le_exp hn
  have hE1 : (0 : ℝ) < 1 + Real.exp (2 * main_n) := by linarith
  have e : main_e realMath = Real.exp (2 * main_n) := rfl
  have hle : 6 * ((Real.exp (2 * main_n) - 1) * Real.exp (2 * main_n)
      / (1 + Real.exp (2 * main_n)) ^ 2)
      - 36 * (Real.exp (2 * main_n) / (1 + Real.exp (2 * main_n))) ≤ -3 := by
    generalize Real.exp (2 * main_n) = E at hE hE1
    have h2 : 0 < (1 + E) ^ 2 := by positivity
    have key : 6 * ((E - 1) * E / (1 + E) ^ 2) - 36 * (E / (1 + E))
        = (6 * (E - 1) * E - 36 * E * (1 + E)) / (1 + E) ^ 2 := by
      field_simp
      ring
    rw [key, div_le_iff₀ h2]
    nlinarith [mul_nonneg (sub_nonneg.mpr hE) (sub_nonneg.mpr hE), hE]
  refine ⟨?_, hle, ?_⟩
  · obtain ⟨tr, run, hx⟩ := main_runs realMath (e ▸ hE1)
    obtain ⟨-, hg⟩ := Runs.result realMath run
    have hb := run.2 (fuel + 9) (main_graph realMath) (by omega) (SameShape.refl _)
    simp only at hb
    obtain ⟨w, hw, -⟩ := (applyTrace_shape tr (main_graph realMath)).lookup
      (show main_graph realMath 1 = some ⟨2, 0, [], "", "x1"⟩ from rfl)
    rw [main, main_heap_eq, Option.some_bind, hb, Option.some_bind, getGrad_of_alloc hw, hg,
      main_graph_gradOf, hx, e]
    have p1 : realMath.pow (1 + Real.exp (2 * main_n)) (-1)
        = (1 + Real.exp (2 * main_n))⁻¹ := Real.rpow_neg_one _
    have p2 : realMath.pow (1 + Real.exp (2 * main_n)) (-1 - 1)
        = ((1 + Real.exp (2 * main_n)) ^ 2)⁻¹ := by
      show (1 + Real.exp (2 * main_n)) ^ ((-1 : ℝ) - 1) = _
      rw [show ((-1 : ℝ) - 1) = -((2 : ℕ) : ℝ) by norm_num, Real.rpow_neg hE1.le,
        Real.rpow_natCast]
    rw [p1, p2]
    congr 1
    field_simp
  · intro h
    have := (abs_le.mp h).1
    linarith

end C8

/-! ## C11: the exp backward rule -/

section C11

variable {α : Type} [LinearOrderedCommRing α]

/-- C11. For a leaf `a` with gradient 0 and `u = a.exp()` at a fresh address,
seeding `u.grad = g` and running `backward` from `u` (any budget of at least 2)
returns, and leaves `a.grad = g * exp(a.data)`, which is `g * u.data`: the node
the builder made holds `exp(a.data)`. -/
theorem exp_backward_rule (M : CMath α) (h : Heap α) (a u fuel : Nat) (va : value α) (g : α)
    (ha : h a = some va) (hu : h u = none) (la : va.isLeaf) (ga : va.grad = 0) :
    ∃ h3 vu, ((exp M h u a).bind fun h1 => (setGrad h1 u g).bind fun h2 =>
        backward M (fuel + 2) h2 u) = some h3 ∧
      h3 u = some vu ∧ vu.data = M.exp va.data ∧
      getGrad h3 a = some (g * M.exp va.data) ∧ getGrad h3 a = some (g * vu.data) := by
  have hua : u ≠ a := by rintro rfl; simp [hu] at ha
  obtain ⟨oa, -⟩ := la
  rw [exp_some M u ha]
  simp only [Option.some_bind, setGrad, Heap.write_same]
  rw [backward_eval_exp M (fuel + 1) _ u (by simp)]
  simp only [Heap.write_same, Option.map_some', Option.getD_some, forEach, getGrad, getData,
    addGrad, Heap.write_other _ _ hua.symm, ha, Option.some_bind]
  rw [backward_leaf M fuel { va with grad := va.grad + g * M.exp va.data }
    (by simp [Heap.write]) oa]
  refine ⟨_, ⟨M.exp va.data, g, [a], "exp", ""⟩, rfl, ?_, rfl, ?_, ?_⟩
  · simp [Heap.write, hua]
  · simp [Heap.write, ga]
  · simp [Heap.write, ga]

/-- C11 at `a = 0.5` (address 1), `u = a.exp()` (address 2), seed `g = 3`. -/
theorem exp_backward_rule_witness :
    ∃ h3 vu, ((exp realMath (make_shared Heap.empty 1 (1 / 2 : ℝ) "a") 2 1).bind fun h1 =>
        (setGrad h1 2 3).bind fun h2 => backward realMath 2 h2 2) = some h3 ∧
      h3 2 = some vu ∧ vu.data = Real.exp (1 / 2) ∧
      getGrad h3 1 = some (3 * Real.exp (1 / 2)) ∧ getGrad h3 1 = some (3 * vu.data) :=
  exp_backward_rule realMath (make_shared Heap.empty 1 (1 / 2 : ℝ) "a") 1 2 0
    ⟨1 / 2, 0, [], "", "a"⟩ 3 rfl rfl ⟨rfl, rfl⟩ rfl

end C11

/-! ## C15: double counting through a shared node -/

section C15

/-- C15. For two distinct leaves `a` (gradient 0) and `b` with `b.data > 0`, build
`m = a * b` and `r = m + m` at fresh addresses, seed `r.grad = 1` and run
`backward` from `r` (any budget of at least 3): it returns with
`a.grad = 3 * b.data`.  The value the builders give `r`, as a function of the
value `t` of `a`, is `b.data * t + b.data * t`, whose derivative is `2 * b.data`,
strictly less than the gradient computed. -/
theorem double_counting (M : CMath ℝ) (h : Heap ℝ) (a b m r fuel : Nat) (va vb : value ℝ)
    (hab : a ≠ b) (ha : h a = some va) (hb : h b = some vb) (hm : h m = none)
    (hr : h r = none) (hmr : m ≠ r) (la : va.isLeaf) (lb : vb.isLeaf) (ga : va.grad = 0)
    (hpos : 0 < vb.data) :
    (∃ h3, ((operator_mul h m a b).bind fun h1 => (operator_add h1 r m m).bind fun h2 =>
        (setGrad h2 r 1).bind fun h3 => backward M (fuel + 3) h3 r) = some h3 ∧
      getGrad h3 a = some (3 * vb.data)) ∧
    (∀ t : ℝ, ((operator_mul (h.write a { va with data := t }) m a b).bind fun h1 =>
        (operator_add h1 r m m).bind fun h2 => getData h2 r)
        = some (vb.data * t + vb.data * t)) ∧
    HasDerivAt (fun t : ℝ => vb.data * t + vb.data * t) (2 * vb.data) va.data ∧
    2 * vb.data < 3 * vb.data := by
  have hma : m ≠ a := by rintro rfl; simp [hm] at ha
  have hmb : m ≠ b := by rintro rfl; simp [hm] at hb
  have hra : r ≠ a := by rintro rfl; simp [hr] at ha
  have hrb : r ≠ b := by rintro rfl; simp [hr] at hb
  obtain ⟨oa, -⟩ := la
  obtain ⟨ob, -⟩ := lb
  refine ⟨?_, ?_, ?_, by linarith⟩
  · rw [operator_mul_some m ha hb]
    simp only [Option.some_bind]
    rw [operator_add_some r (Heap.write_same _ _ _) (Heap.write_same _ _ _)]
    simp only [Option.some_bind, setGrad, Heap.write_same]
    have hl : multiset_insert m (multiset_insert m []) = [m, m] := by simp [multiset_insert]
    rw [hl, Heap.write_write_same]
    set nm : value ℝ := ⟨vb.data * va.data, 0, multiset_insert b (multiset_insert a []), "*", ""⟩
      with hnm
    set H : Heap ℝ := (h.write m nm).write r
      ⟨vb.data * va.data + vb.data * va.data, 1, [m, m], "+", ""⟩ with hH
    have Hr : H r = some ⟨vb.data * va.data + vb.data * va.data, 1, [m, m], "+", ""⟩ :=
      Heap.write_same _ _ _
    have Hm : H m = some nm := (Heap.write_other _ _ hmr).trans (Heap.write_same _ _ _)
    have Ha : H a = some va :=
      (Heap.write_other _ _ hra.symm).trans ((Heap.write_other _ _ hma.symm).trans ha)
    have Hb : H b = some vb :=
      (Heap.write_other _ _ hrb.symm).trans ((Heap.write_other _ _ hmb.symm).trans hb)
    have Ra := Runs.leaf M Ha oa
    have Rb := Runs.leaf M Hb ob
    have γr : gradOf H r = 1 := by simp [gradOf, Hr]
    have γm : gradOf H m = 0 := by simp [gradOf, Hm, hnm]
    have γa : gradOf H a = 0 := by simp [gradOf, Ha, ga]
    have key : ∃ tr, Runs M H r (fuel + 3) tr ∧ actTrace tr (gradOf H) a = 3 * vb.data := by
      by_cases hlt : b < a
      · have hp : nm.prev = b :: a :: [] := by simp [hnm, multiset_insert, hlt]
        have Rm := Runs.mul M Hm rfl hp Hb Ha Rb Ra
        have Rr := (Runs.add M Hr rfl rfl Hm Hm Rm Rm).mono M (show 3 ≤ fuel + 3 by omega)
        refine ⟨_, Rr, ?_⟩
        simp [actTrace, Upd.act, hab, hab.symm, hma, hma.symm, hmb, hmb.symm, hmr, hmr.symm, hra,
          hra.symm, hrb, hrb.symm, γr, γm, γa]
        ring
      · have hp : nm.prev = a :: b :: [] := by simp [hnm, multiset_insert, hlt]
        have Rm := Runs.mul M Hm rfl hp Ha Hb Ra Rb
        have Rr := (Runs.add M Hr rfl rfl Hm Hm Rm Rm).mono M (show 3 ≤ fuel + 3 by omega)
        refine ⟨_, Rr, ?_⟩
        simp [actTrace, Upd.act, hab, hab.symm, hma, hma.symm, hmb, hmb.symm, hmr, hmr.symm, hra,
          hra.symm, hrb, hrb.symm, γr, γm, γa]
        ring
    obtain ⟨tr, run, e⟩ := key
    obtain ⟨hrun, hg⟩ := Runs.result M run
    obtain ⟨w, hw, -⟩ := (applyTrace_shape tr H).lookup Ha
    exact ⟨_, hrun, by rw [getGrad_of_alloc hw, hg, e]⟩
  · intro t
    rw [operator_mul_some m (Heap.write_same _ _ _)
      ((Heap.write_other _ _ hab.symm).trans hb)]
    simp only [Option.some_bind]
    rw [operator_add_some r (Heap.write_same _ _ _) (Heap.write_same _ _ _)]
    simp [getData]
  · have h1 : HasDerivAt (fun t : ℝ => vb.data * t) vb.data va.data := by
      simpa using (hasDerivAt_id va.data).const_mul vb.data
    have := h1.add h1
    rw [two_mul]
    exact this

/-- C15 at `a = 2.0` (address 1), `b = 5.0` (address 2), `m` at 3, `r` at 4:
`a.grad` ends at 15 where the derivative is 10. -/
theorem double_counting_witness :
    (∃ h3, ((operator_mul (make_shared (make_shared Heap.empty 1 (2 : ℝ) "a") 2 5 "b")
        3 1 2).bind fun h1 => (operator_add h1 4 3 3).bind fun h2 =>
        (setGrad h2 4 1).bind fun h3 => backward realMath 3 h3 4) = some h3 ∧
      getGrad h3 1 = some (3 * 5)) ∧
    (∀ t : ℝ, ((operator_mul ((make_shared (make_shared Heap.empty 1 (2 : ℝ) "a") 2 5 "b").write
        1 ⟨t, 0, [], "", "a"⟩) 3 1 2).bind fun h1 =>
        (operator_add h1 4 3 3).bind fun h2 => getData h2 4) = some (5 * t + 5 * t)) ∧
    HasDerivAt (fun t : ℝ => 5 * t + 5 * t) (2 * 5) 2 ∧ (2 * 5 : ℝ) < 3 * 5 :=
  double_counting realMath (make_shared (make_shared Heap.empty 1 (2 : ℝ) "a") 2 5 "b")
    1 2 3 4 0 ⟨2, 0, [], "", "a"⟩ ⟨5, 0, [], "", "b"⟩ (by decide) rfl rfl rfl rfl (by decide)
    ⟨rfl, rfl⟩ ⟨rfl, rfl⟩ rfl (by norm_num)

end C15

/-! ## C18: the same node as both operands -/

section C18

variable {α : Type} [LinearOrderedCommRing α]

/-- C18. For a leaf `a` with gradient 0 and a fresh address `c`: after `c = a + a`,
seeding `c.grad = g` and running `backward` from `c` (any budget of at least 2)
leaves `a.grad = 2 * g`; after `c = a * a` the same steps leave
`a.grad = 2 * g * a.data`. -/
theorem same_operand_twice (M : CMath α) (h : Heap α) (a c fuel : Nat) (va : value α) (g : α)
    (ha : h a = some va) (hc : h c = none) (la : va.isLeaf) (ga : va.grad = 0) :
    (∃ h3, ((operator_add h c a a).bind fun h1 => (setGrad h1 c g).bind fun h2 =>
        backward M (fuel + 2) h2 c) = some h3 ∧ getGrad h3 a = some (2 * g)) ∧
    (∃ h3, ((operator_mul h c a a).bind fun h1 => (setGrad h1 c g).bind fun h2 =>
        backward M (fuel + 2) h2 c) = some h3 ∧ getGrad h3 a = some (2 * g * va.data)) := by
  have hca : c ≠ a := by rintro rfl; simp [hc] at ha
  obtain ⟨oa, -⟩ := la
  have hl : multiset_insert a (multiset_insert a []) = [a, a] := by simp [multiset_insert]
  constructor
  · rw [operator_add_some c ha ha]
    simp only [Option.some_bind, setGrad, Heap.write_same, hl]
    rw [backward_eval_add M (fuel + 1) _ c (by simp)]
    simp only [Heap.write_same, Option.map_some', Option.getD_some, forEach, getGrad, getData,
      addGrad, Heap.write_other _ _ hca.symm, Heap.write_other _ _ hca, ha, Option.some_bind]
    rw [backward_leaf M fuel { va with grad := va.grad + g } (by simp [Heap.write]) oa]
    simp only [Heap.write_same, Heap.write_other _ _ hca, Option.map_some', Option.some_bind]
    rw [backward_leaf M fuel { va with grad := va.grad + g + g } (by simp [Heap.write]) oa]
    refine ⟨_, rfl, ?_⟩
    simp [Heap.write, ga, two_mul]
  · rw [operator_mul_some c ha ha]
    simp only [Option.some_bind, setGrad, Heap.write_same, hl]
    rw [backward_mul M (fuel + 1) a a [] (Heap.write_same _ _ _) rfl rfl]
    simp only [Heap.write_same, Option.map_some', Option.getD_some, getGrad, getData,
      addGrad, Heap.write_other _ _ hca.symm, Heap.write_other _ _ hca, ha, Option.some_bind]
    rw [backward_leaf M fuel { va with grad := va.grad + g * va.data + g * va.data }
      (by simp [Heap.write]) oa]
    simp only [Option.some_bind]
    rw [backward_leaf M fuel { va with grad := va.grad + g * va.data + g * va.data }
      (by simp [Heap.write]) oa]
    refine ⟨_, rfl, ?_⟩
    simp [Heap.write, ga]
    ring

/-- C18 at `a = 5.0` (address 1), result at address 2, seed `g = 3`. -/
theorem same_operand_twice_witness :
    (∃ h3, ((operator_add (make_shared Heap.empty 1 (5 : ℝ) "a") 2 1 1).bind fun h1 =>
        (setGrad h1 2 3).bind fun h2 => backward realMath 2 h2 2) = some h3 ∧
      getGrad h3 1 = some (2 * 3)) ∧
    (∃ h3, ((operator_mul (make_shared Heap.empty 1 (5 : ℝ) "a") 2 1 1).bind fun h1 =>
        (setGrad h1 2 3).bind fun h2 => backward realMath 2 h2 2) = some h3 ∧
      getGrad h3 1 = some (2 * 3 * 5)) :=
  same_operand_twice realMath (make_shared Heap.empty 1 (5 : ℝ) "a") 1 2 0
    ⟨5, 0, [], "", "a"⟩ 3 rfl rfl ⟨rfl, rfl⟩ rfl

end C18

/-! ## C20: linearity in the seed -/

section C20

variable {α : Type} [LinearOrderedCommRing α]

theorem gradOf_seed {h : Heap α} {root : Nat} {vr : value α}
    (zero : ∀ q, q ≠ root → gradOf h q = 0) (k : α) :
    gradOf (h.write root { vr with grad := k }) = k • (Pi.single root 1 : Nat → α) := by
  funext q
  by_cases hq : q = root
  · subst hq; simp [gradOf]
  · have := zero q hq
    simp only [gradOf] at this
    simp [gradOf, Heap.write_apply, hq, this]

/-- C20. In a heap whose gradients are 0 at every node other than `root`: if
seeding `root.grad = 1` and running `backward` from `root` returns (call the
result `h1`), then for every scalar `k` seeding `root.grad = k` and running
`backward` with the same budget returns some `hk` in which every node holds `k`
times the gradient it holds in `h1`; in particular seeding 0 returns a heap `h0`
in which every gradient is 0. -/
theorem seed_linearity (M : CMath α) (h : Heap α) (root n : Nat) (k : α)
    (zero : ∀ q, q ≠ root → gradOf h q = 0)
    (run1 : ((setGrad h root 1).bind fun x => backward M n x root).isSome) :
    ∃ h1 hk h0, ((setGrad h root 1).bind fun x => backward M n x root) = some h1 ∧
      ((setGrad h root k).bind fun x => backward M n x root) = some hk ∧
      ((setGrad h root 0).bind fun x => backward M n x root) = some h0 ∧
      (∀ q, gradOf hk q = k * gradOf h1 q) ∧ ∀ q, gradOf h0 q = 0 := by
  obtain ⟨h1, run1⟩ := Option.isSome_iff_exists.mp run1
  cases hroot : h root with
  | none => simp [setGrad, hroot] at run1
  | some vr =>
    simp only [setGrad, hroot, Option.some_bind] at run1 ⊢
    obtain ⟨tr, ok, e, tk⟩ := backward_eq_applyTrace M run1
    have s1 : SameShape h (h.write root { vr with grad := 1 }) := SameShape.write_grad hroot 1
    have g1 : gradOf h1 = actTrace tr (Pi.single root 1) := by
      rw [e, gradOf_applyTrace ok _ (SameShape.refl _), gradOf_seed zero 1, one_smul]
    have main : ∀ c : α, ∃ hc, backward M n (h.write root { vr with grad := c }) root = some hc ∧
        ∀ q, gradOf hc q = c * gradOf h1 q := by
      intro c
      have sc : SameShape (h.write root { vr with grad := 1 })
          (h.write root { vr with grad := c }) := s1.symm.trans (SameShape.write_grad hroot c)
      refine ⟨_, tk n _ le_rfl sc, fun q => ?_⟩
      rw [gradOf_applyTrace ok _ sc, gradOf_seed zero c, actTrace_smul, ← g1]
      rfl
    obtain ⟨hk, rk, ek⟩ := main k
    obtain ⟨h0, r0, e0⟩ := main 0
    exact ⟨h1, hk, h0, run1, rk, r0, ek, fun q => by rw [e0 q, zero_mul]⟩

/-- C20 on `root = (a*b) + c` with `a = 2.0`, `b = 3.0`, `c = 5.0` (the heap
`reseed_heap`, root at address 5) and `k = 7`. -/
theorem seed_linearity_witness :
    ∃ h1 hk h0, ((setGrad (reseed_heap : Heap ℝ) 5 1).bind fun x => backward realMath 3 x 5)
        = some h1 ∧
      ((setGrad (reseed_heap : Heap ℝ) 5 7).bind fun x => backward realMath 3 x 5) = some hk ∧
      ((setGrad (reseed_heap : Heap ℝ) 5 0).bind fun x => backward realMath 3 x 5) = some h0 ∧
      (∀ q, gradOf hk q = 7 * gradOf h1 q) ∧ ∀ q, gradOf h0 q = 0 :=
  seed_linearity realMath reseed_heap 5 3 7
    (fun q hq => by
      simp only [gradOf, reseed_heap, make_shared, Heap.write_apply, Heap.empty, if_neg hq]
      split_ifs <;> rfl)
    (by
      simp [reseed_heap, setGrad, make_shared, getData, getGrad, addGrad, Heap.write_apply,
        forEach, Heap.empty, backward_eval_leaf, backward_eval_add, backward_eval_mul])

end C20

/-! ## C14: the builders only add nodes -/

section C14

variable {α : Type} [LinearOrderedCommRing α]

omit [LinearOrderedCommRing α] in
theorem Heap.addsOnly_write {h : Heap α} {r : Nat} (v : value α) (hr : h r = none) :
    h.addsOnly (h.write r v) [r] :=
  ⟨Heap.keeps_write v hr, fun q hq => Heap.write_other _ _ (by simpa using hq)⟩

omit [LinearOrderedCommRing α] in
theorem Heap.addsOnly_trans {h1 h2 h3 : Heap α} {l1 l2 : List Nat} (a : h1.addsOnly h2 l1)
    (b : h2.addsOnly h3 l2) : h1.addsOnly h3 (l1 ++ l2) := by
  refine ⟨Heap.keeps_trans a.1 b.1, fun q hq => ?_⟩
  rw [List.mem_append, not_or] at hq
  rw [b.2 q hq.2, a.2 q hq.1]

theorem operator_add_frame {h : Heap α} {a b : Nat} {va vb : value α} (r : Nat)
    (ha : h a = some va) (hb : h b = some vb) (hr : h r = none) :
    ∃ h1, operator_add h r a b = some h1 ∧ h.addsOnly h1 [r] :=
  ⟨_, operator_add_some r ha hb, Heap.addsOnly_write _ hr⟩

theorem operator_mul_frame {h : Heap α} {a b : Nat} {va vb : value α} (r : Nat)
    (ha : h a = some va) (hb : h b = some vb) (hr : h r = none) :
    ∃ h1, operator_mul h r a b = some h1 ∧ h.addsOnly h1 [r] :=
  ⟨_, operator_mul_some r ha hb, Heap.addsOnly_write _ hr⟩

theorem pow_frame (M : CMath α) {h : Heap α} {a b : Nat} {va vb : value α} (r : Nat)
    (ha : h a = some va) (hb : h b = some vb) (hr : h r = none) :
    ∃ h1, pow M h r a b = some h1 ∧ h.addsOnly h1 [r] :=
  ⟨_, pow_some M r ha hb, Heap.addsOnly_write _ hr⟩

theorem operator_sub_frame {h : Heap α} {a b : Nat} {va vb : value α} (t r : Nat)
    (ha : h a = some va) (hb : h b = some vb) (ht : h t = none) (hr : h r = none)
    (htr : t ≠ r) : ∃ h1, operator_sub h t r a b = some h1 ∧ h.addsOnly h1 [t, r] := by
  have hat : a ≠ t := by rintro rfl; simp [ht] at ha
  have e : operator_sub h t r a b =
      operator_add (make_shared h t (-1 * vb.data) "scalar") r a t := by
    simp only [operator_sub, operator_add_scalar, getData, hb, Option.map_some',
      Option.bind_eq_bind, Option.some_bind]
  rw [e]
  obtain ⟨h1, e1, f1⟩ := operator_add_frame r ((make_shared_other _ _ _ hat).trans ha)
    (make_shared_same h t (-1 * vb.data) "scalar")
    ((make_shared_other _ _ _ htr.symm).trans hr)
  exact ⟨h1, e1, Heap.addsOnly_trans (Heap.addsOnly_write _ ht) f1⟩

theorem operator_div_frame (M : CMath α) {h : Heap α} {a b : Nat} {va vb : value α}
    (t p r : Nat) (ha : h a = some va) (hb : h b = some vb) (ht : h t = none)
    (hp : h p = none) (hr : h r = none) (htp : t ≠ p) (htr : t ≠ r) (hpr : p ≠ r) :
    ∃ h1, operator_div M h t p r a b = some h1 ∧ h.addsOnly h1 [t, p, r] := by
  have hat : a ≠ t := by rintro rfl; simp [ht] at ha
  have hap : a ≠ p := by rintro rfl; simp [hp] at ha
  have hbt : b ≠ t := by rintro rfl; simp [ht] at hb
  obtain ⟨h1, e1, f1⟩ := pow_frame M p ((make_shared_other h (-1) "scalar" hbt).trans hb)
    (make_shared_same h t (-1) "scalar") ((make_shared_other _ _ _ htp.symm).trans hp)
  have e1' := e1
  rw [pow_some M p ((make_shared_other h (-1) "scalar" hbt).trans hb)
    (make_shared_same h t (-1) "scalar")] at e1'
  have hh1 := Option.some.inj e1'
  have a1 : h1 a = some va := by
    rw [← hh1]; exact (Heap.write_other _ _ hap).trans ((make_shared_other _ _ _ hat).trans ha)
  have p1 : ∃ w, h1 p = some w := by rw [← hh1]; exact ⟨_, Heap.write_same _ _ _⟩
  obtain ⟨w, p1⟩ := p1
  have r1 : h1 r = none := by
    rw [← hh1]
    exact (Heap.write_other _ _ hpr.symm).trans ((make_shared_other _ _ _ htr.symm).trans hr)
  obtain ⟨h2, e2, f2⟩ := operator_mul_frame r a1 p1 r1
  refine ⟨h2, ?_, Heap.addsOnly_trans (Heap.addsOnly_write _ ht) (Heap.addsOnly_trans f1 f2)⟩
  simp only [operator_div, pow_scalar, e1, Option.bind_eq_bind, Option.some_bind, e2]

/-- C14. For allocated nodes `a`, `b` and fresh, pairwise distinct addresses `t`,
`u`, `p`, `r` (scalar temporaries, power node, result), every builder -- add,
subtract, multiply, divide, pow, tanh, exp, with their scalar and reflected
variants, and the leaf constructor -- returns a heap in which every node that
existed before is unchanged in all its fields and the only new nodes are at the
addresses it allocated. -/
theorem build_frame (M : CMath α) (h : Heap α) (a b t u p r : Nat) (s : α) (lab : String)
    (va vb : value α) (ha : h a = some va) (hb : h b = some vb)
    (ht : h t = none) (hu : h u = none) (hp : h p = none) (hr : h r = none)
    (hd : [t, u, p, r].Nodup) :
    h.addsOnly (make_shared h r s lab) [r] ∧
    (∃ h1, operator_add h r a b = some h1 ∧ h.addsOnly h1 [r]) ∧
    (∃ h1, operator_add_scalar h t r a s = some h1 ∧ h.addsOnly h1 [t, r]) ∧
    (∃ h1, operator_sub h t r a b = some h1 ∧ h.addsOnly h1 [t, r]) ∧
    (∃ h1, operator_sub_scalar h t u r a s = some h1 ∧ h.addsOnly h1 [t, u, r]) ∧
    (∃ h1, operator_mul h r a b = some h1 ∧ h.addsOnly h1 [r]) ∧
    (∃ h1, operator_mul_scalar h t r a s = some h1 ∧ h.addsOnly h1 [t, r]) ∧
    (∃ h1, operator_div M h t p r a b = some h1 ∧ h.addsOnly h1 [t, p, r]) ∧
    (∃ h1, operator_div_scalar M h t u p r a s = some h1 ∧ h.addsOnly h1 [t, u, p, r]) ∧
    (∃ h1, pow M h r a b = some h1 ∧ h.addsOnly h1 [r]) ∧
    (∃ h1, pow_scalar M h t r a s = some h1 ∧ h.addsOnly h1 [t, r]) ∧
    (∃ h1, tanh M h r a = some h1 ∧ h.addsOnly h1 [r]) ∧
    (∃ h1, exp M h r a = some h1 ∧ h.addsOnly h1 [r]) ∧
    (∃ h1, scalar_add h t r s a = some h1 ∧ h.addsOnly h1 [t, r]) ∧
    (∃ h1, scalar_sub h t u r s a = some h1 ∧ h.addsOnly h1 [t, u, r]) ∧
    (∃ h1, scalar_mul h t r s a = some h1 ∧ h.addsOnly h1 [t, r]) := by
  simp only [List.nodup_cons, List.mem_cons, List.mem_singleton, List.not_mem_nil, or_false,
    not_or, List.nodup_nil, not_false_eq_true, and_true] at hd
  obtain ⟨⟨htu, htp, htr⟩, ⟨hup, hur⟩, hpr⟩ := hd
  have htu : t ≠ u := htu
  have htp : t ≠ p := htp
  have htr : t ≠ r := htr
  have hup : u ≠ p := hup
  have hur : u ≠ r := hur
  have hpr : p ≠ r := hpr
  have hat : a ≠ t := by rintro rfl; simp [ht] at ha
  have ha1 : make_shared h t s "scalar" a = some va := (make_shared_other _ _ _ hat).trans ha
  have ht1 := make_shared_same h t s "scalar"
  have hr1 : make_shared h t s "scalar" r = none := (make_shared_other _ _ _ htr.symm).trans hr
  have hu1 : make_shared h t s "scalar" u = none := (make_shared_other _ _ _ htu.symm).trans hu
  have hp1 : make_shared h t s "scalar" p = none := (make_shared_other _ _ _ htp.symm).trans hp
  have f0 : h.addsOnly (make_shared h t s "scalar") [t] := Heap.addsOnly_write _ ht
  have lift : ∀ {x : Option (Heap α)} {l : List Nat},
      (∃ h1, x = some h1 ∧ (make_shared h t s "scalar").addsOnly h1 l) →
      ∃ h1, x = some h1 ∧ h.addsOnly h1 (t :: l) := by
    rintro x l ⟨h1, e, f⟩
    exact ⟨h1, e, Heap.addsOnly_trans f0 f⟩
  refine ⟨Heap.addsOnly_write _ hr, ?_, ?_, ?_, ?_, ?_, ?_, ?_, ?_, ?_, ?_, ?_, ?_, ?_, ?_, ?_⟩
  · exact operator_add_frame r ha hb hr
  · exact lift (operator_add_frame r ha1 ht1 hr1)
  · exact operator_sub_frame t r ha hb ht hr htr
  · exact lift (operator_sub_frame u r ha1 ht1 hu1 hr1 hur)
  · exact operator_mul_frame r ha hb hr
  · exact lift (operator_mul_frame r ha1 ht1 hr1)
  · exact operator_div_frame M t p r ha hb ht hp hr htp htr hpr
  · exact lift (operator_div_frame M u p r ha1 ht1 hu1 hp1 hr1 hup hur hpr)
  · exact pow_frame M r ha hb hr
  · exact lift (pow_frame M r ha1 ht1 hr1)
  · exact ⟨_, tanh_some M r ha, Heap.addsOnly_write _ hr⟩
  · exact ⟨_, exp_some M r ha, Heap.addsOnly_write _ hr⟩
  · exact lift (operator_add_frame r ha1 ht1 hr1)
  · exact lift (operator_sub_frame u r ha1 ht1 hu1 hr1 hur)
  · exact lift (operator_mul_frame r ha1 ht1 hr1)

/-- C14 at `a = 2.0` (address 1), `b = 3.0` (address 2), fresh addresses 3 to 6:
here for the division `a / b`, which allocates a scalar, a power node and the
result. -/
theorem build_frame_witness :
    ∃ h1, operator_div realMath (make_shared (make_shared Heap.empty 1 (2 : ℝ) "a") 2 3 "b")
        3 5 6 1 2 = some h1 ∧
      (make_shared (make_shared Heap.empty 1 (2 : ℝ) "a") 2 3 "b").addsOnly h1 [3, 5, 6] :=
  (build_frame realMath (make_shared (make_shared Heap.empty 1 (2 : ℝ) "a") 2 3 "b")
    1 2 3 4 5 6 7 "x" ⟨2, 0, [], "", "a"⟩ ⟨3, 0, [], "", "b"⟩ rfl rfl rfl rfl rfl rfl
    (by decide)).2.2.2.2.2.2.2.1

end C14

/-! ## C13: what `backward` may change -/

section Calls
variable {α : Type} [LinearOrderedCommRing α]

/-- A run that returns on one heap returns on every heap holding the same graph. -/
theorem backward_returns_of_shape (M : CMath α) {n : Nat} {h x x1 : Heap α} {p : Nat}
    (s : SameShape h x) (H : backward M n x p = some x1) : ∃ h1, backward M n h p = some h1 := by
  obtain ⟨tr, -, -, tk⟩ := backward_eq_applyTrace M H
  exact ⟨_, tk n h le_rfl s.symm⟩

theorem gradOf_apply_other (u : Upd α) (h : Heap α) {q : Nat} (hq : q ≠ u.tgt) :
    gradOf (u.apply h) q = gradOf h q := by
  unfold Upd.apply
  split
  · simp [gradOf, Heap.write_apply, hq]
  · rfl

theorem gradOf_applyTrace_other (tr : List (Upd α)) (h : Heap α) {q : Nat}
    (hq : ∀ u ∈ tr, q ≠ u.tgt) : gradOf (applyTrace tr h) q = gradOf h q := by
  induction tr generalizing h with
  | nil => rfl
  | cons u tr ih =>
    rw [applyTrace_cons, ih _ (fun u' hu' => hq u' (List.mem_cons_of_mem _ hu')),
      gradOf_apply_other u h (hq u (List.mem_cons_self _ _))]

/-- One "update the operand, then recurse into it" step: if it changes the
gradient of `q`, then `backward` returns from `q` with the budget of the call. -/
theorem upd_call_calls (M : CMath α) (n : Nat) {h : Heap α} {q : Nat}
    (callU : ∀ x c x1, SameShape h x → backward M n x c = some x1 →
      gradOf x1 q ≠ gradOf x q → ∃ h1, backward M n h q = some h1)
    (u : Upd α) (x x1 : Heap α) (s : SameShape h x)
    (H : backward M n (u.apply x) u.tgt = some x1) :
    SameShape h x1 ∧ (gradOf x1 q ≠ gradOf x q → ∃ h1, backward M n h q = some h1) := by
  have s0 : SameShape h (u.apply x) := s.trans (Upd.apply_shape u x)
  refine ⟨s0.trans (backward_shape M H), fun hne => ?_⟩
  by_cases e : gradOf x1 q = gradOf (u.apply x) q
  · have hq : q = u.tgt := by
      by_contra hq
      exact hne (e.trans (gradOf_apply_other u x hq))
    rw [hq]
    exact backward_returns_of_shape M s0 H
  · exact callU _ _ _ s0 H e

theorem forEach_calls (M : CMath α) (n : Nat) {h : Heap α} {q : Nat}
    (F : Heap α → Nat → Option (Heap α)) : ∀ (l : List Nat),
    (∀ c ∈ l, ∀ x x1, SameShape h x → F x c = some x1 →
      SameShape h x1 ∧ (gradOf x1 q ≠ gradOf x q → ∃ h1, backward M n h q = some h1)) →
    ∀ x x1, SameShape h x → forEach F l x = some x1 → gradOf x1 q ≠ gradOf x q →
      ∃ h1, backward M n h q = some h1 := by
  intro l
  induction l with
  | nil =>
    intro _ x x1 _ H hne
    simp only [forEach, Option.some.injEq] at H
    exact absurd (H ▸ rfl) hne
  | cons c l ih =>
    intro hF x x1 s H hne
    simp only [forEach] at H
    cases hb : F x c with
    | none => simp [hb] at H
    | some xa =>
      simp only [hb] at H
      obtain ⟨sa, ca⟩ := hF c (List.mem_cons_self _ _) x xa s hb
      by_cases e : gradOf xa q = gradOf x q
      · exact ih (fun c' hc' => hF c' (List.mem_cons_of_mem _ hc')) xa x1 sa H (e ▸ hne)
      · exact ca e

theorem two_calls_calls (M : CMath α) (n : Nat) {h : Heap α} {q p c1 c2 : Nat}
    (callU : ∀ x c x1, SameShape h x → backward M n x c = some x1 →
      gradOf x1 q ≠ gradOf x q → ∃ h1, backward M n h q = some h1)
    (us : List (Upd α)) (hus : ∀ u ∈ us, u.tgt = c1 ∨ u.tgt = c2)
    (canon : backward M (n + 1) h p =
      (backward M n (applyTrace us h) c1).bind fun h3 => backward M n h3 c2)
    (h' : Heap α) (H : backward M (n + 1) h p = some h') (hne : gradOf h' q ≠ gradOf h q) :
    ∃ h1, backward M n h q = some h1 := by
  rw [canon] at H
  simp only [Option.bind_eq_some] at H
  obtain ⟨h3, hh3, hh4⟩ := H
  have s2 : SameShape h (applyTrace us h) := applyTrace_shape us h
  have s3 : SameShape h h3 := s2.trans (backward_shape M hh3)
  by_cases e4 : gradOf h' q = gradOf h3 q
  · by_cases e3 : gradOf h3 q = gradOf (applyTrace us h) q
    · have : ¬ ∀ u ∈ us, q ≠ u.tgt := fun hq =>
        hne (e4.trans (e3.trans (gradOf_applyTrace_other us h hq)))
      push_neg at this
      obtain ⟨u, hu, hq⟩ := this
      rcases hus u hu with e | e
      · rw [hq, e]; exact backward_returns_of_shape M s2 hh3
      · rw [hq, e]; exact backward_returns_of_shape M s3 hh4
    · exact callU _ _ _ s2 hh3 e3
  · exact callU _ _ _ s3 hh4 e4

/-- If one step of `backward` from `p` changes the gradient of `q`, then inside
that run `backward` was called on `q` with the remaining budget and returned. -/
theorem backward_calls_step (M : CMath α) (n : Nat)
    (callU : ∀ (h x : Heap α) (c : Nat) (x1 : Heap α) (q : Nat), SameShape h x →
      backward M n x c = some x1 → gradOf x1 q ≠ gradOf x q → ∃ h1, backward M n h q = some h1)
    (h : Heap α) (p : Nat) (h' : Heap α) (q : Nat) (H : backward M (n + 1) h p = some h')
    (hne : gradOf h' q ≠ gradOf h q) : ∃ h1, backward M n h q = some h1 := by
  cases hp : h p with
  | none => simp [backward, hp] at H
  | some v =>
    have cU := fun x c x1 => callU h x c x1 q
    by_cases o1 : v.op = "+"
    · rw [backward_eval_add M n h p (by simp [hp, o1])] at H
      simp only [hp, Option.map_some', Option.getD_some] at H
      refine forEach_calls M n _ v.prev ?_ h h' (SameShape.refl h) H hne
      intro c _ x x1 s Hc
      have Hc' := Hc
      simp only [Option.bind_eq_some] at Hc'
      obtain ⟨g, -, x0, hx0, -⟩ := Hc'
      obtain ⟨wc, hwc, -⟩ := addGrad_some hx0
      obtain ⟨vc, hvc, -⟩ := s.symm.lookup hwc
      rw [upd_bind_add s hp hvc] at Hc
      exact upd_call_calls M n cU ⟨p, c, 1⟩ x x1 s Hc
    by_cases o2 : v.op = "*"
    · have H1 := H
      rw [backward_eval_mul M n h p (by simp [hp, o2])] at H1
      simp only [hp, Option.map_some', Option.getD_some] at H1
      rcases hl : v.prev with _ | ⟨c1, _ | ⟨c2, l⟩⟩
      · simp [hl] at H1
      · simp [hl] at H1
      · simp only [hl, Option.bind_eq_some] at H1
        obtain ⟨g, -, d2, hd2, x1, hx1, -⟩ := H1
        obtain ⟨w2, hw2, -⟩ := getData_some hd2
        obtain ⟨w1, hw1, -⟩ := addGrad_some hx1
        refine two_calls_calls M n cU [⟨p, c1, w2.data⟩, ⟨p, c2, w1.data⟩] ?_
          (backward_mul_canon M n (SameShape.refl h) hp o2 hl hw1 hw2) h' H hne
        intro u hu
        simp only [List.mem_cons, List.mem_singleton, List.not_mem_nil, or_false] at hu
        rcases hu with rfl | rfl
        · exact Or.inl rfl
        · exact Or.inr rfl
    by_cases o3 : v.op = "tanh"
    · rw [backward_eval_tanh M n h p (by simp [hp, o3])] at H
      simp only [hp, Option.map_some', Option.getD_some] at H
      refine forEach_calls M n _ v.prev ?_ h h' (SameShape.refl h) H hne
      intro c _ x x1 s Hc
      have Hc' := Hc
      simp only [Option.bind_eq_some] at Hc'
      obtain ⟨g, -, d, hd, -⟩ := Hc'
      obtain ⟨wc, hwc, -⟩ := getData_some hd
      obtain ⟨vc, hvc, -⟩ := s.symm.lookup hwc
      simp only [s.getData hvc, Option.some_bind] at Hc
      rw [upd_bind s hp hvc] at Hc
      exact upd_call_calls M n cU ⟨p, c, _⟩ x x1 s Hc
    by_cases o4 : v.op = "exp"
    · rw [backward_eval_exp M n h p (by simp [hp, o4])] at H
      simp only [hp, Option.map_some', Option.getD_some] at H
      refine forEach_calls M n _ v.prev ?_ h h' (SameShape.refl h) H hne
      intro c _ x x1 s Hc
      have Hc' := Hc
      simp only [Option.bind_eq_some] at Hc'
      obtain ⟨g, -, d, hd, -⟩ := Hc'
      obtain ⟨wc, hwc, -⟩ := getData_some hd
      obtain ⟨vc, hvc, -⟩ := s.symm.lookup hwc
      simp only [s.getData hvc, Option.some_bind] at Hc
      rw [upd_bind s hp hvc] at Hc
      exact upd_call_calls M n cU ⟨p, c, _⟩ x x1 s Hc
    by_cases o5 : v.op = "pow"
    · have H1 := H
      rw [backward_eval_pow M n h p (by simp [hp, o5])] at H1
      simp only [hp, Option.map_some', Option.getD_some] at H1
      rcases hl : v.prev with _ | ⟨c1, _ | ⟨c2, l⟩⟩
      · simp [hl] at H1
      · simp [hl] at H1
      · simp only [hl, Option.bind_eq_some] at H1
        obtain ⟨d1, hd1, d2, hd2, -⟩ := H1
        obtain ⟨w1, hw1, -⟩ := getData_some hd1
        obtain ⟨w2, hw2, -⟩ := getData_some hd2
        by_cases hpos : w1.data > 0
        · refine two_calls_calls M n cU
            [⟨p, c1, w2.data * M.pow w1.data (w2.data - 1)⟩,
             ⟨p, c2, M.pow w1.data w2.data * M.log w1.data⟩] ?_
            (backward_pow_canon_pos M n (SameShape.refl h) hp o5 hl hw1 hw2 hpos) h' H hne
          intro u hu
          simp only [List.mem_cons, List.mem_singleton, List.not_mem_nil, or_false] at hu
          rcases hu with rfl | rfl
          · exact Or.inl rfl
          · exact Or.inr rfl
        · refine two_calls_calls M n cU [⟨p, c1, w2.data * M.pow w1.data (w2.data - 1)⟩] ?_
            (backward_pow_canon_neg M n (SameShape.refl h) hp o5 hl hw1 hw2 hpos) h' H hne
          intro u hu
          simp only [List.mem_cons, List.mem_singleton, List.not_mem_nil, or_false] at hu
          subst hu
          exact Or.inl rfl
    · have : backward M (n + 1) h p = some h := by
        simp [backward, hp, o1, o2, o3, o4, o5]
      rw [this] at H
      exact absurd (Option.some.inj H ▸ rfl) hne

/-- A run of `backward` changes the gradient of `q` only if it calls `backward`
on `q`, with a smaller budget, and that call returns. -/
theorem backward_calls (M : CMath α) : ∀ (n : Nat) (h : Heap α) (p : Nat) (h' : Heap α) (q : Nat),
    backward M (n + 1) h p = some h' → gradOf h' q ≠ gradOf h q →
    ∃ h1, backward M n h q = some h1 := by
  intro n
  induction n with
  | zero =>
    intro h p h' q H hne
    exact backward_calls_step M 0 (fun _ _ _ _ _ _ Hc _ => by simp [backward] at Hc) h p h' q H hne
  | succ n ih =>
    intro h p h' q H hne
    refine backward_calls_step M (n + 1) ?_ h p h' q H hne
    intro h0 x c x1 q0 s Hc hc
    obtain ⟨x2, hx2⟩ := ih x c x1 q0 Hc hc
    exact backward_returns_of_shape M s (backward_mono M hx2 (Nat.le_succ n))

/-- A run of `backward` that returns leaves the gradient of its root unchanged. -/
theorem backward_root_grad (M : CMath α) : ∀ (n : Nat) (h : Heap α) (p : Nat) (h' : Heap α),
    backward M n h p = some h' → gradOf h' p = gradOf h p := by
  intro n
  induction n with
  | zero => intro h p h' H; simp [backward] at H
  | succ n ih =>
    intro h p h' H
    by_contra hne
    obtain ⟨h1, H1⟩ := backward_calls M n h p h' p H hne
    have e := backward_mono M H1 (Nat.le_succ n)
    rw [H] at e
    exact hne ((Option.some.inj e) ▸ ih h p h1 H1)

end Calls

section C13
variable {α : Type} [LinearOrderedCommRing α]

/-- C13. Whenever `backward` from `root` returns, the heap it returns holds the
same graph -- the same addresses are allocated, and every node has the same
value, operator tag, operand list and label -- the gradient of `root` itself is
unchanged, and so is the gradient of every node that is not a transitive operand
of `root`. -/
theorem backward_frame_all (M : CMath α) (n : Nat) (h h' : Heap α) (root : Nat)
    (H : backward M n h root = some h') :
    (∀ q, (h' q).map value.shape = (h q).map value.shape) ∧
    gradOf h' root = gradOf h root ∧
    (∀ q, ¬ StrictReach h root q → h' q = h q) := by
  refine ⟨fun q => (backward_shape M H q).symm, backward_root_grad M n h root h' H, ?_⟩
  intro q hq
  have hg := backward_frame M H q hq
  have hs := backward_shape M H q
  cases e : h q with
  | none =>
    rw [e] at hs
    cases e' : h' q with
    | none => rfl
    | some w => simp [e'] at hs
  | some v =>
    obtain ⟨w, hw, hd, hp, ho, hl⟩ := (backward_shape M H).lookup e
    simp only [gradOf, hw, e] at hg
    rw [hw]
    cases v; cases w
    simp only at hd hp ho hl hg
    subst hd hp ho hl hg
    rfl

/-- C13 on `root = (a*b) + c` (the heap `reseed_heap`, root at address 5 with
gradient 1, `m = a*b` at 4): running `backward` from `m` leaves the root and the
leaf `c` as they were. -/
theorem backward_frame_all_witness :
    ∃ h', backward realMath 2 (reseed_heap : Heap ℝ) 4 = some h' ∧
      (∀ q, (h' q).map value.shape = ((reseed_heap : Heap ℝ) q).map value.shape) ∧
      gradOf h' 4 = gradOf (reseed_heap : Heap ℝ) 4 ∧
      (∀ q, ¬ StrictReach (reseed_heap : Heap ℝ) 4 q → h' q = (reseed_heap : Heap ℝ) q) := by
  have run : ∃ h', backward realMath 2 (reseed_heap : Heap ℝ) 4 = some h' := by
    simp [reseed_heap, make_shared, getData, getGrad, addGrad, Heap.write_apply,
      forEach, Heap.empty, backward_eval_leaf, backward_eval_add, backward_eval_mul]
  obtain ⟨h', e⟩ := run
  exact ⟨h', e, backward_frame_all realMath 2 reseed_heap h' 4 e⟩

end C13

/-! ## C12: tanh saturation -/

section C12

theorem one_sub_tanh_sq (x : ℝ) : 1 - Real.tanh x ^ 2 = 1 / Real.cosh x ^ 2 := by
  have hc : Real.cosh x ≠ 0 := (Real.cosh_pos x).ne'
  rw [Real.tanh_eq_sinh_div_cosh, div_pow, eq_div_iff (pow_ne_zero 2 hc), sub_mul,
    div_mul_cancel₀ _ (pow_ne_zero 2 hc), one_mul, Real.cosh_sq]
  ring

theorem one_sub_tanh_sq_le (x : ℝ) : 1 - Real.tanh x ^ 2 ≤ 2 / (1 + |x|) := by
  have h1 : 1 ≤ Real.cosh x := Real.one_le_cosh x
  have h2 : (1 + |x|) / 2 ≤ Real.cosh x := by
    rw [← Real.cosh_abs x, Real.cosh_eq]
    have := Real.add_one_le_exp |x|
    have := (Real.exp_pos (-|x|)).le
    linarith
  have h3 : (0 : ℝ) < 1 + |x| := by positivity
  rw [one_sub_tanh_sq, div_le_div_iff₀ (by positivity) h3]
  nlinarith [mul_le_mul h1 h2 (by positivity) (by positivity : (0 : ℝ) ≤ Real.cosh x)]

/-- C12. For a leaf `a` with gradient 0 and `t = a.tanh()` at a fresh address,
seeding `t.grad = 1` and running `backward` from `t` over the reals (any budget of
at least 2) returns and leaves `a.grad = 1 - tanh(a.data)^2`; this number lies in
`(0, 1]`, and `1 - tanh(x)^2` tends to 0 as `|x|` tends to infinity. -/
theorem tanh_saturation (h : Heap ℝ) (a t fuel : Nat) (va : value ℝ)
    (ha : h a = some va) (ht : h t = none) (la : va.isLeaf) (ga : va.grad = 0) :
    (∃ h3, ((tanh realMath h t a).bind fun h1 => (setGrad h1 t 1).bind fun h2 =>
        backward realMath (fuel + 2) h2 t) = some h3 ∧
      getGrad h3 a = some (1 - Real.tanh va.data ^ 2)) ∧
    0 < 1 - Real.tanh va.data ^ 2 ∧ 1 - Real.tanh va.data ^ 2 ≤ 1 ∧
    Filter.Tendsto (fun x : ℝ => 1 - Real.tanh x ^ 2) (Filter.comap abs Filter.atTop)
      (nhds 0) := by
  have hta : t ≠ a := by rintro rfl; simp [ht] at ha
  obtain ⟨oa, -⟩ := la
  refine ⟨?_, ?_, ?_, ?_⟩
  · rw [tanh_some realMath t ha]
    simp only [Option.some_bind, setGrad, Heap.write_same]
    rw [backward_eval_tanh realMath (fuel + 1) _ t (by simp)]
    simp only [Heap.write_same, Option.map_some', Option.getD_some, forEach, getGrad, getData,
      addGrad, Heap.write_other _ _ hta.symm, ha, Option.some_bind]
    rw [backward_leaf realMath fuel
      { va with grad := va.grad + 1 * (1 - realMath.pow (realMath.tanh va.data) 2) }
      (by simp [Heap.write]) oa]
    refine ⟨_, rfl, ?_⟩
    simp [Heap.write, ga, realMath]
  · rw [one_sub_tanh_sq]
    have := Real.cosh_pos va.data
    positivity
  · have := sq_nonneg (Real.tanh va.data)
    linarith
  · refine tendsto_of_tendsto_of_tendsto_of_le_of_le tendsto_const_nhds
      (?_ : Filter.Tendsto (fun x : ℝ => 2 / (1 + |x|)) _ _) ?_ one_sub_tanh_sq_le
    · have h1 : Filter.Tendsto (fun y : ℝ => 2 / (1 + y)) Filter.atTop (nhds 0) :=
        tendsto_const_nhds.div_atTop (Filter.tendsto_atTop_add_const_left _ 1 Filter.tendsto_id)
      exact h1.comp Filter.tendsto_comap
    · intro x
      show (0 : ℝ) ≤ 1 - Real.tanh x ^ 2
      rw [one_sub_tanh_sq]
      positivity

/-- C12 at `a = 0.5` (address 1), `t = a.tanh()` (address 2). -/
theorem tanh_saturation_witness :
    (∃ h3, ((tanh realMath (make_shared Heap.empty 1 (1 / 2 : ℝ) "a") 2 1).bind fun h1 =>
        (setGrad h1 2 1).bind fun h2 => backward realMath 2 h2 2) = some h3 ∧
      getGrad h3 1 = some (1 - Real.tanh (1 / 2) ^ 2)) ∧
    0 < 1 - Real.tanh (1 / 2 : ℝ) ^ 2 ∧ 1 - Real.tanh (1 / 2 : ℝ) ^ 2 ≤ 1 ∧
    Filter.Tendsto (fun x : ℝ => 1 - Real.tanh x ^ 2) (Filter.comap abs Filter.atTop)
      (nhds 0) :=
  tanh_saturation (make_shared Heap.empty 1 (1 / 2 : ℝ) "a") 1 2 0 ⟨1 / 2, 0, [], "", "a"⟩
    rfl rfl ⟨rfl, rfl⟩ rfl

end C12

/-! ## C17: acyclicity and termination -/

section C17
variable {α : Type} [LinearOrderedCommRing α]

theorem operator_add_inv {h h1 : Heap α} {r a b : Nat} (H : operator_add h r a b = some h1) :
    ∃ va vb, h a = some va ∧ h b = some vb ∧ h1 = h.write r ⟨vb.data + va.data, 0,
      multiset_insert b (multiset_insert a []), "+", ""⟩ := by
  cases ha : h a with
  | none => simp [operator_add, getData, ha] at H
  | some va =>
    cases hb : h b with
    | none => simp [operator_add, getData, hb] at H
    | some vb =>
      rw [operator_add_some r ha hb] at H
      exact ⟨va, vb, rfl, rfl, (Option.some.inj H).symm⟩

theorem operator_mul_inv {h h1 : Heap α} {r a b : Nat} (H : operator_mul h r a b = some h1) :
    ∃ va vb, h a = some va ∧ h b = some vb ∧ h1 = h.write r ⟨vb.data * va.data, 0,
      multiset_insert b (multiset_insert a []), "*", ""⟩ := by
  cases ha : h a with
  | none => simp [operator_mul, getData, ha] at H
  | some va =>
    cases hb : h b with
    | none => simp [operator_mul, getData, hb] at H
    | some vb =>
      rw [operator_mul_some r ha hb] at H
      exact ⟨va, vb, rfl, rfl, (Option.some.inj H).symm⟩

theorem pow_inv (M : CMath α) {h h1 : Heap α} {r a b : Nat} (H : pow M h r a b = some h1) :
    ∃ va vb, h a = some va ∧ h b = some vb ∧ h1 = h.write r ⟨M.pow va.data vb.data, 0,
      multiset_insert b (multiset_insert a []), "pow", ""⟩ := by
  cases ha : h a with
  | none => simp [pow, getData, ha] at H
  | some va =>
    cases hb : h b with
    | none => simp [pow, getData, hb] at H
    | some vb =>
      rw [pow_some M r ha hb] at H
      exact ⟨va, vb, rfl, rfl, (Option.some.inj H).symm⟩

theorem tanh_inv (M : CMath α) {h h1 : Heap α} {r a : Nat} (H : tanh M h r a = some h1) :
    ∃ va, h a = some va ∧ h1 = h.write r ⟨M.tanh va.data, 0, [a], "tanh", ""⟩ := by
  cases ha : h a with
  | none => simp [tanh, getData, ha] at H
  | some va =>
    rw [tanh_some M r ha] at H
    exact ⟨va, rfl, (Option.some.inj H).symm⟩

theorem exp_inv (M : CMath α) {h h1 : Heap α} {r a : Nat} (H : exp M h r a = some h1) :
    ∃ va, h a = some va ∧ h1 = h.write r ⟨M.exp va.data, 0, [a], "exp", ""⟩ := by
  cases ha : h a with
  | none => simp [exp, getData, ha] at H
  | some va =>
    rw [exp_some M r ha] at H
    exact ⟨va, rfl, (Option.some.inj H).symm⟩

theorem insert_pair_cases (a b : Nat) :
    multiset_insert b (multiset_insert a []) = [a, b] ∨
      multiset_insert b (multiset_insert a []) = [b, a] := by
  by_cases hlt : b < a
  · right; simp [multiset_insert, hlt]
  · left; simp [multiset_insert, hlt]

omit [LinearOrderedCommRing α] in
theorem Ordered.keeps {h h1 : Heap α} (k : h.keeps h1) : ∀ {l : List Nat},
    Ordered h l → Ordered h1 l
  | [], _ => trivial
  | _ :: _, ⟨hn, ⟨v, hv, wf, hc⟩, o⟩ => ⟨hn, ⟨v, k _ _ hv, wf, hc⟩, Ordered.keeps k o⟩

omit [LinearOrderedCommRing α] in
theorem Ordered.alloc {h : Heap α} : ∀ {l : List Nat}, Ordered h l →
    ∀ p ∈ l, ∃ v, h p = some v
  | [], _, p, hp => by simp at hp
  | _ :: _, ⟨_, ⟨v, hv, _, _⟩, o⟩, p, hp => by
    rcases List.mem_cons.mp hp with rfl | hp
    · exact ⟨v, hv⟩
    · exact Ordered.alloc o p hp

omit [LinearOrderedCommRing α] in
theorem Ordered.suffix {h : Heap α} : ∀ (l1 : List Nat) {l2 : List Nat},
    Ordered h (l1 ++ l2) → Ordered h l2
  | [], _, o => o
  | _ :: l1, _, ⟨_, _, o⟩ => Ordered.suffix l1 o

omit [LinearOrderedCommRing α] in
theorem Ordered.nodup {h : Heap α} : ∀ {l : List Nat}, Ordered h l → l.Nodup
  | [], _ => List.nodup_nil
  | _ :: _, ⟨hn, _, o⟩ => List.nodup_cons.mpr ⟨hn, Ordered.nodup o⟩

/-- A new node at a fresh address, with operands among the old nodes. -/
theorem Ordered.cons_write {h : Heap α} {l : List Nat} {r : Nat} (v : value α)
    (o : Ordered h l) (cl : ∀ p, (∃ w, h p = some w) → p ∈ l) (hr : h r = none)
    (wf : v.wellFormed) (hc : ∀ c ∈ v.prev, ∃ w, h c = some w) :
    Ordered (h.write r v) (r :: l) ∧ ∀ p, (∃ w, (h.write r v) p = some w) → p ∈ r :: l := by
  refine ⟨⟨?_, ⟨v, Heap.write_same _ _ _, wf, fun c hcc => cl c (hc c hcc)⟩,
    Ordered.keeps (Heap.keeps_write v hr) o⟩, ?_⟩
  · intro hrl
    obtain ⟨w, hw⟩ := Ordered.alloc o r hrl
    simp [hr] at hw
  · rintro p ⟨w, hw⟩
    by_cases hp : p = r
    · simp [hp]
    · rw [Heap.write_other _ _ hp] at hw
      exact List.mem_cons_of_mem _ (cl p ⟨w, hw⟩)

theorem Built.ordered (M : CMath α) {l : List Nat} {h : Heap α} (B : Built M l h) :
    Ordered h l ∧ ∀ p, (∃ w, h p = some w) → p ∈ l := by
  induction B with
  | empty => exact ⟨trivial, fun p ⟨w, hw⟩ => by simp [Heap.empty] at hw⟩
  | by_leaf p x lab _ hp ih =>
    exact Ordered.cons_write _ ih.1 ih.2 hp (Or.inl rfl) (fun c hc => by simp at hc)
  | by_add r a b _ hr H ih =>
    obtain ⟨va, vb, ha, hb, rfl⟩ := operator_add_inv H
    refine Ordered.cons_write _ ih.1 ih.2 hr (Or.inr (Or.inl ⟨Or.inl rfl, ?_⟩)) ?_
    · rcases insert_pair_cases a b with e | e <;> exact ⟨_, _, e⟩
    · intro c hc
      have := (insert_pair_perm a b).subset hc
      simp only [List.mem_cons, List.mem_singleton, List.not_mem_nil, or_false] at this
      rcases this with rfl | rfl
      · exact ⟨va, ha⟩
      · exact ⟨vb, hb⟩
  | by_mul r a b _ hr H ih =>
    obtain ⟨va, vb, ha, hb, rfl⟩ := operator_mul_inv H
    refine Ordered.cons_write _ ih.1 ih.2 hr (Or.inr (Or.inl ⟨Or.inr (Or.inl rfl), ?_⟩)) ?_
    · rcases insert_pair_cases a b with e | e <;> exact ⟨_, _, e⟩
    · intro c hc
      have := (insert_pair_perm a b).subset hc
      simp only [List.mem_cons, List.mem_singleton, List.not_mem_nil, or_false] at this
      rcases this with rfl | rfl
      · exact ⟨va, ha⟩
      · exact ⟨vb, hb⟩
  | by_pow r a b _ hr H ih =>
    obtain ⟨va, vb, ha, hb, rfl⟩ := pow_inv M H
    refine Ordered.cons_write _ ih.1 ih.2 hr (Or.inr (Or.inl ⟨Or.inr (Or.inr rfl), ?_⟩)) ?_
    · rcases insert_pair_cases a b with e | e <;> exact ⟨_, _, e⟩
    · intro c hc
      have := (insert_pair_perm a b).subset hc
      simp only [List.mem_cons, List.mem_singleton, List.not_mem_nil, or_false] at this
      rcases this with rfl | rfl
      · exact ⟨va, ha⟩
      · exact ⟨vb, hb⟩
  | by_tanh r a _ hr H ih =>
    obtain ⟨va, ha, rfl⟩ := tanh_inv M H
    refine Ordered.cons_write _ ih.1 ih.2 hr (Or.inr (Or.inr ⟨Or.inl rfl, a, rfl⟩)) ?_
    intro c hc
    simp only [List.mem_singleton] at hc
    exact hc ▸ ⟨va, ha⟩
  | by_exp r a _ hr H ih =>
    obtain ⟨va, ha, rfl⟩ := exp_inv M H
    refine Ordered.cons_write _ ih.1 ih.2 hr (Or.inr (Or.inr ⟨Or.inr rfl, a, rfl⟩)) ?_
    intro c hc
    simp only [List.mem_singleton] at hc
    exact hc ▸ ⟨va, ha⟩


theorem Built.by_sub (M : CMath α) {l : List Nat} {h h1 : Heap α} (t r a b : Nat)
    (B : Built M l h) (ht : h t = none) (hr : h r = none) (htr : t ≠ r)
    (H : operator_sub h t r a b = some h1) : Built M (r :: t :: l) h1 := by
  simp only [operator_sub, operator_add_scalar, Option.bind_eq_bind, Option.bind_eq_some] at H
  obtain ⟨o, -, H⟩ := H
  exact Built.by_add r a t (Built.by_leaf t _ "scalar" B ht)
    ((make_shared_other _ _ _ htr.symm).trans hr) H

theorem Built.by_div (M : CMath α) {l : List Nat} {h h1 : Heap α} (t p r a b : Nat)
    (B : Built M l h) (ht : h t = none) (hp : h p = none) (hr : h r = none) (htp : t ≠ p)
    (htr : t ≠ r) (hpr : p ≠ r) (H : operator_div M h t p r a b = some h1) :
    Built M (r :: p :: t :: l) h1 := by
  simp only [operator_div, pow_scalar, Option.bind_eq_bind, Option.bind_eq_some] at H
  obtain ⟨h0, e0, H⟩ := H
  have B0 := Built.by_pow p b t (Built.by_leaf t (-1) "scalar" B ht)
    ((make_shared_other _ _ _ htp.symm).trans hp) e0
  obtain ⟨vb, vt, _, _, rfl⟩ := pow_inv M e0
  exact Built.by_mul r a p B0
    ((Heap.write_other _ _ hpr.symm).trans ((make_shared_other _ _ _ htr.symm).trans hr)) H

/-- The builders that are not primitive steps -- subtraction, division, the
scalar and the reflected variants -- are sequences of primitive steps, so the
heaps they return are again `Built`. -/
theorem Built.by_builders (M : CMath α) {l : List Nat} {h : Heap α} (B : Built M l h)
    (a b t u p r : Nat) (s : α) (ht : h t = none) (hu : h u = none) (hp : h p = none)
    (hr : h r = none) (hd : [t, u, p, r].Nodup) :
    (∀ h1, operator_add_scalar h t r a s = some h1 → Built M (r :: t :: l) h1) ∧
    (∀ h1, operator_sub h t r a b = some h1 → Built M (r :: t :: l) h1) ∧
    (∀ h1, operator_sub_scalar h t u r a s = some h1 → Built M (r :: u :: t :: l) h1) ∧
    (∀ h1, operator_mul_scalar h t r a s = some h1 → Built M (r :: t :: l) h1) ∧
    (∀ h1, operator_div M h t p r a b = some h1 → Built M (r :: p :: t :: l) h1) ∧
    (∀ h1, operator_div_scalar M h t u p r a s = some h1 →
      Built M (r :: p :: u :: t :: l) h1) ∧
    (∀ h1, pow_scalar M h t r a s = some h1 → Built M (r :: t :: l) h1) ∧
    (∀ h1, scalar_add h t r s a = some h1 → Built M (r :: t :: l) h1) ∧
    (∀ h1, scalar_sub h t u r s a = some h1 → Built M (r :: u :: t :: l) h1) ∧
    (∀ h1, scalar_mul h t r s a = some h1 → Built M (r :: t :: l) h1) := by
  simp only [List.nodup_cons, List.mem_cons, List.mem_singleton, List.not_mem_nil, or_false,
    not_or, List.nodup_nil, not_false_eq_true, and_true] at hd
  obtain ⟨⟨htu, htp, htr⟩, ⟨hup, hur⟩, hpr⟩ := hd
  have htu : t ≠ u := htu
  have htp : t ≠ p := htp
  have htr : t ≠ r := htr
  have hup : u ≠ p := hup
  have hur : u ≠ r := hur
  have hpr : p ≠ r := hpr
  have B1 := Built.by_leaf (M := M) t s "scalar" B ht
  have hr1 : make_shared h t s "scalar" r = none := (make_shared_other _ _ _ htr.symm).trans hr
  have hu1 : make_shared h t s "scalar" u = none := (make_shared_other _ _ _ htu.symm).trans hu
  have hp1 : make_shared h t s "scalar" p = none := (make_shared_other _ _ _ htp.symm).trans hp
  refine ⟨?_, ?_, ?_, ?_, ?_, ?_, ?_, ?_, ?_, ?_⟩
  · exact fun h1 H => Built.by_add r a t B1 hr1 H
  · exact fun h1 H => Built.by_sub M t r a b B ht hr htr H
  · exact fun h1 H => Built.by_sub M u r a t B1 hu1 hr1 hur H
  · exact fun h1 H => Built.by_mul r a t B1 hr1 H
  · exact fun h1 H => Built.by_div M t p r a b B ht hp hr htp htr hpr H
  · exact fun h1 H => Built.by_div M u p r a t B1 hu1 hp1 hr1 hup hur hpr H
  · exact fun h1 H => Built.by_pow r a t B1 hr1 H
  · exact fun h1 H => Built.by_add r a t B1 hr1 H
  · exact fun h1 H => Built.by_sub M u r a t B1 hu1 hr1 hur H
  · exact fun h1 H => Built.by_mul r a t B1 hr1 H

/-- Along an ordered list, everything reachable from a listed node is listed. -/
theorem Ordered.reach_mem {h : Heap α} : ∀ {l : List Nat}, Ordered h l →
    ∀ p ∈ l, ∀ q, Reach h p q → q ∈ l
  | [], _, p, hp, _, _ => by simp at hp
  | p0 :: l, ⟨_, ⟨v, hv, _, hc⟩, o⟩, p, hp, q, r => by
    rcases List.mem_cons.mp hp with rfl | hp
    · rcases r.cases_head with e | ⟨w, c, hw, hcw, rc⟩
      · simp [e]
      · rw [hv] at hw
        have := Option.some.inj hw
        subst this
        exact List.mem_cons_of_mem _ (Ordered.reach_mem o c (hc c hcw) q rc)
    · exact List.mem_cons_of_mem _ (Ordered.reach_mem o p hp q r)

theorem Ordered.acyclic {h : Heap α} : ∀ {l : List Nat}, Ordered h l →
    ∀ p ∈ l, ¬ StrictReach h p p
  | [], _, p, hp => by simp at hp
  | p0 :: l, ⟨hn, ⟨v, hv, _, hc⟩, o⟩, p, hp => by
    rcases List.mem_cons.mp hp with rfl | hp
    · rintro ⟨w, c, hw, hcw, rc⟩
      rw [hv] at hw
      have := Option.some.inj hw
      subst this
      exact hn (Ordered.reach_mem o c (hc c hcw) _ rc)
    · exact Ordered.acyclic o p hp

/-- Along an ordered list `backward` returns from every listed node. -/
theorem Ordered.runs (M : CMath α) {h : Heap α} : ∀ {l : List Nat}, Ordered h l →
    ∀ p ∈ l, ∃ n tr, Runs M h p n tr
  | [], _, p, hp => by simp at hp
  | p0 :: l, ⟨_, ⟨v, hv, wf, hc⟩, o⟩, p, hp => by
    rcases List.mem_cons.mp hp with rfl | hp
    · rcases wf with lf | ⟨hop, c1, c2, hl⟩ | ⟨hop, c, hl⟩
      · exact ⟨1, [], Runs.leaf M hv lf⟩
      · have m1 : c1 ∈ l := hc c1 (by simp [hl])
        have m2 : c2 ∈ l := hc c2 (by simp [hl])
        obtain ⟨w1, hw1⟩ := Ordered.alloc o c1 m1
        obtain ⟨w2, hw2⟩ := Ordered.alloc o c2 m2
        obtain ⟨n1, t1, r1⟩ := Ordered.runs M o c1 m1
        obtain ⟨n2, t2, r2⟩ := Ordered.runs M o c2 m2
        have r1' := r1.mono M (le_max_left n1 n2)
        have r2' := r2.mono M (le_max_right n1 n2)
        rcases hop with hop | hop | hop
        · exact ⟨_, _, Runs.add M hv hop hl hw1 hw2 r1' r2'⟩
        · exact ⟨_, _, Runs.mul M hv hop hl hw1 hw2 r1' r2'⟩
        · by_cases hpos : w1.data > 0
          · exact ⟨_, _, Runs.pow_pos M hv hop hl hw1 hw2 hpos r1' r2'⟩
          · exact ⟨_, _, Runs.pow_neg M hv hop hl hw1 hw2 hpos r1' r2'⟩
      · have m1 : c ∈ l := hc c (by simp [hl])
        obtain ⟨w, hw⟩ := Ordered.alloc o c m1
        obtain ⟨n, t, r⟩ := Ordered.runs M o c m1
        rcases hop with hop | hop
        · exact ⟨_, _, Runs.tanh M hv hop hl hw r⟩
        · exact ⟨_, _, Runs.exp M hv hop hl hw r⟩
    · exact Ordered.runs M o p hp

/-- C17. In every heap reached by leaf constructions and builder calls at fresh
addresses, with `l` the addresses in order of creation (newest first): no
address is listed twice, the listed addresses are exactly the allocated ones,
the operands of every node come after it in `l` (they were created strictly
before it), no node is its own transitive operand, and for every node `root`
`backward` returns once the budget is large enough, whatever the gradients
stored in the heap. -/
theorem built_acyclic_terminates (M : CMath α) (l : List Nat) (h : Heap α) (B : Built M l h) :
    l.Nodup ∧ (∀ p, (∃ v, h p = some v) ↔ p ∈ l) ∧
    (∀ l1 p l2 v, l = l1 ++ p :: l2 → h p = some v → ∀ c ∈ v.prev, c ∈ l2) ∧
    (∀ p, ¬ StrictReach h p p) ∧
    (∀ root ∈ l, ∀ x, SameShape h x → ∃ n, ∀ m, n ≤ m → ∃ x1, backward M m x root = some x1) := by
  obtain ⟨o, cl⟩ := Built.ordered M B
  refine ⟨Ordered.nodup o, fun p => ⟨cl p, Ordered.alloc o p⟩, ?_, ?_, ?_⟩
  · intro l1 p l2 v e hp c hc
    obtain ⟨-, ⟨w, hw, -, hcw⟩, -⟩ := Ordered.suffix l1 (e ▸ o)
    rw [hp] at hw
    exact hcw c (Option.some.inj hw ▸ hc)
  · intro p sr
    have hp : ∃ v, h p = some v := by
      obtain ⟨v, c, hv, -, -⟩ := sr
      exact ⟨v, hv⟩
    exact Ordered.acyclic o p (cl p hp) sr
  · intro root hroot x s
    obtain ⟨n, tr, r⟩ := Ordered.runs M o root hroot
    exact ⟨n, fun m hm => ⟨_, r.2 m x hm s⟩⟩

/-- C17 for `r = (a*b) + (a*b)` built step by step: leaves `a = 2.0`, `b = 5.0` at
the addresses 1 and 2, then `m = a*b` at 3 and `r = m + m` at 4. -/
theorem built_acyclic_terminates_witness :
    [4, 3, 2, 1].Nodup ∧
    (∀ p, (∃ v, ((((make_shared (make_shared Heap.empty 1 (2 : ℝ) "a") 2 5 "b").write 3
      ⟨5 * 2, 0, [1, 2], "*", ""⟩).write 4 ⟨5 * 2 + 5 * 2, 0, [3, 3], "+", ""⟩) p) = some v)
      ↔ p ∈ [4, 3, 2, 1]) ∧
    (∀ l1 p l2 v, [4, 3, 2, 1] = l1 ++ p :: l2 →
      (((make_shared (make_shared Heap.empty 1 (2 : ℝ) "a") 2 5 "b").write 3
      ⟨5 * 2, 0, [1, 2], "*", ""⟩).write 4 ⟨5 * 2 + 5 * 2, 0, [3, 3], "+", ""⟩) p = some v →
      ∀ c ∈ v.prev, c ∈ l2) ∧
    (∀ p, ¬ StrictReach (((make_shared (make_shared Heap.empty 1 (2 : ℝ) "a") 2 5 "b").write 3
      ⟨5 * 2, 0, [1, 2], "*", ""⟩).write 4 ⟨5 * 2 + 5 * 2, 0, [3, 3], "+", ""⟩) p p) ∧
    (∀ root ∈ [4, 3, 2, 1], ∀ x,
      SameShape (((make_shared (make_shared Heap.empty 1 (2 : ℝ) "a") 2 5 "b").write 3
      ⟨5 * 2, 0, [1, 2], "*", ""⟩).write 4 ⟨5 * 2 + 5 * 2, 0, [3, 3], "+", ""⟩) x →
      ∃ n, ∀ m, n ≤ m → ∃ x1, backward realMath m x root = some x1) := by
  have B1 : Built realMath [1] (make_shared Heap.empty 1 (2 : ℝ) "a") :=
    Built.by_leaf 1 2 "a" Built.empty rfl
  have B2 : Built realMath [2, 1] (make_shared (make_shared Heap.empty 1 (2 : ℝ) "a") 2 5 "b") :=
    Built.by_leaf 2 5 "b" B1 rfl
  have B3 : Built realMath [3, 2, 1]
      ((make_shared (make_shared Heap.empty 1 (2 : ℝ) "a") 2 5 "b").write 3
        ⟨5 * 2, 0, [1, 2], "*", ""⟩) := Built.by_mul 3 1 2 B2 rfl rfl
  have B4 : Built realMath [4, 3, 2, 1]
      (((make_shared (make_shared Heap.empty 1 (2 : ℝ) "a") 2 5 "b").write 3
        ⟨5 * 2, 0, [1, 2], "*", ""⟩).write 4 ⟨5 * 2 + 5 * 2, 0, [3, 3], "+", ""⟩) :=
    Built.by_add 4 3 3 B3 rfl rfl
  exact built_acyclic_terminates realMath _ _ B4

end C17

/-! ## C19: exact derivatives on expressions without shared non-leaf nodes -/

section Unshared
variable {α : Type} [LinearOrderedCommRing α]

theorem actTrace_append (t1 t2 : List (Upd α)) (γ : Nat → α) :
    actTrace (t1 ++ t2) γ = actTrace t2 (actTrace t1 γ) := by
  simp [actTrace, List.foldl_append]

theorem Acts.congr {t : List (Upd α)} {r : Nat} {I J : List Nat} {C D : Nat → α}
    (A : Acts t r I C) (hI : ∀ i, i ∈ I → i ∈ J) (hC : ∀ q, q ∉ J → C q = D q) :
    Acts t r J D := by
  intro γ hγ q hq
  rw [A γ (fun i hi hir => hγ i (hI i hi) hir) q (fun hqi => hq (hI q hqi)), hC q hq]

/-- Both operands are updated first, then both sub-runs follow (`*`). -/
theorem Acts.batched {t1 t2 : List (Upd α)} {p r1 r2 : Nat} {I1 I2 : List Nat}
    {C1 C2 : Nat → α} (k1 k2 : α) (A1 : Acts t1 r1 I1 C1) (A2 : Acts t2 r2 I2 C2)
    (K1 : r1 ∈ I1 ∨ ∀ q, C1 q = 0) (K2 : r2 ∈ I2 ∨ ∀ q, C2 q = 0)
    (hp1 : p ∉ I1) (hp2 : p ∉ I2) (hpr1 : p ≠ r1)
    (dis : ∀ i ∈ I1, i ∉ I2) (r12 : r1 ∉ I2) (r21 : r2 ∉ I1) (z12 : ∀ i ∈ I2, C1 i = 0) :
    Acts ([⟨p, r1, k1⟩, ⟨p, r2, k2⟩] ++ (t1 ++ t2)) p (p :: (I1 ++ I2))
      (fun q => (C1 q + if q = r1 then 1 else 0) * k1 + (C2 q + if q = r2 then 1 else 0) * k2) := by
  intro γ hγ q hq
  simp only [List.mem_cons, List.mem_append, not_or] at hq
  obtain ⟨hqp, hq1, hq2⟩ := hq
  have z1 : ∀ i ∈ I1, γ i = 0 := fun i hi =>
    hγ i (List.mem_cons_of_mem _ (List.mem_append_left _ hi)) (fun e => hp1 (e ▸ hi))
  have z2 : ∀ i ∈ I2, γ i = 0 := fun i hi =>
    hγ i (List.mem_cons_of_mem _ (List.mem_append_right _ hi)) (fun e => hp2 (e ▸ hi))
  have e2 : ∀ x, Upd.act ⟨p, r2, k2⟩ (Upd.act ⟨p, r1, k1⟩ γ) x
      = γ x + (if x = r1 then γ p * k1 else 0) + (if x = r2 then γ p * k2 else 0) := by
    intro x
    simp only [Upd.act, hpr1, if_false]
    split_ifs with a b b <;> simp_all
  have e3 : ∀ x, x ∉ I1 → actTrace t1 (Upd.act ⟨p, r2, k2⟩ (Upd.act ⟨p, r1, k1⟩ γ)) x
      = Upd.act ⟨p, r2, k2⟩ (Upd.act ⟨p, r1, k1⟩ γ) x
        + Upd.act ⟨p, r2, k2⟩ (Upd.act ⟨p, r1, k1⟩ γ) r1 * C1 x := by
    refine A1 _ (fun i hi hir => ?_)
    have hi2 : i ≠ r2 := fun e => r21 (e ▸ hi)
    rw [e2 i, z1 i hi, if_neg hir, if_neg hi2]
    ring
  have e4 : ∀ x, x ∉ I2 →
      actTrace t2 (actTrace t1 (Upd.act ⟨p, r2, k2⟩ (Upd.act ⟨p, r1, k1⟩ γ))) x
      = actTrace t1 (Upd.act ⟨p, r2, k2⟩ (Upd.act ⟨p, r1, k1⟩ γ)) x
        + actTrace t1 (Upd.act ⟨p, r2, k2⟩ (Upd.act ⟨p, r1, k1⟩ γ)) r2 * C2 x := by
    refine A2 _ (fun i hi hir => ?_)
    have hi1 : i ∉ I1 := fun h1 => dis i h1 hi
    have hir1 : i ≠ r1 := fun e => r12 (e ▸ hi)
    rw [e3 i hi1, e2 i, z2 i hi, if_neg hir1, if_neg hir, z12 i hi]
    ring
  show actTrace (t1 ++ t2) (Upd.act ⟨p, r2, k2⟩ (Upd.act ⟨p, r1, k1⟩ γ)) q = _
  rw [actTrace_append, e4 q hq2, e3 q hq1, e3 r2 r21, e2 q, e2 r1, e2 r2]
  simp only [if_true]
  rcases K1 with m1 | c1
  · have g1 : γ r1 = 0 := z1 r1 m1
    have n12 : r1 ≠ r2 := fun e => r21 (e ▸ m1)
    rcases K2 with m2 | c2
    · have g2 : γ r2 = 0 := z2 r2 m2
      rw [g1, g2, z12 r2 m2, if_neg n12, if_neg n12.symm]
      split_ifs <;> ring
    · rw [g1, if_neg n12, if_neg n12.symm]
      simp only [c2]
      split_ifs <;> ring
  · simp only [c1]
    rcases K2 with m2 | c2
    · have g2 : γ r2 = 0 := z2 r2 m2
      have n12 : r1 ≠ r2 := fun e => r12 (e ▸ m2)
      rw [g2, if_neg n12, if_neg n12.symm]
      split_ifs <;> ring
    · simp only [c2]
      split_ifs <;> ring

/-- Each operand is updated and its sub-run follows at once (`+`). -/
theorem Acts.interleaved {t1 t2 : List (Upd α)} {p r1 r2 : Nat} {I1 I2 : List Nat}
    {C1 C2 : Nat → α} (k1 k2 : α) (A1 : Acts t1 r1 I1 C1) (A2 : Acts t2 r2 I2 C2)
    (K1 : r1 ∈ I1 ∨ ∀ q, C1 q = 0) (K2 : r2 ∈ I2 ∨ ∀ q, C2 q = 0)
    (hp1 : p ∉ I1) (hp2 : p ∉ I2) (hpr1 : p ≠ r1) (c1p : C1 p = 0)
    (dis : ∀ i ∈ I1, i ∉ I2) (r12 : r1 ∉ I2) (r21 : r2 ∉ I1) (z12 : ∀ i ∈ I2, C1 i = 0) :
    Acts (⟨p, r1, k1⟩ :: t1 ++ ⟨p, r2, k2⟩ :: t2) p (p :: (I1 ++ I2))
      (fun q => (C1 q + if q = r1 then 1 else 0) * k1 + (C2 q + if q = r2 then 1 else 0) * k2) := by
  intro γ hγ q hq
  simp only [List.mem_cons, List.mem_append, not_or] at hq
  obtain ⟨hqp, hq1, hq2⟩ := hq
  have z1 : ∀ i ∈ I1, γ i = 0 := fun i hi =>
    hγ i (List.mem_cons_of_mem _ (List.mem_append_left _ hi)) (fun e => hp1 (e ▸ hi))
  have z2 : ∀ i ∈ I2, γ i = 0 := fun i hi =>
    hγ i (List.mem_cons_of_mem _ (List.mem_append_right _ hi)) (fun e => hp2 (e ▸ hi))
  have e1 : ∀ x, Upd.act ⟨p, r1, k1⟩ γ x = γ x + (if x = r1 then γ p * k1 else 0) := by
    intro x
    simp only [Upd.act]
    split_ifs with a <;> simp_all
  have e2 : ∀ x, x ∉ I1 → actTrace t1 (Upd.act ⟨p, r1, k1⟩ γ) x
      = Upd.act ⟨p, r1, k1⟩ γ x + Upd.act ⟨p, r1, k1⟩ γ r1 * C1 x := by
    refine A1 _ (fun i hi hir => ?_)
    rw [e1 i, z1 i hi, if_neg hir]
    ring
  have e2p : actTrace t1 (Upd.act ⟨p, r1, k1⟩ γ) p = γ p := by
    rw [e2 p hp1, e1 p, if_neg hpr1, c1p]
    ring
  have e3 : ∀ x, Upd.act ⟨p, r2, k2⟩ (actTrace t1 (Upd.act ⟨p, r1, k1⟩ γ)) x
      = actTrace t1 (Upd.act ⟨p, r1, k1⟩ γ) x + (if x = r2 then γ p * k2 else 0) := by
    intro x
    simp only [Upd.act, e2p]
    split_ifs with a <;> simp_all
  have e4 : ∀ x, x ∉ I2 →
      actTrace t2 (Upd.act ⟨p, r2, k2⟩ (actTrace t1 (Upd.act ⟨p, r1, k1⟩ γ))) x
      = Upd.act ⟨p, r2, k2⟩ (actTrace t1 (Upd.act ⟨p, r1, k1⟩ γ)) x
        + Upd.act ⟨p, r2, k2⟩ (actTrace t1 (Upd.act ⟨p, r1, k1⟩ γ)) r2 * C2 x := by
    refine A2 _ (fun i hi hir => ?_)
    have hi1 : i ∉ I1 := fun h1 => dis i h1 hi
    have hir1 : i ≠ r1 := fun e => r12 (e ▸ hi)
    rw [e3 i, e2 i hi1, e1 i, z2 i hi, if_neg hir1, if_neg hir, z12 i hi]
    ring
  show actTrace (t1 ++ ⟨p, r2, k2⟩ :: t2) (Upd.act ⟨p, r1, k1⟩ γ) q = _
  rw [actTrace_append, actTrace_cons, e4 q hq2, e3 q, e3 r2, e2 q hq1, e2 r2 r21, e1 q, e1 r1,
    e1 r2]
  simp only [if_true]
  rcases K1 with m1 | c1
  · have g1 : γ r1 = 0 := z1 r1 m1
    have n12 : r1 ≠ r2 := fun e => r21 (e ▸ m1)
    rcases K2 with m2 | c2
    · have g2 : γ r2 = 0 := z2 r2 m2
      rw [g1, g2, z12 r2 m2, if_neg n12.symm]
      split_ifs <;> ring
    · rw [g1, if_neg n12.symm]
      simp only [c2]
      split_ifs <;> ring
  · simp only [c1]
    rcases K2 with m2 | c2
    · have g2 : γ r2 = 0 := z2 r2 m2
      have n12 : r1 ≠ r2 := fun e => r12 (e ▸ m2)
      rw [g2, if_neg n12.symm]
      split_ifs <;> ring
    · simp only [c2]
      split_ifs <;> ring

omit [LinearOrderedCommRing α] in
theorem Formula.root_cases (e : Formula) : e.root ∈ e.internals ∨ e = Formula.leaf e.root := by
  cases e with
  | leaf p => exact Or.inr rfl
  | add p a b => exact Or.inl (List.mem_cons_self _ _)
  | mul p a b => exact Or.inl (List.mem_cons_self _ _)

theorem Formula.deriv_eq_zero (ρ : Nat → α) (x : Nat) : ∀ (e : Formula), x ∉ e.leaves →
    e.deriv ρ x = 0
  | Formula.leaf p, hx => by
    have : p ≠ x := fun e => hx (by simp [Formula.leaves, e])
    simp [Formula.deriv, this]
  | Formula.add p a b, hx => by
    simp only [Formula.leaves, List.mem_append, not_or] at hx
    simp [Formula.deriv, Formula.deriv_eq_zero ρ x a hx.1, Formula.deriv_eq_zero ρ x b hx.2]
  | Formula.mul p a b, hx => by
    simp only [Formula.leaves, List.mem_append, not_or] at hx
    simp [Formula.deriv, Formula.deriv_eq_zero ρ x a hx.1, Formula.deriv_eq_zero ρ x b hx.2]

theorem Formula.eval_congr {ρ σ : Nat → α} : ∀ (e : Formula), (∀ q ∈ e.leaves, ρ q = σ q) →
    e.eval ρ = e.eval σ
  | Formula.leaf p, hq => hq p (by simp [Formula.leaves])
  | Formula.add p a b, hq => by
    simp only [Formula.eval]
    rw [Formula.eval_congr a (fun q h => hq q (by simp [Formula.leaves, h])),
      Formula.eval_congr b (fun q h => hq q (by simp [Formula.leaves, h]))]
  | Formula.mul p a b, hq => by
    simp only [Formula.eval]
    rw [Formula.eval_congr a (fun q h => hq q (by simp [Formula.leaves, h])),
      Formula.eval_congr b (fun q h => hq q (by simp [Formula.leaves, h]))]

theorem Repr.leaves_op {h : Heap α} : ∀ {e : Formula}, Repr h e → ∀ q ∈ e.leaves,
    ∃ v, h q = some v ∧ v.op = ""
  | Formula.leaf p, ⟨v, hv, ho⟩, q, hq => by
    simp only [Formula.leaves, List.mem_singleton] at hq
    exact hq ▸ ⟨v, hv, ho⟩
  | Formula.add p a b, ⟨_, ra, rb⟩, q, hq => by
    simp only [Formula.leaves, List.mem_append] at hq
    rcases hq with hq | hq
    · exact Repr.leaves_op ra q hq
    · exact Repr.leaves_op rb q hq
  | Formula.mul p a b, ⟨_, ra, rb⟩, q, hq => by
    simp only [Formula.leaves, List.mem_append] at hq
    rcases hq with hq | hq
    · exact Repr.leaves_op ra q hq
    · exact Repr.leaves_op rb q hq

theorem Repr.internals_op {h : Heap α} : ∀ {e : Formula}, Repr h e → ∀ q ∈ e.internals,
    ∃ v, h q = some v ∧ v.op ≠ ""
  | Formula.leaf p, _, q, hq => by simp [Formula.internals] at hq
  | Formula.add p a b, ⟨⟨v, hv, ho, _⟩, ra, rb⟩, q, hq => by
    simp only [Formula.internals, List.mem_cons, List.mem_append] at hq
    rcases hq with rfl | hq | hq
    · exact ⟨v, hv, by simp [ho]⟩
    · exact Repr.internals_op ra q hq
    · exact Repr.internals_op rb q hq
  | Formula.mul p a b, ⟨⟨v, hv, ho, _⟩, ra, rb⟩, q, hq => by
    simp only [Formula.internals, List.mem_cons, List.mem_append] at hq
    rcases hq with rfl | hq | hq
    · exact ⟨v, hv, by simp [ho]⟩
    · exact Repr.internals_op ra q hq
    · exact Repr.internals_op rb q hq

/-- The node an expression ends in holds the value of the expression. -/
theorem Repr.root_data {h : Heap α} : ∀ {e : Formula}, Repr h e →
    ∃ v, h e.root = some v ∧ v.data = e.eval (leafData h)
  | Formula.leaf p, ⟨v, hv, _⟩ => ⟨v, hv, by simp [Formula.eval, leafData, hv]⟩
  | Formula.add p a b, ⟨⟨v, hv, _, _, hd⟩, _, _⟩ => ⟨v, hv, hd⟩
  | Formula.mul p a b, ⟨⟨v, hv, _, _, hd⟩, _, _⟩ => ⟨v, hv, hd⟩

/-- A tagged node outside the non-leaf nodes of an expression receives nothing
from it. -/
theorem Repr.contrib_zero {h : Heap α} {e : Formula} (rep : Repr h e) {q : Nat} {v : value α}
    (hq : h q = some v) (hop : v.op ≠ "") (hqi : q ∉ e.internals) :
    e.deriv (leafData h) q - (if q = e.root then 1 else 0) = 0 := by
  have nl : q ∉ e.leaves := fun hl => by
    obtain ⟨w, hw, ho⟩ := rep.leaves_op q hl
    rw [hq] at hw
    exact hop (Option.some.inj hw ▸ ho)
  have nr : q ≠ e.root := by
    rintro rfl
    rcases e.root_cases with hr | hr
    · exact hqi hr
    · apply nl
      rw [hr]
      simp [Formula.leaves, Formula.root]
  rw [Formula.deriv_eq_zero _ q e nl, if_neg nr, sub_zero]

end Unshared

section Unshared2
variable {α : Type} [LinearOrderedCommRing α]

/-- What one sub-expression `a` of a node `p` contributes to the side conditions of
`Acts.batched` and `Acts.interleaved`, `b` being the other sub-expression. -/
theorem Repr.side {h : Heap α} {p : Nat} {v : value α} (hv : h p = some v) (hop : v.op ≠ "")
    {a b : Formula} (ra : Repr h a) (rb : Repr h b) (hpa : p ∉ a.internals)
    (dis : ∀ i ∈ a.internals, i ∉ b.internals) :
    (a.root ∈ a.internals ∨
      ∀ q, a.deriv (leafData h) q - (if q = a.root then 1 else 0) = 0) ∧
    p ≠ a.root ∧ a.deriv (leafData h) p - (if p = a.root then 1 else 0) = 0 ∧
    a.root ∉ b.internals ∧
    ∀ i ∈ b.internals, a.deriv (leafData h) i - (if i = a.root then 1 else 0) = 0 := by
  have leafop : a = Formula.leaf a.root → ∃ w, h a.root = some w ∧ w.op = "" := by
    intro e
    exact ra.leaves_op a.root (by rw [e]; simp [Formula.leaves, Formula.root])
  refine ⟨?_, ?_, ra.contrib_zero hv hop hpa, ?_, ?_⟩
  · cases a with
    | leaf r =>
      right
      intro q
      simp only [Formula.deriv, Formula.root]
      by_cases e : q = r
      · simp [e]
      · simp [e, Ne.symm e]
    | add r a1 a2 => exact Or.inl (List.mem_cons_self _ _)
    | mul r a1 a2 => exact Or.inl (List.mem_cons_self _ _)
  · rcases a.root_cases with hr | hr
    · exact fun e => hpa (e ▸ hr)
    · obtain ⟨w, hw, ho⟩ := leafop hr
      intro e
      rw [← e, hv] at hw
      exact hop (Option.some.inj hw ▸ ho)
  · rcases a.root_cases with hr | hr
    · exact dis _ hr
    · obtain ⟨w, hw, ho⟩ := leafop hr
      intro hb
      obtain ⟨w2, hw2, ho2⟩ := rb.internals_op _ hb
      rw [hw] at hw2
      exact ho2 (Option.some.inj hw2 ▸ ho)
  · intro i hi
    obtain ⟨w, hw, ho⟩ := rb.internals_op i hi
    exact ra.contrib_zero hw ho (fun hia => dis i hia hi)

omit [LinearOrderedCommRing α] in
theorem nodup_node {p : Nat} {I1 I2 : List Nat} (nd : (p :: (I1 ++ I2)).Nodup) :
    p ∉ I1 ∧ p ∉ I2 ∧ I1.Nodup ∧ I2.Nodup ∧ (∀ i ∈ I1, i ∉ I2) ∧ ∀ i ∈ I2, i ∉ I1 := by
  rw [List.nodup_cons, List.mem_append, not_or, List.nodup_append] at nd
  obtain ⟨⟨h1, h2⟩, n1, n2, d⟩ := nd
  exact ⟨h1, h2, n1, n2, fun i hi hi2 => d hi hi2, fun i hi2 hi => d hi hi2⟩

/-- On an expression whose non-leaf nodes are used once each, `backward` from the
root returns, and what it adds to the gradient of a node outside the non-leaf
nodes is the root's gradient times the partial derivative. -/
theorem Repr.acts (M : CMath α) {h : Heap α} : ∀ (e : Formula), Repr h e →
    e.internals.Nodup →
    ∃ n tr, Runs M h e.root n tr ∧ Acts tr e.root e.internals
      (fun q => e.deriv (leafData h) q - (if q = e.root then 1 else 0))
  | Formula.leaf p, ⟨v, hv, ho⟩, _ => by
    refine ⟨1, [], Runs.leaf M hv ho, fun γ _ q _ => ?_⟩
    simp only [Formula.deriv, Formula.root, actTrace, List.foldl_nil]
    by_cases e : q = p
    · simp [e]
    · simp [e, Ne.symm e]
  | Formula.add p a b, ⟨⟨v, hv, ho, hl, _⟩, ra, rb⟩, nd => by
    obtain ⟨hpa, hpb, nda, ndb, dab, dba⟩ := nodup_node nd
    obtain ⟨na, ta, Ra, Aa⟩ := Repr.acts M a ra nda
    obtain ⟨nb, tb, Rb, Ab⟩ := Repr.acts M b rb ndb
    obtain ⟨wa, hwa, -⟩ := ra.root_data
    obtain ⟨wb, hwb, -⟩ := rb.root_data
    have hop : v.op ≠ "" := by simp [ho]
    obtain ⟨Ka, pa, cpa, rab, zab⟩ := Repr.side hv hop ra rb hpa dab
    obtain ⟨Kb, pb, cpb, rba, zba⟩ := Repr.side hv hop rb ra hpb dba
    have Ra' := Ra.mono M (le_max_left na nb)
    have Rb' := Rb.mono M (le_max_right na nb)
    by_cases hlt : b.root < a.root
    · have hl' : v.prev = [b.root, a.root] := by rw [hl]; simp [multiset_insert, hlt]
      refine ⟨_, _, Runs.add M hv ho hl' hwb hwa Rb' Ra', ?_⟩
      refine (Acts.interleaved 1 1 Ab Aa Kb Ka hpb hpa pb cpb dba rba rab zba).congr ?_ ?_
      · intro i hi
        simp only [Formula.internals, List.mem_cons, List.mem_append] at hi ⊢
        tauto
      · intro q hq
        have hqp : q ≠ p := fun e => hq (by simp [Formula.internals, e])
        simp only [Formula.deriv, Formula.root, if_neg hqp]
        ring
    · have hl' : v.prev = [a.root, b.root] := by rw [hl]; simp [multiset_insert, hlt]
      refine ⟨_, _, Runs.add M hv ho hl' hwa hwb Ra' Rb', ?_⟩
      refine (Acts.interleaved 1 1 Aa Ab Ka Kb hpa hpb pa cpa dab rab rba zab).congr ?_ ?_
      · intro i hi
        exact hi
      · intro q hq
        have hqp : q ≠ p := fun e => hq (by simp [Formula.internals, e])
        simp only [Formula.deriv, Formula.root, if_neg hqp]
        ring
  | Formula.mul p a b, ⟨⟨v, hv, ho, hl, _⟩, ra, rb⟩, nd => by
    obtain ⟨hpa, hpb, nda, ndb, dab, dba⟩ := nodup_node nd
    obtain ⟨na, ta, Ra, Aa⟩ := Repr.acts M a ra nda
    obtain ⟨nb, tb, Rb, Ab⟩ := Repr.acts M b rb ndb
    obtain ⟨wa, hwa, da⟩ := ra.root_data
    obtain ⟨wb, hwb, db⟩ := rb.root_data
    have hop : v.op ≠ "" := by simp [ho]
    obtain ⟨Ka, pa, cpa, rab, zab⟩ := Repr.side hv hop ra rb hpa dab
    obtain ⟨Kb, pb, cpb, rba, zba⟩ := Repr.side hv hop rb ra hpb dba
    have Ra' := Ra.mono M (le_max_left na nb)
    have Rb' := Rb.mono M (le_max_right na nb)
    by_cases hlt : b.root < a.root
    · have hl' : v.prev = b.root :: a.root :: [] := by rw [hl]; simp [multiset_insert, hlt]
      refine ⟨_, _, Runs.mul M hv ho hl' hwb hwa Rb' Ra', ?_⟩
      refine (Acts.batched wa.data wb.data Ab Aa Kb Ka hpb hpa pb dba rba rab zba).congr ?_ ?_
      · intro i hi
        simp only [Formula.internals, List.mem_cons, List.mem_append] at hi ⊢
        tauto
      · intro q hq
        have hqp : q ≠ p := fun e => hq (by simp [Formula.internals, e])
        simp only [Formula.deriv, Formula.root, if_neg hqp, da, db]
        ring
    · have hl' : v.prev = a.root :: b.root :: [] := by rw [hl]; simp [multiset_insert, hlt]
      refine ⟨_, _, Runs.mul M hv ho hl' hwa hwb Ra' Rb', ?_⟩
      refine (Acts.batched wb.data wa.data Aa Ab Ka Kb hpa hpb pa dab rab rba zab).congr ?_ ?_
      · intro i hi
        exact hi
      · intro q hq
        have hqp : q ≠ p := fun e => hq (by simp [Formula.internals, e])
        simp only [Formula.deriv, Formula.root, if_neg hqp, da, db]
        ring

end Unshared2

section C19
variable {α : Type} [LinearOrderedCommRing α]

theorem leafData_keeps {h h1 : Heap α} (k : h.keeps h1) {q : Nat} {v : value α}
    (hq : h q = some v) : leafData h1 q = leafData h q := by
  simp [leafData, hq, k q v hq]

theorem Repr.eval_keeps {h h1 : Heap α} (k : h.keeps h1) {e : Formula} (rep : Repr h e) :
    e.eval (leafData h1) = e.eval (leafData h) :=
  Formula.eval_congr e (fun q hq => by
    obtain ⟨v, hv, -⟩ := rep.leaves_op q hq
    exact leafData_keeps k hv)

/-- An expression held by a heap is held by every heap that keeps its nodes. -/
theorem Repr.of_keeps {h h1 : Heap α} (k : h.keeps h1) : ∀ {e : Formula}, Repr h e → Repr h1 e
  | Formula.leaf p, ⟨v, hv, ho⟩ => ⟨v, k _ _ hv, ho⟩
  | Formula.add p a b, ⟨⟨v, hv, ho, hl, hd⟩, ra, rb⟩ =>
    ⟨⟨v, k _ _ hv, ho, hl, by rw [hd, ra.eval_keeps k, rb.eval_keeps k]⟩,
      Repr.of_keeps k ra, Repr.of_keeps k rb⟩
  | Formula.mul p a b, ⟨⟨v, hv, ho, hl, hd⟩, ra, rb⟩ =>
    ⟨⟨v, k _ _ hv, ho, hl, by rw [hd, ra.eval_keeps k, rb.eval_keeps k]⟩,
      Repr.of_keeps k ra, Repr.of_keeps k rb⟩

/-- The node `operator+` builds from the roots of two expressions the heap holds
is the root of their sum. -/
theorem Repr.of_add {h h1 : Heap α} {a b : Formula} {r : Nat} (ra : Repr h a) (rb : Repr h b)
    (hr : h r = none) (H : operator_add h r a.root b.root = some h1) :
    Repr h1 (Formula.add r a b) := by
  obtain ⟨va, vb, ha, hb, rfl⟩ := operator_add_inv H
  obtain ⟨wa, hwa, da⟩ := ra.root_data
  obtain ⟨wb, hwb, db⟩ := rb.root_data
  rw [ha] at hwa
  rw [hb] at hwb
  have ea := Option.some.inj hwa
  have eb := Option.some.inj hwb
  subst ea eb
  have k := Heap.keeps_write (⟨vb.data + va.data, 0,
    multiset_insert b.root (multiset_insert a.root []), "+", ""⟩ : value α) hr
  exact ⟨⟨_, Heap.write_same _ _ _, rfl, rfl, by
    show vb.data + va.data = _
    rw [ra.eval_keeps k, rb.eval_keeps k, da, db]⟩, Repr.of_keeps k ra, Repr.of_keeps k rb⟩

/-- The node `operator*` builds from the roots of two expressions the heap holds
is the root of their product. -/
theorem Repr.of_mul {h h1 : Heap α} {a b : Formula} {r : Nat} (ra : Repr h a) (rb : Repr h b)
    (hr : h r = none) (H : operator_mul h r a.root b.root = some h1) :
    Repr h1 (Formula.mul r a b) := by
  obtain ⟨va, vb, ha, hb, rfl⟩ := operator_mul_inv H
  obtain ⟨wa, hwa, da⟩ := ra.root_data
  obtain ⟨wb, hwb, db⟩ := rb.root_data
  rw [ha] at hwa
  rw [hb] at hwb
  have ea := Option.some.inj hwa
  have eb := Option.some.inj hwb
  subst ea eb
  have k := Heap.keeps_write (⟨vb.data * va.data, 0,
    multiset_insert b.root (multiset_insert a.root []), "*", ""⟩ : value α) hr
  exact ⟨⟨_, Heap.write_same _ _ _, rfl, rfl, by
    show vb.data * va.data = _
    rw [ra.eval_keeps k, rb.eval_keeps k, da, db]⟩, Repr.of_keeps k ra, Repr.of_keeps k rb⟩

/-- The gradients `backward` leaves at the leaves of an expression whose non-leaf
nodes are used once each are the formal partial derivatives. -/
theorem Repr.gradients (M : CMath α) {h : Heap α} {e : Formula} (rep : Repr h e)
    (once : e.internals.Nodup) (zero : ∀ q, gradOf h q = 0) :
    ∃ n, ∀ m, n ≤ m → ∃ h1,
      ((setGrad h e.root 1).bind fun x => backward M m x e.root) = some h1 ∧
      ∀ x ∈ e.leaves, (∃ v, h1 x = some v) ∧ gradOf h1 x = e.deriv (leafData h) x := by
  obtain ⟨n, tr, run, acts⟩ := Repr.acts M e rep once
  obtain ⟨vr, hvr, -⟩ := rep.root_data
  refine ⟨n, fun m hm => ?_⟩
  have s : SameShape h (h.write e.root { vr with grad := 1 }) := SameShape.write_grad hvr 1
  refine ⟨_, by simp only [setGrad, hvr, Option.some_bind]; exact run.2 m _ hm s, ?_⟩
  intro x hx
  obtain ⟨v, hv, ho⟩ := rep.leaves_op x hx
  have hxi : x ∉ e.internals := fun hi => by
    obtain ⟨w, hw, hwo⟩ := rep.internals_op x hi
    rw [hv] at hw
    exact hwo (Option.some.inj hw ▸ ho)
  refine ⟨?_, ?_⟩
  · obtain ⟨w, hw, -⟩ := (s.applyTrace tr).lookup hv
    exact ⟨w, hw⟩
  · rw [gradOf_applyTrace run.1 _ s, gradOf_write_grad zero 1,
      acts _ (fun i _ hir => by simp [hir]) x hxi]
    by_cases e1 : x = e.root
    · rw [e1, Pi.single_eq_same]
      simp only [if_true]
      ring
    · rw [Pi.single_eq_of_ne e1, Pi.single_eq_same]
      simp only [if_neg e1]
      ring

theorem Formula.hasDerivAt (ρ : Nat → ℝ) (x : Nat) : ∀ e : Formula,
    HasDerivAt (fun t => e.eval (Function.update ρ x t)) (e.deriv ρ x) (ρ x)
  | Formula.leaf p => by
    by_cases hp : p = x
    · subst hp
      simpa [Formula.eval, Formula.deriv] using hasDerivAt_id (ρ p)
    · simpa [Formula.eval, Formula.deriv, hp] using hasDerivAt_const (ρ x) (ρ p)
  | Formula.add p a b => (Formula.hasDerivAt ρ x b).add (Formula.hasDerivAt ρ x a)
  | Formula.mul p a b => by
    have := (Formula.hasDerivAt ρ x b).mul (Formula.hasDerivAt ρ x a)
    simpa only [Function.update_eq_self] using this

/-- C19. Let the heap hold an expression built from leaves with Add and Multiply
in which no non-leaf node is used twice (leaves may be), all gradients being 0.
The root holds the value of the expression, and once the budget is large enough
seeding the root with 1 and running `backward` from it returns and leaves at
every leaf `x` the formal partial derivative, which is the derivative of the
value of the expression as a function of the value of `x`. -/
theorem exact_derivative_unshared (M : CMath ℝ) (h : Heap ℝ) (e : Formula) (rep : Repr h e)
    (once : e.internals.Nodup) (zero : ∀ q, gradOf h q = 0) :
    getData h e.root = some (e.eval (leafData h)) ∧
    ∃ n, ∀ m, n ≤ m → ∃ h1,
      ((setGrad h e.root 1).bind fun x => backward M m x e.root) = some h1 ∧
      ∀ x ∈ e.leaves, getGrad h1 x = some (e.deriv (leafData h) x) ∧
        HasDerivAt (fun t => e.eval (Function.update (leafData h) x t))
          (e.deriv (leafData h) x) (leafData h x) := by
  refine ⟨?_, ?_⟩
  · obtain ⟨v, hv, hd⟩ := rep.root_data
    simp [getData, hv, hd]
  · obtain ⟨n, hn⟩ := rep.gradients M once zero
    refine ⟨n, fun m hm => ?_⟩
    obtain ⟨h1, run, hg⟩ := hn m hm
    refine ⟨h1, run, fun x hx => ?_⟩
    obtain ⟨⟨v, hv⟩, g⟩ := hg x hx
    exact ⟨by rw [getGrad_of_alloc hv, g], Formula.hasDerivAt _ x e⟩

theorem unshared_heap_built :
    ((operator_mul (make_shared (make_shared Heap.empty 1 (2 : α) "a") 2 3 "b") 3 1 2).bind
      fun h => operator_add h 4 3 1) = some unshared_heap := by
  simp [operator_mul, operator_add, make_shared, getData, Heap.write_apply, multiset_insert,
    unshared_heap]

/-- C19 on `r = a*b + a` with `a = 2.0`, `b = 3.0`: the leaf `a` is used twice, the
product once; `backward` leaves `a.grad = b + 1` and `b.grad = a`. -/
theorem exact_derivative_unshared_witness :
    getData (unshared_heap : Heap ℝ) unshared_formula.root
      = some (unshared_formula.eval (leafData (unshared_heap : Heap ℝ))) ∧
    ∃ n, ∀ m, n ≤ m → ∃ h1,
      ((setGrad (unshared_heap : Heap ℝ) unshared_formula.root 1).bind fun x =>
        backward realMath m x unshared_formula.root) = some h1 ∧
      ∀ x ∈ unshared_formula.leaves,
        getGrad h1 x = some (unshared_formula.deriv (leafData (unshared_heap : Heap ℝ)) x) ∧
        HasDerivAt (fun t => unshared_formula.eval
            (Function.update (leafData (unshared_heap : Heap ℝ)) x t))
          (unshared_formula.deriv (leafData (unshared_heap : Heap ℝ)) x)
          (leafData (unshared_heap : Heap ℝ) x) :=
  exact_derivative_unshared realMath unshared_heap unshared_formula
    ⟨⟨_, rfl, rfl, rfl, rfl⟩, ⟨⟨_, rfl, rfl, rfl, rfl⟩, ⟨_, rfl, rfl⟩, ⟨_, rfl, rfl⟩⟩,
      ⟨_, rfl, rfl⟩⟩
    (by decide)
    (fun q => by
      simp only [gradOf, unshared_heap, make_shared, Heap.write_apply, Heap.empty]
      split_ifs <;> rfl)

end C19

/-! ## C16: the traversal order -/

section C16
variable {α : Type} [LinearOrderedCommRing α]

theorem square_heap_built :
    ((operator_mul (make_shared (make_shared Heap.empty 1 (2 : α) "a") 2 3 "b") 3 1 2).bind
      fun h => (operator_mul h 4 3 3).bind fun h1 => setGrad h1 4 1) = some square_heap := by
  simp [operator_mul, setGrad, make_shared, getData, Heap.write_apply, multiset_insert,
    square_heap, Heap.write_write_same]

end C16

section C16b
variable {α : Type} [LinearOrderedCommRing α]

end C16b

section C16c
variable {α : Type} [LinearOrderedCommRing α]

theorem product_heap_built :
    ((operator_mul (make_shared (make_shared Heap.empty 1 (2 : α) "a") 2 3 "b") 3 1 2).bind
      fun h => (operator_add h 4 1 2).bind fun h1 => (operator_mul h1 5 3 4).bind fun h2 =>
      setGrad h2 5 1) = some product_heap := by
  simp [operator_mul, operator_add, setGrad, make_shared, getData, Heap.write_apply,
    multiset_insert, product_heap, Heap.write_write_same]

end C16c

end MicroGrad
